import Mathlib

/-!
# mai_ir: boolean full-text search core

A shallow embedding of the retrieval core of `felness/mai_ir`
(`tokenizer.cpp`, `stemmer.cpp`, `boolean_index.cpp`, `search_engine.cpp`)
together with theorems about it.

Conventions of the embedding.

* A `std::string` is a list of bytes, `Bytes = List Nat`; a byte is a natural
  number below 256.  Every function below is defined on all naturals and the
  theorems hold for all of them, in particular for byte strings.
* A `std::vector<uint32_t>` is a `List Nat`; the only arithmetic the program
  performs on a document id is `doc_id++`, which is taken modulo `2^32`.
* A `while` loop becomes a recursive function on a fuel argument that is
  instantiated with a bound the loop provably never exceeds.
* `std::unordered_map<std::string, std::vector<uint32_t>>` is an association
  list with unique keys; it is only ever observed through `get_postings`.
-/

namespace MaiIr

/-- A `std::string`, as the list of its bytes. -/
abbrev Bytes := List Nat

/-- UTF-8 encoding of one code point (used only to write string literals of the source). -/
def utf8EncodeNat (c : Nat) : List Nat :=
  if c < 0x80 then [c]
  else if c < 0x800 then [0xC0 + c / 64, 0x80 + c % 64]
  else if c < 0x10000 then [0xE0 + c / 4096, 0x80 + (c / 64) % 64, 0x80 + c % 64]
  else [0xF0 + c / 262144, 0x80 + (c / 4096) % 64, 0x80 + (c / 64) % 64, 0x80 + c % 64]

/-- The bytes of a string literal of the (UTF-8 encoded) source. -/
def utf8 (s : String) : Bytes := s.toList.flatMap (fun c => utf8EncodeNat c.toNat)

/-! ## boolean_index.cpp -/

/-- The main `while (i < A.size() && j < B.size())` loop of `postings_union` followed by the
two tail loops.  `A` and `B` are the unread parts `A[i..]`, `B[j..]`; `out` is the output
vector. -/
def union_loop : Nat → List Nat → List Nat → List Nat → List Nat
  | fuel + 1, x :: xs, y :: ys, out =>
      if x = y then union_loop fuel xs ys (out ++ [x])
      else if x < y then union_loop fuel xs (y :: ys) (out ++ [x])
      else union_loop fuel (x :: xs) ys (out ++ [y])
  | _, A, B, out => out ++ A ++ B

/-- Function `postings_union`; a null pointer is `none`. -/
def postings_union (a b : Option (List Nat)) : List Nat :=
  match a, b with
  | none, none => []
  | some A, none => A
  | none, some B => B
  | some A, some B => union_loop (A.length + B.length) A B []

/-- The `while (i < a.size() && j < b.size())` loop of `postings_intersect`. -/
def intersect_loop : Nat → List Nat → List Nat → List Nat → List Nat
  | fuel + 1, x :: xs, y :: ys, out =>
      if x = y then intersect_loop fuel xs ys (out ++ [x])
      else if x < y then intersect_loop fuel xs (y :: ys) out
      else intersect_loop fuel (x :: xs) ys out
  | _, _, _, out => out

/-- Function `postings_intersect`. -/
def postings_intersect (a b : List Nat) : List Nat :=
  intersect_loop (a.length + b.length) a b []

/-- The member `term_to_docs_` of `BooleanIndex`. -/
abbrev BooleanIndex := List (Bytes × List Nat)

/-- Method `BooleanIndex::get_postings`; `nullptr` is `none`. -/
def get_postings : BooleanIndex → Bytes → Option (List Nat)
  | [], _ => none
  | (k, v) :: rest, term => if k = term then some v else get_postings rest term

/-- The statement `if (v.empty() || v.back() != doc_id) v.push_back(doc_id);`. -/
def push_unless_last (v : List Nat) (doc_id : Nat) : List Nat :=
  if v.isEmpty || v.getLast? != some doc_id then v ++ [doc_id] else v

/-- Method `BooleanIndex::add_term`: `term_to_docs_[term]` creates an empty vector for
an unknown term. -/
def add_term : BooleanIndex → Bytes → Nat → BooleanIndex
  | [], term, doc_id => [(term, push_unless_last [] doc_id)]
  | (k, v) :: rest, term, doc_id =>
      if k = term then (k, push_unless_last v doc_id) :: rest
      else (k, v) :: add_term rest term doc_id

/-- Method `BooleanIndex::terms_count`. -/
def terms_count (idx : BooleanIndex) : Nat := idx.length

/-! ## tokenizer.cpp -/

/-- Struct `TokenizerConfig` with its default member initializers. -/
structure TokenizerConfig where
  keep_hyphen_inside : Bool := true
  drop_short_tokens : Bool := true
  min_token_bytes : Nat := 2
  ascii_to_lower : Bool := true
  deriving DecidableEq, Repr

/-- Function `is_ascii_alnum`. -/
def is_ascii_alnum (c : Nat) : Bool :=
  (0x61 ≤ c && c ≤ 0x7A) || (0x41 ≤ c && c ≤ 0x5A) || (0x30 ≤ c && c ≤ 0x39)

/-- Function `ascii_lower`; the result is cast back to `unsigned char`. -/
def ascii_lower (c : Nat) : Nat :=
  if 0x41 ≤ c && c ≤ 0x5A then (c - 0x41 + 0x61) % 256 else c

/-- Function `is_utf8_cyrillic_2bytes`. -/
def is_utf8_cyrillic_2bytes (b1 b2 : Nat) : Bool :=
  if b1 = 0xD0 then b2 = 0x81 || (0x90 ≤ b2 && b2 ≤ 0xBF)
  else if b1 = 0xD1 then b2 = 0x91 || (0x80 ≤ b2 && b2 ≤ 0x8F)
  else false

/-- Function `utf8_char_len`. -/
def utf8_char_len (c : Nat) : Nat :=
  if c < 0x80 then 1
  else if c >>> 5 = 0b110 then 2
  else if c >>> 4 = 0b1110 then 3
  else if c >>> 3 = 0b11110 then 4
  else 1

/-- The byte `s[i]`. -/
def byteAt (s : Bytes) (i : Nat) : Nat := s.getD i 0

/-- Function `is_word_char_utf8`. -/
def is_word_char_utf8 (s : Bytes) (i : Nat) : Bool :=
  let c := byteAt s i
  if c < 0x80 then is_ascii_alnum c
  else if i + 1 < s.length then is_utf8_cyrillic_2bytes c (byteAt s (i + 1))
  else false

/-- The C string that `token.c_str()` hands to the callback: the bytes before the first NUL. -/
def c_str (token : Bytes) : Bytes := token.takeWhile (fun b => b != 0)

/-- The loop `for (size_t k = start; k < end; )` of the lambda `commit`.  The inner
`for (t = 0; t < clen && (k + t) < end; ++t)` copies `text[k + t]`. -/
def commit_copy (text : Bytes) (cfg : TokenizerConfig) (end_ : Nat) : Nat → Nat → Bytes → Bytes
  | 0, _, token => token
  | fuel + 1, k, token =>
      if k < end_ then
        let c := byteAt text k
        if c < 0x80 then
          commit_copy text cfg end_ fuel (k + 1)
            (token ++ [if cfg.ascii_to_lower then ascii_lower c else c])
        else
          let clen := utf8_char_len c
          commit_copy text cfg end_ fuel (k + clen)
            (token ++ ((List.range clen).takeWhile (fun t => k + t < end_)).map
              (fun t => byteAt text (k + t)))
      else token

/-- The lambda `commit` of `tokenize_stream`; `out` collects the callback invocations. -/
def commit (text : Bytes) (cfg : TokenizerConfig) (start end_ : Nat) (out : List Bytes) :
    List Bytes :=
  if end_ ≤ start then out
  else
    let len := end_ - start
    if cfg.drop_short_tokens && len < cfg.min_token_bytes then out
    else out ++ [c_str (commit_copy text cfg end_ len start [])]

/-- The inner `while (i < n)` loop of `tokenize_stream`, from the state `(i, end)` of a run
that began at `start`; returns the state at loop exit. -/
def scan_run (text : Bytes) (cfg : TokenizerConfig) (start : Nat) : Nat → Nat → Nat → Nat × Nat
  | 0, i, end_ => (i, end_)
  | fuel + 1, i, end_ =>
      if i < text.length then
        if cfg.keep_hyphen_inside && byteAt text i = 0x2D then
          let left_ok := decide (start < i)
          let right_ok := decide (i + 1 < text.length) && is_word_char_utf8 text (i + 1)
          if left_ok && right_ok then scan_run text cfg start fuel (i + 1) (i + 1)
          else (i, end_)
        else if is_word_char_utf8 text i then
          let i' := i + utf8_char_len (byteAt text i)
          scan_run text cfg start fuel i' i'
        else (i, end_)
      else (i, end_)

/-- The outer `while (i < n)` loop of `tokenize_stream`. -/
def scan (text : Bytes) (cfg : TokenizerConfig) : Nat → Nat → List Bytes → List Bytes
  | 0, _, out => out
  | fuel + 1, i, out =>
      if i < text.length then
        if !is_word_char_utf8 text i then
          scan text cfg fuel (i + utf8_char_len (byteAt text i)) out
        else
          let r := scan_run text cfg i text.length i i
          scan text cfg fuel r.1 (commit text cfg i r.2 out)
      else out

/-- Function `tokenize_stream`: the list of tokens passed to the callback, in call order. -/
def tokenize_stream (text : Bytes) (cfg : TokenizerConfig) : List Bytes :=
  scan text cfg text.length 0 []

/-! ## stemmer.cpp -/

/-- Function `ends_with`. -/
def ends_with (s suf : Bytes) : Bool :=
  decide (suf.length ≤ s.length) && decide (s.drop (s.length - suf.length) = suf)

/-- Function `too_short_for_stem`. -/
def too_short_for_stem (t : Bytes) : Bool := decide (t.length < 8)

/-- The lambda `repl` of `normalize_yo`, on the part of the string at and after `pos`:
`find` locates the next occurrence, `replace` overwrites it and the scan resumes behind
the replacement. -/
def repl (from_ to_ : Bytes) : Nat → Bytes → Bytes
  | 0, s => s
  | _ + 1, [] => []
  | fuel + 1, c :: cs =>
      if from_.isPrefixOf (c :: cs) then to_ ++ repl from_ to_ fuel ((c :: cs).drop from_.length)
      else c :: repl from_ to_ fuel cs

/-- Function `normalize_yo`. -/
def normalize_yo (s : Bytes) : Bytes :=
  let s1 := repl [0xD0, 0x81] [0xD0, 0x95] s.length s
  repl [0xD1, 0x91] [0xD0, 0xB5] s1.length s1

/-- Function `strip_soft_sign`. -/
def strip_soft_sign (s : Bytes) : Bytes :=
  let soft : Bytes := [0xD1, 0x8C]
  if ends_with s soft then s.take (s.length - soft.length) else s

/-- The initializer list of the static vector `suf`, in source order. -/
def suf_init : List Bytes :=
  ["аться","яться","ешься","етесь","ится","ются","ется","утся",
   "ностями","ностях","ностью","ность",
   "остью","ости","ость",
   "ыми","ими","ого","ему","ому","ые","ие","ая","яя","ой","ый","ий","ую","юю",
   "ым","им","ом","ем","ых","их",
   "ами","ями","иями","ием","иям","ям","ам","ов","ев","ёв","ей","ью","ия","ья","ие","ье",
   "ешь","ете","ите","или","ала","ыла","ило","ать","ять","ить","ет","ют","ут",
   "а","я","ы","и","у","ю","о","е"].map utf8

/-- Insertion of one element into a list ordered by decreasing size, behind the longer
elements and in front of the elements of the same size. -/
def insert_by_size (a : Bytes) : List Bytes → List Bytes
  | [] => [a]
  | b :: rest => if a.length < b.length then b :: insert_by_size a rest else a :: b :: rest

/-- The call `std::sort(v.begin(), v.end(), size-descending)`.  `std::sort` leaves the
relative order of suffixes of equal size unspecified; this is the order that keeps the
source order among them. -/
def sort_by_size_desc (v : List Bytes) : List Bytes :=
  v.foldr insert_by_size []

/-- The call `v.erase(std::unique(v.begin(), v.end()), v.end())`: consecutive equal
elements are collapsed. -/
def unique_adjacent : List Bytes → List Bytes
  | a :: b :: rest => if a = b then unique_adjacent (b :: rest) else a :: unique_adjacent (b :: rest)
  | l => l

/-- The static vector `suf` of `stem_ru`. -/
def suf : List Bytes := unique_adjacent (sort_by_size_desc suf_init)

/-- The loop `for (const auto& s : suf)` of `stem_ru` with its `break`. -/
def strip_first_suffix : List Bytes → Bytes → Bytes
  | [], token => token
  | s :: rest, token =>
      if ends_with token s && decide (token.length > s.length + 4) then
        token.take (token.length - s.length)
      else strip_first_suffix rest token

/-- Function `stem_ru` over a given suffix vector. -/
def stem_ru_with (table : List Bytes) (token : Bytes) : Bytes :=
  let token := normalize_yo token
  if too_short_for_stem token then token
  else strip_soft_sign (strip_first_suffix table token)

/-- Function `stem_ru`. -/
def stem_ru (token : Bytes) : Bytes := stem_ru_with suf token

/-! ## search_engine.cpp -/

/-- A field of a BSON document as the engine inspects it: absent, a string, or a value
of another type. -/
inductive BsonField where
  | missing
  | str (s : Bytes)
  | other
  deriving DecidableEq, Repr

/-- The `_id` field of a BSON document: absent, an ObjectId (by its hex string), a string,
or a value of another type. -/
inductive BsonId where
  | missing
  | oid (hex : Bytes)
  | str (s : Bytes)
  | other
  deriving DecidableEq, Repr

/-- A record of the collection, projected on the fields `build_index` asks for. -/
structure Record where
  id : BsonId
  clean_text : BsonField
  title : BsonField
  source : BsonField
  url : BsonField
  deriving DecidableEq, Repr

/-- Struct `DocMeta`. -/
structure DocMeta where
  mongo_id : Bytes
  title : Bytes
  source : Bytes
  url : Bytes
  deriving DecidableEq, Repr

/-- Class `SearchEngine`: the members `cfg_.tokenizer`, `index_` and `meta_`. -/
structure SearchEngine where
  cfg : TokenizerConfig
  index : BooleanIndex
  meta : List DocMeta
  deriving DecidableEq, Repr

/-- The constructor of `SearchEngine`. -/
def SearchEngine.new (cfg : TokenizerConfig) : SearchEngine :=
  { cfg := cfg, index := [], meta := [] }

/-- Method `SearchEngine::docs_indexed`. -/
def SearchEngine.docs_indexed (e : SearchEngine) : Nat := e.meta.length

/-- Function `get_str_or_empty`. -/
def get_str_or_empty (f : BsonField) : Bytes :=
  match f with
  | .str s => s
  | _ => []

/-- Method `SearchEngine::extract_oid_hex`; `none` is the result `false`. -/
def extract_oid_hex (id : BsonId) : Option Bytes :=
  match id with
  | .oid hex => some hex
  | .str s => some s
  | _ => none

/-- Function `tokenize_to_vector`: the callback appends `std::string(tok)` to the vector. -/
def tokenize_to_vector (text : Bytes) (cfg : TokenizerConfig) : List Bytes :=
  tokenize_stream text cfg

/-- The query `coll.find(filter, opts)` of `build_index`: the records whose `clean_text`
exists and differs from the empty string, cut to `limit` records when `limit > 0`. -/
def find_records (coll : List Record) (limit : Int) : List Record :=
  let matching := coll.filter
    (fun doc => doc.clean_text != BsonField.missing && doc.clean_text != BsonField.str [])
  if limit > 0 then matching.take limit.toNat else matching

/-- The body of `for (const auto& t : toks)` in `build_index`. -/
def index_token (doc_id : Nat) (index : BooleanIndex) (t : Bytes) : BooleanIndex :=
  if t ≠ [] then
    let index1 := add_term index t doc_id
    let st := stem_ru t
    if st ≠ [] ∧ st ≠ t then add_term index1 st doc_id else index1
  else index

/-- The state that the record loop of `build_index` updates. -/
structure BuildState where
  index : BooleanIndex
  meta : List DocMeta
  doc_id : Nat
  deriving DecidableEq, Repr

/-- The body of `for (auto&& doc : coll.find(...))` in `build_index`; a `continue`
returns the state unchanged, `doc_id++` is a `uint32_t` increment. -/
def build_step (cfg : TokenizerConfig) (st : BuildState) (doc : Record) : BuildState :=
  match doc.clean_text with
  | .str text =>
      match extract_oid_hex doc.id with
      | none => st
      | some oid_hex =>
          let m : DocMeta :=
            { mongo_id := oid_hex
              title := get_str_or_empty doc.title
              source := get_str_or_empty doc.source
              url := get_str_or_empty doc.url }
          let toks := tokenize_to_vector text cfg
          { index := toks.foldl (index_token st.doc_id) st.index
            meta := st.meta ++ [m]
            doc_id := (st.doc_id + 1) % 2 ^ 32 }
  | _ => st

/-- Method `SearchEngine::build_index` over the collection `coll`: `meta_.clear()`,
`doc_id = 0`, then the record loop; `index_` is the member as it stands. -/
def build_index (e : SearchEngine) (coll : List Record) (limit : Int) : SearchEngine :=
  let st := (find_records coll limit).foldl (build_step e.cfg)
    { index := e.index, meta := [], doc_id := 0 }
  { cfg := e.cfg, index := st.index, meta := st.meta }

/-- The loop `for (const auto& qt : qtokens)` of `search_and` from the state
`(first, running)`, with its `continue` and `break`. -/
def search_loop (index : BooleanIndex) : List Bytes → Bool → List Nat → List Nat
  | [], _, running => running
  | qt :: rest, first, running =>
      if qt = [] then search_loop index rest first running
      else
        let p_exact := get_postings index qt
        let st := stem_ru qt
        let p_stem := if st ≠ qt then get_postings index st else none
        let term_docs := postings_union p_exact p_stem
        let running1 := if first then term_docs else postings_intersect running term_docs
        if running1 = [] then running1 else search_loop index rest false running1

/-- Method `SearchEngine::search_and`. -/
def search_and (e : SearchEngine) (query : Bytes) : List Nat :=
  let qtokens := tokenize_to_vector query e.cfg
  if qtokens = [] then [] else search_loop e.index qtokens true []

/-! ## Notions used to state the properties -/

/-- A strictly increasing list: sorted and free of duplicates. -/
abbrev StrictlyIncreasing (l : List Nat) : Prop := l.Pairwise (fun a b => a < b)

/-- A client that starts from an empty index and issues the given `add_term(term, doc_id)`
calls in order. -/
def run_add_terms (calls : List (Bytes × Nat)) : BooleanIndex :=
  calls.foldl (fun idx c => add_term idx c.1 c.2) []

/-- The byte that `commit` appends for the source byte `c`. -/
def emit_byte (cfg : TokenizerConfig) (c : Nat) : Nat :=
  if c < 0x80 then (if cfg.ascii_to_lower then ascii_lower c else c) else c

/-- The bytes `text[a], ..., text[b-1]`. -/
def slice (text : Bytes) (a b : Nat) : Bytes := (text.drop a).take (b - a)

/-- One whole word character: an ASCII letter or digit, or one of the two-byte sequences
`D0 81`, `D0 90..BF`, `D1 91`, `D1 80..8F`. -/
def word_char (w : Bytes) : Bool :=
  match w with
  | [c] => is_ascii_alnum c
  | [b1, b2] =>
      (b1 = 0xD0 && (b2 = 0x81 || (0x90 ≤ b2 && b2 ≤ 0xBF))) ||
      (b1 = 0xD1 && (b2 = 0x91 || (0x80 ≤ b2 && b2 ≤ 0x8F)))
  | _ => false

/-- The bytes of a word character preceded by a literal hyphen when `hyphen` is set. -/
def joined (p : Bool × Bytes) : Bytes := (if p.1 then [0x2D] else []) ++ p.2

/-- A concatenation of whole word characters and literal hyphens in which every hyphen
stands directly between two word characters: a first word character `w`, then word
characters `p.2` each optionally preceded by one hyphen (`p.1`); hyphens occur only when
`keep` is set. -/
def HyphenatedWord (keep : Bool) (tok : Bytes) : Prop :=
  ∃ (w : Bytes) (ws : List (Bool × Bytes)),
    word_char w = true ∧
    (∀ p ∈ ws, word_char p.2 = true ∧ (p.1 = true → keep = true)) ∧
    tok = w ++ ws.flatMap joined

/-- A recogniser for the byte strings `HyphenatedWord` describes, reading left to right;
`after_word` tells whether the byte before the current position ended a word character. -/
def token_shape (keep : Bool) : Bool → Bytes → Bool
  | after_word, [] => after_word
  | after_word, c :: rest =>
      if c = 0x2D then keep && after_word && token_shape keep false rest
      else if is_ascii_alnum c then token_shape keep true rest
      else
        match rest with
        | c2 :: rest2 => word_char [c, c2] && token_shape keep true rest2
        | [] => false

/-- The terms that `build_index` registers for the tokens of one document: every non-empty
token and, when it is non-empty and differs from the token, the token's stem. -/
def doc_terms (toks : List Bytes) : List Bytes :=
  toks.flatMap (fun t =>
    if t ≠ [] then t :: (if stem_ru t ≠ [] ∧ stem_ru t ≠ t then [stem_ru t] else []) else [])

/-- The text and metadata of a record that passes the two `continue` guards of the record
loop of `build_index`; `none` for a record that is skipped. -/
def accept (doc : Record) : Option (Bytes × DocMeta) :=
  match doc.clean_text with
  | .str text =>
      match extract_oid_hex doc.id with
      | none => none
      | some oid_hex =>
          some (text,
            { mongo_id := oid_hex
              title := get_str_or_empty doc.title
              source := get_str_or_empty doc.source
              url := get_str_or_empty doc.url })
  | _ => none

/-- The accepted records of a build, in iteration order. -/
def accepted_records (coll : List Record) (limit : Int) : List (Bytes × DocMeta) :=
  (find_records coll limit).filterMap accept

/-- The body of the record loop of `build_index` for an accepted record. -/
def index_doc (cfg : TokenizerConfig) (st : BuildState) (doc : Bytes × DocMeta) : BuildState :=
  { index := (tokenize_to_vector doc.1 cfg).foldl (index_token st.doc_id) st.index
    meta := st.meta ++ [doc.2]
    doc_id := (st.doc_id + 1) % 2 ^ 32 }

/-- Whether the accepted record number `d` has `term` among its registered terms. -/
def doc_has_term (cfg : TokenizerConfig) (acc : List (Bytes × DocMeta)) (term : Bytes)
    (d : Nat) : Bool :=
  match acc[d]? with
  | some doc => decide (term ∈ doc_terms (tokenize_to_vector doc.1 cfg))
  | none => false

/-- The ascending list of the positions of the accepted records that register `term`. -/
def expected_postings (cfg : TokenizerConfig) (acc : List (Bytes × DocMeta)) (term : Bytes) :
    List Nat :=
  (List.range acc.length).filter (doc_has_term cfg acc term)

/-- The documents that match one query token in `search_and`: the union of the token's
exact postings and, when the stem differs from the token, the stem's postings. -/
def term_docs (index : BooleanIndex) (qt : Bytes) : List Nat :=
  postings_union (get_postings index qt)
    (if stem_ru qt ≠ qt then get_postings index (stem_ru qt) else none)

/-- The token loop of `search_and` without the statement `if (running.empty()) break;`. -/
def search_loop_no_break (index : BooleanIndex) : List Bytes → Bool → List Nat → List Nat
  | [], _, running => running
  | qt :: rest, first, running =>
      if qt = [] then search_loop_no_break index rest first running
      else
        let p_exact := get_postings index qt
        let st := stem_ru qt
        let p_stem := if st ≠ qt then get_postings index st else none
        let term_docs := postings_union p_exact p_stem
        let running1 := if first then term_docs else postings_intersect running term_docs
        search_loop_no_break index rest false running1

/-- Method `search_and` without the early `break`. -/
def search_and_no_break (e : SearchEngine) (query : Bytes) : List Nat :=
  let qtokens := tokenize_to_vector query e.cfg
  if qtokens = [] then [] else search_loop_no_break e.index qtokens true []

/-- A record whose `_id` is the string of the decimal digits of `i` and whose `clean_text`
is `text`, without title, source and url. -/
def numbered_record (i : Nat) (text : Bytes) : Record :=
  { id := .str ((Nat.toDigits 10 i).map Char.toNat)
    clean_text := .str text
    title := .missing
    source := .missing
    url := .missing }

/-- The text and metadata under which `numbered_record i text` is accepted. -/
def numbered_doc (i : Nat) (text : Bytes) : Bytes × DocMeta :=
  (text,
    { mongo_id := (Nat.toDigits 10 i).map Char.toNat
      title := []
      source := []
      url := [] })

/-- A collection of `n` records with the ids `0, ..., n-1`; record `i` has the text `f i`. -/
def numbered_collection (f : Nat → Bytes) (n : Nat) : List Record :=
  (List.range n).map (fun i => numbered_record i (f i))

/-- A collection of `n` records that all have the text `ab`. -/
def ab_collection (n : Nat) : List Record := numbered_collection (fun _ => utf8 "ab") n

/-- The texts of a collection in which record 0 reads `xy`, record `2^32` reads `ab cd`
and every other record reads `ab`. -/
def wrap_text (i : Nat) : Bytes :=
  if i = 0 then utf8 "xy" else if i = 2 ^ 32 then utf8 "ab cd" else utf8 "ab"

/-- The test of the suffix loop of `stem_ru`: the token ends with `s` and the remaining
stem exceeds 4 bytes. -/
def suffix_applies (token s : Bytes) : Bool :=
  ends_with token s && decide (token.length > s.length + 4)

/-- A vector ordered by decreasing size, as `std::sort` with the size-descending
comparator leaves it. -/
def SizeDescending (table : List Bytes) : Prop :=
  table.Pairwise (fun a b => b.length ≤ a.length)

/-- One character of a text as the tokenizer steps over it: a first byte followed by
exactly the bytes that `utf8_char_len` announces for it, none of them ASCII.  Every
character of well-formed UTF-8 is of this kind, and so is a stray byte of length 1. -/
def text_unit (u : Bytes) : Bool :=
  match u with
  | [] => false
  | b :: tail => decide (tail.length + 1 = utf8_char_len b) && tail.all (fun c => decide (0x80 ≤ c))

/-- An ASCII byte, or a two-byte sequence of a lead byte `C0..DF` and a continuation byte
`80..BF` (among them all two-byte encodings of Cyrillic letters). -/
def ascii_or_two_byte (ch : Bytes) : Bool :=
  match ch with
  | [c] => decide (c < 0x80)
  | [b1, b2] => decide (0xC0 ≤ b1) && decide (b1 ≤ 0xDF) && decide (0x80 ≤ b2) && decide (b2 ≤ 0xBF)
  | _ => false

/-- The maximal non-empty runs of word characters of a list of characters, from left to
right: the list is split at every character that is not a word character. -/
def word_runs (chars : List Bytes) : List (List Bytes) :=
  (chars.splitOnP (fun ch => !word_char ch)).filter (fun run => !run.isEmpty)

/-- The tokens expected for a list of characters: each maximal run of word characters,
byte for byte, with ASCII case folded as configured. -/
def run_tokens (cfg : TokenizerConfig) (chars : List Bytes) : List Bytes :=
  (word_runs chars).map (fun run => run.flatten.map (emit_byte cfg))

/-! ### The tokenizer with checked reads

The same functions as in `tokenizer.cpp` above, but every read `s[i]` is checked against
the length of the string and a loop that uses up its fuel while its condition still holds
is a failure: the result is `none` on an out-of-range read or on a loop that does not
terminate within the fuel. -/

/-- The read `s[i]`: `none` when `i` is not smaller than the size of the string. -/
def read (s : Bytes) (i : Nat) : Option Nat := s[i]?

/-- Function `is_word_char_utf8` with checked reads. -/
def is_word_char_utf8_chk (s : Bytes) (i : Nat) : Option Bool :=
  (read s i).bind fun c =>
    if c < 0x80 then some (is_ascii_alnum c)
    else if i + 1 < s.length then
      (read s (i + 1)).bind fun c2 => some (is_utf8_cyrillic_2bytes c c2)
    else some false

/-- The reads `text[j]` for the indices `j` of a list, in order. -/
def read_all (text : Bytes) : List Nat → Option Bytes
  | [] => some []
  | j :: js => (read text j).bind fun c => (read_all text js).bind fun cs => some (c :: cs)

/-- The copy loop of `commit` with checked reads. -/
def commit_copy_chk (text : Bytes) (cfg : TokenizerConfig) (end_ : Nat) :
    Nat → Nat → Bytes → Option Bytes
  | 0, k, token => if k < end_ then none else some token
  | fuel + 1, k, token =>
      if k < end_ then
        (read text k).bind fun c =>
          if c < 0x80 then
            commit_copy_chk text cfg end_ fuel (k + 1)
              (token ++ [if cfg.ascii_to_lower then ascii_lower c else c])
          else
            (read_all text
              (((List.range (utf8_char_len c)).takeWhile (fun t => k + t < end_)).map
                (fun t => k + t))).bind fun bytes =>
              commit_copy_chk text cfg end_ fuel (k + utf8_char_len c) (token ++ bytes)
      else some token

/-- The lambda `commit` with checked reads. -/
def commit_chk (text : Bytes) (cfg : TokenizerConfig) (start end_ : Nat) (out : List Bytes) :
    Option (List Bytes) :=
  if end_ ≤ start then some out
  else
    let len := end_ - start
    if cfg.drop_short_tokens && len < cfg.min_token_bytes then some out
    else (commit_copy_chk text cfg end_ len start []).bind fun token => some (out ++ [c_str token])

/-- The inner loop of `tokenize_stream` with checked reads; `&&` reads its right operand
only when the left one holds. -/
def scan_run_chk (text : Bytes) (cfg : TokenizerConfig) (start : Nat) :
    Nat → Nat → Nat → Option (Nat × Nat)
  | 0, i, end_ => if i < text.length then none else some (i, end_)
  | fuel + 1, i, end_ =>
      if i < text.length then
        (if cfg.keep_hyphen_inside then (read text i).bind fun c => some (decide (c = 0x2D))
          else some false).bind fun at_hyphen =>
        if at_hyphen then
          let left_ok := decide (start < i)
          (if i + 1 < text.length then is_word_char_utf8_chk text (i + 1)
            else some false).bind fun right_ok =>
          if left_ok && right_ok then scan_run_chk text cfg start fuel (i + 1) (i + 1)
          else some (i, end_)
        else
          (is_word_char_utf8_chk text i).bind fun word =>
          if word then
            (read text i).bind fun c =>
              scan_run_chk text cfg start fuel (i + utf8_char_len c) (i + utf8_char_len c)
          else some (i, end_)
      else some (i, end_)

/-- The outer loop of `tokenize_stream` with checked reads. -/
def scan_chk (text : Bytes) (cfg : TokenizerConfig) : Nat → Nat → List Bytes → Option (List Bytes)
  | 0, i, out => if i < text.length then none else some out
  | fuel + 1, i, out =>
      if i < text.length then
        (is_word_char_utf8_chk text i).bind fun word =>
        if !word then
          (read text i).bind fun c => scan_chk text cfg fuel (i + utf8_char_len c) out
        else
          (scan_run_chk text cfg i text.length i i).bind fun r =>
          (commit_chk text cfg i r.2 out).bind fun out1 =>
          scan_chk text cfg fuel r.1 out1
      else some out

/-- Function `tokenize_stream` with checked reads and checked termination. -/
def tokenize_stream_chk (text : Bytes) (cfg : TokenizerConfig) : Option (List Bytes) :=
  scan_chk text cfg text.length 0 []

/-- The normalized form of a token in the words of the specification of the stemmer,
step (1): every occurrence of the letter Ё (bytes `D0 81`) is replaced by Е (`D0 95`) and
every occurrence of ё (`D1 91`) by е (`D0 B5`), in one pass from left to right.  This is
the reference that `normalize_yo` is compared with. -/
def replace_yo_spec : Bytes → Bytes
  | [] => []
  | [c] => [c]
  | a :: b :: rest =>
      if a = 0xD0 ∧ b = 0x81 then 0xD0 :: 0x95 :: replace_yo_spec rest
      else if a = 0xD1 ∧ b = 0x91 then 0xD0 :: 0xB5 :: replace_yo_spec rest
      else a :: replace_yo_spec (b :: rest)

end MaiIr

/-! ## Posting-list merges -/

namespace MaiIr

theorem union_loop_acc (fuel : Nat) (A B out : List Nat) :
    union_loop fuel A B out = out ++ union_loop fuel A B [] := by
  induction fuel generalizing A B out with
  | zero => simp [union_loop]
  | succ n ih =>
    cases A with
    | nil => simp [union_loop]
    | cons x xs =>
      cases B with
      | nil => simp [union_loop]
      | cons y ys =>
        simp only [union_loop]
        split_ifs
        · rw [ih xs ys (out ++ [x]), ih xs ys ([] ++ [x])]; simp
        · rw [ih xs (y :: ys) (out ++ [x]), ih xs (y :: ys) ([] ++ [x])]; simp
        · rw [ih (x :: xs) ys (out ++ [y]), ih (x :: xs) ys ([] ++ [y])]; simp

theorem mem_union_loop (fuel : Nat) (A B : List Nat) (z : Nat) :
    z ∈ union_loop fuel A B [] ↔ z ∈ A ∨ z ∈ B := by
  induction fuel generalizing A B with
  | zero => simp [union_loop]
  | succ n ih =>
    cases A with
    | nil => simp [union_loop]
    | cons x xs =>
      cases B with
      | nil => simp [union_loop]
      | cons y ys =>
        simp only [union_loop]
        split_ifs with h1 h2
        · rw [union_loop_acc, List.mem_append, ih]; subst h1; simp; tauto
        · rw [union_loop_acc, List.mem_append, ih]; simp; tauto
        · rw [union_loop_acc, List.mem_append, ih]; simp; tauto

theorem union_loop_increasing (fuel : Nat) (A B : List Nat)
    (hA : StrictlyIncreasing A) (hB : StrictlyIncreasing B) (hf : A.length + B.length ≤ fuel) :
    StrictlyIncreasing (union_loop fuel A B []) := by
  induction fuel generalizing A B with
  | zero =>
    have h1 : A = [] := List.length_eq_zero.mp (by omega)
    have h2 : B = [] := List.length_eq_zero.mp (by omega)
    subst h1 h2; simp [union_loop]
  | succ n ih =>
    cases A with
    | nil => simpa [union_loop] using hB
    | cons x xs =>
      cases B with
      | nil => simpa [union_loop] using hA
      | cons y ys =>
        have hA2 := List.pairwise_cons.mp hA
        have hB2 := List.pairwise_cons.mp hB
        simp only [List.length_cons] at hf
        simp only [union_loop]
        split_ifs with h1 h2
        · rw [union_loop_acc]
          refine List.pairwise_cons.mpr ⟨?_, ih xs ys hA2.2 hB2.2 (by omega)⟩
          intro z hz
          rcases (mem_union_loop n xs ys z).mp hz with h | h
          · exact hA2.1 z h
          · rw [h1]; exact hB2.1 z h
        · rw [union_loop_acc]
          refine List.pairwise_cons.mpr ⟨?_, ih xs (y :: ys) hA2.2 hB (by simp; omega)⟩
          intro z hz
          rcases (mem_union_loop n xs (y :: ys) z).mp hz with h | h
          · exact hA2.1 z h
          · rcases List.mem_cons.mp h with h | h
            · omega
            · exact lt_trans h2 (hB2.1 z h)
        · rw [union_loop_acc]
          have h3 : y < x := by omega
          refine List.pairwise_cons.mpr ⟨?_, ih (x :: xs) ys hA hB2.2 (by simp; omega)⟩
          intro z hz
          rcases (mem_union_loop n (x :: xs) ys z).mp hz with h | h
          · rcases List.mem_cons.mp h with h | h
            · omega
            · exact lt_trans h3 (hA2.1 z h)
          · exact hB2.1 z h

theorem intersect_loop_acc (fuel : Nat) (A B out : List Nat) :
    intersect_loop fuel A B out = out ++ intersect_loop fuel A B [] := by
  induction fuel generalizing A B out with
  | zero => simp [intersect_loop]
  | succ n ih =>
    cases A with
    | nil => simp [intersect_loop]
    | cons x xs =>
      cases B with
      | nil => simp [intersect_loop]
      | cons y ys =>
        simp only [intersect_loop]
        split_ifs
        · rw [ih xs ys (out ++ [x]), ih xs ys ([] ++ [x])]; simp
        · exact ih xs (y :: ys) out
        · exact ih (x :: xs) ys out

theorem mem_intersect_loop (fuel : Nat) (A B : List Nat)
    (hA : StrictlyIncreasing A) (hB : StrictlyIncreasing B) (hf : A.length + B.length ≤ fuel)
    (z : Nat) : z ∈ intersect_loop fuel A B [] ↔ z ∈ A ∧ z ∈ B := by
  induction fuel generalizing A B with
  | zero =>
    have h1 : A = [] := List.length_eq_zero.mp (by omega)
    subst h1; simp [intersect_loop]
  | succ n ih =>
    cases A with
    | nil => simp [intersect_loop]
    | cons x xs =>
      cases B with
      | nil => simp [intersect_loop]
      | cons y ys =>
        have hA2 := List.pairwise_cons.mp hA
        have hB2 := List.pairwise_cons.mp hB
        simp only [List.length_cons] at hf
        simp only [intersect_loop]
        split_ifs with h1 h2
        · rw [intersect_loop_acc, List.mem_append, ih xs ys hA2.2 hB2.2 (by omega)]
          subst h1
          simp only [List.nil_append, List.mem_singleton, List.mem_cons, List.not_mem_nil,
            or_false]
          constructor
          · rintro (h | ⟨h, h'⟩)
            · exact ⟨Or.inl h, Or.inl h⟩
            · exact ⟨Or.inr h, Or.inr h'⟩
          · rintro ⟨h | h, h' | h'⟩
            · exact Or.inl h
            · exact Or.inl h
            · exact Or.inl h'
            · exact Or.inr ⟨h, h'⟩
        · rw [ih xs (y :: ys) hA2.2 hB (by simp; omega)]
          simp only [List.mem_cons]
          constructor
          · rintro ⟨h, h'⟩; exact ⟨Or.inr h, h'⟩
          · rintro ⟨h | h, h'⟩
            · exfalso
              rcases h' with h' | h'
              · omega
              · have := hB2.1 z h'; omega
            · exact ⟨h, h'⟩
        · have h3 : y < x := by omega
          rw [ih (x :: xs) ys hA hB2.2 (by simp; omega)]
          simp only [List.mem_cons]
          constructor
          · rintro ⟨h, h'⟩; exact ⟨h, Or.inr h'⟩
          · rintro ⟨h, h' | h'⟩
            · exfalso
              rcases h with h | h
              · omega
              · have := hA2.1 z h; omega
            · exact ⟨h, h'⟩

theorem intersect_loop_sublist (fuel : Nat) (A B : List Nat) :
    (intersect_loop fuel A B []).Sublist A := by
  induction fuel generalizing A B with
  | zero => simp [intersect_loop]
  | succ n ih =>
    cases A with
    | nil => simp [intersect_loop]
    | cons x xs =>
      cases B with
      | nil => simp [intersect_loop]
      | cons y ys =>
        simp only [intersect_loop]
        split_ifs with h1 h2
        · rw [intersect_loop_acc]
          exact List.Sublist.cons₂ x (ih xs ys)
        · exact List.Sublist.cons x (ih xs (y :: ys))
        · exact ih (x :: xs) ys

/-- More fuel does not change the union: the loop ends within `|A| + |B|` iterations. -/
theorem union_loop_fuel (fuel : Nat) :
    ∀ (k : Nat) (A B out : List Nat), A.length + B.length ≤ fuel →
      union_loop (fuel + k) A B out = union_loop fuel A B out := by
  induction fuel with
  | zero =>
    intro k A B out h
    have h1 : A = [] := List.length_eq_zero.mp (by omega)
    subst h1
    cases k <;> simp [union_loop]
  | succ n ih =>
    intro k A B out h
    rw [show n + 1 + k = (n + k) + 1 by omega]
    cases A with
    | nil => simp [union_loop]
    | cons x xs =>
      cases B with
      | nil => simp [union_loop]
      | cons y ys =>
        simp only [List.length_cons] at h
        simp only [union_loop]
        split_ifs
        · exact ih k xs ys _ (by omega)
        · exact ih k xs (y :: ys) _ (by simp; omega)
        · exact ih k (x :: xs) ys _ (by simp; omega)

/-- More fuel does not change the intersection. -/
theorem intersect_loop_fuel (fuel : Nat) :
    ∀ (k : Nat) (A B out : List Nat), A.length + B.length ≤ fuel →
      intersect_loop (fuel + k) A B out = intersect_loop fuel A B out := by
  induction fuel with
  | zero =>
    intro k A B out h
    have h1 : A = [] := List.length_eq_zero.mp (by omega)
    subst h1
    cases k <;> simp [intersect_loop]
  | succ n ih =>
    intro k A B out h
    rw [show n + 1 + k = (n + k) + 1 by omega]
    cases A with
    | nil => simp [intersect_loop]
    | cons x xs =>
      cases B with
      | nil => simp [intersect_loop]
      | cons y ys =>
        simp only [List.length_cons] at h
        simp only [intersect_loop]
        split_ifs
        · exact ih k xs ys _ (by omega)
        · exact ih k xs (y :: ys) _ (by simp; omega)
        · exact ih k (x :: xs) ys _ (by simp; omega)

theorem postings_union_core (A B : List Nat)
    (hA : StrictlyIncreasing A) (hB : StrictlyIncreasing B) :
    StrictlyIncreasing (postings_union (some A) (some B)) ∧
    ∀ z, z ∈ postings_union (some A) (some B) ↔ z ∈ A ∨ z ∈ B :=
  ⟨union_loop_increasing _ A B hA hB le_rfl, fun z => mem_union_loop _ A B z⟩

theorem postings_intersect_core (A B : List Nat)
    (hA : StrictlyIncreasing A) (hB : StrictlyIncreasing B) :
    StrictlyIncreasing (postings_intersect A B) ∧
    ∀ z, z ∈ postings_intersect A B ↔ z ∈ A ∧ z ∈ B :=
  ⟨List.Pairwise.sublist (intersect_loop_sublist _ A B) hA,
    fun z => mem_intersect_loop _ A B hA hB le_rfl z⟩

/-- C1. For strictly increasing id lists `A` and `B`, `postings_union` of the two present
operands is strictly increasing and holds exactly the ids of `A` and of `B`; an absent
operand behaves as the empty list: both absent gives the empty list, exactly one present
gives that list unchanged.  The merge loop ends within its fuel: more fuel gives the same
list. -/
theorem postings_union_spec (A B : List Nat)
    (hA : StrictlyIncreasing A) (hB : StrictlyIncreasing B) :
    StrictlyIncreasing (postings_union (some A) (some B)) ∧
    (∀ z, z ∈ postings_union (some A) (some B) ↔ z ∈ A ∨ z ∈ B) ∧
    postings_union none none = [] ∧
    postings_union (some A) none = A ∧
    postings_union none (some B) = B ∧
    postings_union (some A) none = postings_union (some A) (some []) ∧
    postings_union none (some B) = postings_union (some []) (some B) ∧
    postings_union none none = postings_union (some []) (some []) ∧
    (∀ k, union_loop (A.length + B.length + k) A B [] = postings_union (some A) (some B)) := by
  refine ⟨union_loop_increasing _ A B hA hB le_rfl, fun z => mem_union_loop _ A B z,
    rfl, rfl, rfl, ?_, ?_, rfl, fun k => union_loop_fuel _ k A B [] le_rfl⟩
  · cases A <;> simp [postings_union, union_loop]
  · cases B <;> simp [postings_union, union_loop]

theorem postings_union_spec_witness :
    StrictlyIncreasing [1, 3, 5] ∧ StrictlyIncreasing [2, 3, 7] ∧
    postings_union (some [1, 3, 5]) (some [2, 3, 7]) = [1, 2, 3, 5, 7] ∧
    StrictlyIncreasing (postings_union (some [1, 3, 5]) (some [2, 3, 7])) :=
  ⟨by decide, by decide, by decide,
    (postings_union_spec [1, 3, 5] [2, 3, 7] (by decide) (by decide)).1⟩

/-- C2. For strictly increasing id lists `A` and `B`, `postings_intersect A B` is strictly
increasing, and an id occurs in it if and only if it occurs in both `A` and `B`; in
particular every id of the result is an id of `A` and an id of `B`.  The merge loop ends
within its fuel: more fuel gives the same list. -/
theorem postings_intersect_spec (A B : List Nat)
    (hA : StrictlyIncreasing A) (hB : StrictlyIncreasing B) :
    StrictlyIncreasing (postings_intersect A B) ∧
    (∀ z, z ∈ postings_intersect A B ↔ z ∈ A ∧ z ∈ B) ∧
    (postings_intersect A B ⊆ A ∧ postings_intersect A B ⊆ B) ∧
    (∀ k, intersect_loop (A.length + B.length + k) A B [] = postings_intersect A B) := by
  have hmem : ∀ z, z ∈ postings_intersect A B ↔ z ∈ A ∧ z ∈ B :=
    fun z => mem_intersect_loop _ A B hA hB le_rfl z
  refine ⟨List.Pairwise.sublist (intersect_loop_sublist _ A B) hA, hmem, ⟨?_, ?_⟩,
    fun k => intersect_loop_fuel _ k A B [] le_rfl⟩
  · intro z hz; exact ((hmem z).mp hz).1
  · intro z hz; exact ((hmem z).mp hz).2

theorem postings_intersect_spec_witness :
    StrictlyIncreasing [1, 3, 5, 7] ∧ StrictlyIncreasing [2, 3, 7] ∧
    postings_intersect [1, 3, 5, 7] [2, 3, 7] = [3, 7] ∧
    StrictlyIncreasing (postings_intersect [1, 3, 5, 7] [2, 3, 7]) :=
  ⟨by decide, by decide, by decide,
    (postings_intersect_spec [1, 3, 5, 7] [2, 3, 7] (by decide) (by decide)).1⟩

end MaiIr

/-! ## Tokenizer -/

namespace MaiIr

theorem utf8_char_len_pos (c : Nat) : 1 ≤ utf8_char_len c := by
  unfold utf8_char_len; split_ifs <;> omega

theorem utf8_char_len_ascii (c : Nat) (h : c < 0x80) : utf8_char_len c = 1 := by
  simp [utf8_char_len, h]

theorem utf8_char_len_D0 : utf8_char_len 0xD0 = 2 := by decide

theorem utf8_char_len_D1 : utf8_char_len 0xD1 = 2 := by decide

theorem is_ascii_alnum_lt (c : Nat) (h : is_ascii_alnum c = true) : c < 0x80 ∧ c ≠ 0x2D ∧ c ≠ 0 := by
  simp only [is_ascii_alnum, Bool.or_eq_true, Bool.and_eq_true, decide_eq_true_eq] at h
  omega

theorem cyrillic_lead (b1 b2 : Nat) (h : is_utf8_cyrillic_2bytes b1 b2 = true) :
    (b1 = 0xD0 ∨ b1 = 0xD1) ∧ 0x80 ≤ b2 ∧ b2 ≤ 0xBF ∧ word_char [b1, b2] = true := by
  unfold is_utf8_cyrillic_2bytes at h
  split_ifs at h with h1 h2
  · subst h1
    simp only [Bool.or_eq_true, Bool.and_eq_true, decide_eq_true_eq] at h
    refine ⟨Or.inl rfl, by omega, by omega, ?_⟩
    simp only [word_char, Bool.or_eq_true, Bool.and_eq_true, decide_eq_true_eq]
    left; exact ⟨trivial, h⟩
  · subst h2
    simp only [Bool.or_eq_true, Bool.and_eq_true, decide_eq_true_eq] at h
    refine ⟨Or.inr rfl, by omega, by omega, ?_⟩
    simp only [word_char, Bool.or_eq_true, Bool.and_eq_true, decide_eq_true_eq]
    right; exact ⟨trivial, h⟩

theorem drop_eq_byteAt_cons (text : Bytes) (i : Nat) (h : i < text.length) :
    text.drop i = byteAt text i :: text.drop (i + 1) := by
  rw [List.drop_eq_getElem_cons h]
  simp [byteAt, List.getD_eq_getElem?_getD, List.getElem?_eq_getElem h]

theorem slice_self (text : Bytes) (i : Nat) : slice text i i = [] := by
  simp [slice]

theorem slice_cons (text : Bytes) (i r : Nat) (h : i < text.length) (hr : i < r) :
    slice text i r = byteAt text i :: slice text (i + 1) r := by
  unfold slice
  rw [drop_eq_byteAt_cons text i h]
  have : r - i = (r - (i + 1)) + 1 := by omega
  rw [this, List.take_succ_cons]

/-- What `is_word_char_utf8` reports at an in-range position. -/
theorem is_word_char_cases (text : Bytes) (i : Nat) (h : is_word_char_utf8 text i = true) :
    (is_ascii_alnum (byteAt text i) = true ∧ utf8_char_len (byteAt text i) = 1) ∨
    (is_ascii_alnum (byteAt text i) = false ∧ 0x80 ≤ byteAt text i ∧ i + 1 < text.length ∧
      utf8_char_len (byteAt text i) = 2 ∧
      word_char [byteAt text i, byteAt text (i + 1)] = true) := by
  unfold is_word_char_utf8 at h
  simp only at h
  split_ifs at h with h1 h2
  · left; exact ⟨h, utf8_char_len_ascii _ h1⟩
  · right
    have hc := cyrillic_lead _ _ h
    refine ⟨?_, by omega, h2, ?_, hc.2.2.2⟩
    · by_contra hcon
      have := is_ascii_alnum_lt _ (by simpa using hcon)
      omega
    · rcases hc.1 with h3 | h3 <;> rw [h3] <;> decide

theorem is_word_char_not_hyphen (text : Bytes) (i : Nat) (h : is_word_char_utf8 text i = true) :
    byteAt text i ≠ 0x2D := by
  rcases is_word_char_cases text i h with h1 | h1
  · exact (is_ascii_alnum_lt _ h1.1).2.1
  · omega

theorem is_word_char_lt (text : Bytes) (i : Nat) (h : is_word_char_utf8 text i = true) :
    i < text.length := by
  by_contra hcon
  have h0 : byteAt text i = 0 := by
    simp [byteAt, List.getD_eq_getElem?_getD, List.getElem?_eq_none (not_lt.mp hcon)]
  rcases is_word_char_cases text i h with h1 | h1
  · rw [h0] at h1; exact absurd h1.1 (by decide)
  · omega

theorem token_shape_hyphen (keep aw : Bool) (rest : Bytes) :
    token_shape keep aw (0x2D :: rest) = (keep && aw && token_shape keep false rest) := by
  rw [token_shape.eq_def]; simp

theorem token_shape_alnum (keep aw : Bool) (c : Nat) (rest : Bytes)
    (h : is_ascii_alnum c = true) :
    token_shape keep aw (c :: rest) = token_shape keep true rest := by
  have := (is_ascii_alnum_lt c h).2.1
  rw [token_shape.eq_def]; simp [this, h]

theorem token_shape_pair (keep aw : Bool) (c c2 : Nat) (rest : Bytes)
    (h1 : c ≠ 0x2D) (h2 : is_ascii_alnum c = false) :
    token_shape keep aw (c :: c2 :: rest) =
      (word_char [c, c2] && token_shape keep true rest) := by
  rw [token_shape.eq_def]; simp [h1, h2]

/-- The inner loop keeps `end == i`, stops inside the text and has read a well-shaped
piece of it. -/
theorem scan_run_shape (text : Bytes) (cfg : TokenizerConfig) (start : Nat) :
    ∀ (fuel i : Nat) (aw : Bool), text.length ≤ i + fuel → i ≤ text.length → start ≤ i →
      (aw = true → start < i) → (aw = false → is_word_char_utf8 text i = true) →
      ∃ r, scan_run text cfg start fuel i i = (r, r) ∧ i ≤ r ∧ r ≤ text.length ∧
        (aw = false → i < r) ∧
        token_shape cfg.keep_hyphen_inside aw (slice text i r) = true := by
  intro fuel
  induction fuel with
  | zero =>
    intro i aw hf hi hsi haw hnw
    have hin : i = text.length := by omega
    refine ⟨i, rfl, le_rfl, hi, ?_, ?_⟩
    · intro h; have := is_word_char_lt text i (hnw h); omega
    · rw [slice_self]
      cases aw with
      | true => rfl
      | false => have := is_word_char_lt text i (hnw rfl); omega
  | succ n ih =>
    intro i aw hf hi hsi haw hnw
    unfold scan_run
    by_cases hlt : i < text.length
    · rw [if_pos hlt]
      by_cases hword : is_word_char_utf8 text i = true
      · -- a word character is consumed
        have hnh := is_word_char_not_hyphen text i hword
        have hcond : (cfg.keep_hyphen_inside && decide (byteAt text i = 0x2D)) = false := by
          simp [hnh]
        rw [hcond]
        simp only [Bool.false_eq_true, if_false, hword, if_true]
        rcases is_word_char_cases text i hword with ⟨ha, hl⟩ | ⟨ha, hge, hi1, hl, hw⟩
        · rw [hl]
          obtain ⟨r, hr, h1, h2, -, h4⟩ := ih (i + 1) true (by omega) (by omega) (by omega)
            (fun _ => by omega) (fun h => by simp at h)
          refine ⟨r, hr, by omega, h2, fun _ => by omega, ?_⟩
          rw [slice_cons text i r hlt (by omega)]
          rw [token_shape_alnum _ _ _ _ ha]
          exact h4
        · rw [hl]
          obtain ⟨r, hr, h1, h2, -, h4⟩ := ih (i + 2) true (by omega) (by omega) (by omega)
            (fun _ => by omega) (fun h => by simp at h)
          refine ⟨r, hr, by omega, h2, fun _ => by omega, ?_⟩
          rw [slice_cons text i r hlt (by omega), slice_cons text (i + 1) r hi1 (by omega)]
          have : byteAt text i ≠ 0x2D := by omega
          rw [token_shape_pair _ _ _ _ _ this ha, hw, Bool.true_and]
          exact h4
      · -- not a word character: a hyphen that joins, or the end of the run
        have haw1 : aw = true := by
          cases aw with
          | true => rfl
          | false => exact absurd (hnw rfl) hword
        subst haw1
        have hstart := haw rfl
        by_cases hh : (cfg.keep_hyphen_inside && decide (byteAt text i = 0x2D)) = true
        · rw [if_pos hh]
          simp only [Bool.and_eq_true, decide_eq_true_eq] at hh
          by_cases hjoin : (decide (start < i) &&
              (decide (i + 1 < text.length) && is_word_char_utf8 text (i + 1))) = true
          · simp only [hjoin, if_true]
            simp only [Bool.and_eq_true, decide_eq_true_eq] at hjoin
            obtain ⟨r, hr, h1, h2, h3, h4⟩ := ih (i + 1) false (by omega) (by omega) (by omega)
              (fun h => by simp at h) (fun _ => hjoin.2.2)
            refine ⟨r, hr, by omega, h2, fun h => by simp at h, ?_⟩
            rw [slice_cons text i r hlt (by omega)]
            rw [hh.2, token_shape_hyphen, h4, hh.1]
            rfl
          · simp only [hjoin, Bool.false_eq_true, if_false]
            exact ⟨i, rfl, le_rfl, hi, fun h => by simp at h, by rw [slice_self]; rfl⟩
        · rw [if_neg hh]
          simp only [hword, Bool.false_eq_true, if_false]
          exact ⟨i, rfl, le_rfl, hi, fun h => by simp at h, by rw [slice_self]; rfl⟩
    · rw [if_neg hlt]
      refine ⟨i, rfl, le_rfl, hi, ?_, ?_⟩
      · intro h; have := is_word_char_lt text i (hnw h); omega
      · rw [slice_self]
        cases aw with
        | true => rfl
        | false => have := is_word_char_lt text i (hnw rfl); omega

/-- The three ways in which `token_shape` accepts a non-empty byte string. -/
theorem token_shape_cons_inv (keep aw : Bool) (c : Nat) (rest : Bytes)
    (h : token_shape keep aw (c :: rest) = true) :
    (c = 0x2D ∧ keep = true ∧ aw = true ∧ token_shape keep false rest = true) ∨
    (is_ascii_alnum c = true ∧ token_shape keep true rest = true) ∨
    (∃ c2 rest2, rest = c2 :: rest2 ∧ c ≠ 0x2D ∧ is_ascii_alnum c = false ∧
      word_char [c, c2] = true ∧ token_shape keep true rest2 = true) := by
  by_cases h1 : c = 0x2D
  · subst h1
    rw [token_shape_hyphen] at h
    simp only [Bool.and_eq_true] at h
    exact Or.inl ⟨rfl, h.1.1, h.1.2, h.2⟩
  · by_cases h2 : is_ascii_alnum c = true
    · rw [token_shape_alnum _ _ _ _ h2] at h
      exact Or.inr (Or.inl ⟨h2, h⟩)
    · have h2f : is_ascii_alnum c = false := by simpa using h2
      cases rest with
      | nil => rw [token_shape.eq_def] at h; simp [h1, h2f] at h
      | cons c2 rest2 =>
        rw [token_shape_pair _ _ _ _ _ h1 h2f] at h
        simp only [Bool.and_eq_true] at h
        exact Or.inr (Or.inr ⟨c2, rest2, rfl, h1, h2f, h.1, h.2⟩)

theorem word_char_pair (c c2 : Nat) (h : word_char [c, c2] = true) :
    (c = 0xD0 ∨ c = 0xD1) ∧ 0x80 ≤ c2 ∧ c2 ≤ 0xBF := by
  simp only [word_char, Bool.or_eq_true, Bool.and_eq_true, decide_eq_true_eq] at h
  omega

theorem slice_eq_nil_of_le (text : Bytes) (a b : Nat) (h : b ≤ a) : slice text a b = [] := by
  simp [slice, Nat.sub_eq_zero_of_le h]

/-- On a well-shaped piece of text `commit` copies byte by byte, folding ASCII case. -/
theorem commit_copy_shape (text : Bytes) (cfg : TokenizerConfig) (end_ : Nat)
    (hend : end_ ≤ text.length) :
    ∀ (fuel k : Nat) (aw : Bool) (token : Bytes), k ≤ end_ → end_ ≤ k + fuel →
      token_shape cfg.keep_hyphen_inside aw (slice text k end_) = true →
      commit_copy text cfg end_ fuel k token = token ++ (slice text k end_).map (emit_byte cfg) := by
  intro fuel
  induction fuel with
  | zero =>
    intro k aw token hk hf _
    have : k = end_ := by omega
    subst this
    simp [commit_copy, slice_self]
  | succ n ih =>
    intro k aw token hk hf hs
    unfold commit_copy
    by_cases hlt : k < end_
    · rw [if_pos hlt]
      have hkn : k < text.length := by omega
      rw [slice_cons text k end_ hkn hlt] at hs ⊢
      rcases token_shape_cons_inv _ _ _ _ hs with ⟨hc, -, -, h4⟩ | ⟨hc, h4⟩ |
        ⟨c2, rest2, hrest, hc1, hc2, hw, h4⟩
      · have hlt80 : byteAt text k < 0x80 := by omega
        simp only [hlt80, if_true]
        rw [ih (k + 1) false _ (by omega) (by omega) h4]
        simp [emit_byte, hlt80]
      · have hlt80 : byteAt text k < 0x80 := (is_ascii_alnum_lt _ hc).1
        simp only [hlt80, if_true]
        rw [ih (k + 1) true _ (by omega) (by omega) h4]
        simp [emit_byte, hlt80]
      · have hp := word_char_pair _ _ hw
        have hge : ¬ byteAt text k < 0x80 := by omega
        have hk1 : k + 1 < end_ := by
          by_contra hcon
          rw [slice_eq_nil_of_le text (k + 1) end_ (by omega)] at hrest
          exact absurd hrest (by simp)
        have hk1n : k + 1 < text.length := by omega
        rw [slice_cons text (k + 1) end_ hk1n hk1] at hrest ⊢
        have hc2eq : byteAt text (k + 1) = c2 := (List.cons.inj hrest).1
        have hr2 : slice text (k + 2) end_ = rest2 := (List.cons.inj hrest).2
        have hlen : utf8_char_len (byteAt text k) = 2 := by
          rcases hp.1 with h | h <;> rw [h] <;> decide
        simp only [hge, if_false, hlen]
        have htw : ((List.range 2).takeWhile (fun t => decide (k + t < end_))) = [0, 1] := by
          have h0 : k + 0 < end_ := by omega
          simp [List.range_succ, List.takeWhile, h0, hk1, hlt]
        rw [htw, ih (k + 2) true _ (by omega) (by omega) (by rw [hr2]; exact h4)]
        have e1 : emit_byte cfg (byteAt text k) = byteAt text k := by simp [emit_byte, hge]
        have e2 : emit_byte cfg (byteAt text (k + 1)) = byteAt text (k + 1) := by
          have : ¬ byteAt text (k + 1) < 0x80 := by omega
          simp [emit_byte, this]
        simp [e1, e2]
    · have : k = end_ := by omega
      subst this
      simp [slice_self]

/-- Induction along the way `token_shape` accepts a byte string. -/
theorem token_shape_induct (keep : Bool) (P : Bool → Bytes → Prop)
    (hnil : P true [])
    (hhyp : ∀ rest, keep = true → token_shape keep false rest = true → P false rest →
      P true (0x2D :: rest))
    (halnum : ∀ aw c rest, is_ascii_alnum c = true → token_shape keep true rest = true →
      P true rest → P aw (c :: rest))
    (hpair : ∀ aw c c2 rest, word_char [c, c2] = true → token_shape keep true rest = true →
      P true rest → P aw (c :: c2 :: rest)) :
    ∀ (aw : Bool) (l : Bytes), token_shape keep aw l = true → P aw l := by
  have key : ∀ (n : Nat) (l : Bytes), l.length ≤ n → ∀ aw, token_shape keep aw l = true →
      P aw l := by
    intro n
    induction n with
    | zero =>
      intro l hl aw h
      have hl0 : l = [] := List.length_eq_zero.mp (by omega)
      subst hl0
      cases aw with
      | true => exact hnil
      | false => rw [token_shape.eq_def] at h; simp at h
    | succ n ih =>
      intro l hl aw h
      cases l with
      | nil =>
        cases aw with
        | true => exact hnil
        | false => rw [token_shape.eq_def] at h; simp at h
      | cons c rest =>
        simp only [List.length_cons] at hl
        rcases token_shape_cons_inv _ _ _ _ h with ⟨hc, hk, ha, h4⟩ | ⟨hc, h4⟩ |
          ⟨c2, rest2, hrest, -, -, hw, h4⟩
        · subst hc ha
          exact hhyp rest hk h4 (ih rest (by omega) false h4)
        · exact halnum aw c rest hc h4 (ih rest (by omega) true h4)
        · subst hrest
          simp only [List.length_cons] at hl
          exact hpair aw c c2 rest2 hw h4 (ih rest2 (by omega) true h4)
  intro aw l h
  exact key l.length l le_rfl aw h

theorem emit_byte_alnum (cfg : TokenizerConfig) (c : Nat) (h : is_ascii_alnum c = true) :
    is_ascii_alnum (emit_byte cfg c) = true := by
  have h80 := (is_ascii_alnum_lt c h).1
  simp only [emit_byte, h80, if_true]
  split_ifs with h1
  · unfold ascii_lower
    split_ifs with h2
    · simp only [Bool.and_eq_true, decide_eq_true_eq] at h2
      simp only [is_ascii_alnum, Bool.or_eq_true, Bool.and_eq_true, decide_eq_true_eq]
      omega
    · exact h
  · exact h

theorem emit_byte_hyphen (cfg : TokenizerConfig) : emit_byte cfg 0x2D = 0x2D := by
  simp only [emit_byte, ascii_lower]
  split_ifs <;> first | rfl | (exfalso; revert ‹_›; decide)

theorem emit_byte_high (cfg : TokenizerConfig) (c : Nat) (h : 0x80 ≤ c) : emit_byte cfg c = c := by
  have : ¬ c < 0x80 := by omega
  simp [emit_byte, this]

/-- Case folding keeps a well-shaped byte string well-shaped. -/
theorem token_shape_map_emit (cfg : TokenizerConfig) (keep : Bool) :
    ∀ (aw : Bool) (l : Bytes), token_shape keep aw l = true →
      token_shape keep aw (l.map (emit_byte cfg)) = true := by
  apply token_shape_induct keep (fun aw l => token_shape keep aw (l.map (emit_byte cfg)) = true)
  · rfl
  · intro rest hk _ ih
    rw [List.map_cons, emit_byte_hyphen, token_shape_hyphen, ih, hk]; rfl
  · intro aw c rest hc _ ih
    rw [List.map_cons, token_shape_alnum _ _ _ _ (emit_byte_alnum cfg c hc)]; exact ih
  · intro aw c c2 rest hw _ ih
    have hp := word_char_pair c c2 hw
    have e1 : emit_byte cfg c = c := emit_byte_high cfg c (by omega)
    have e2 : emit_byte cfg c2 = c2 := emit_byte_high cfg c2 (by omega)
    have hne : c ≠ 0x2D := by omega
    have hna : is_ascii_alnum c = false := by
      by_contra hcon
      have := is_ascii_alnum_lt c (by simpa using hcon)
      omega
    rw [List.map_cons, List.map_cons, e1, e2, token_shape_pair _ _ _ _ _ hne hna, hw, ih]; rfl

/-- The bytes of a well-shaped byte string: none is NUL, and the ASCII ones are letters,
digits or a joined hyphen. -/
theorem token_shape_bytes (keep : Bool) :
    ∀ (aw : Bool) (l : Bytes), token_shape keep aw l = true →
      ∀ b ∈ l, b ≠ 0 ∧ (b < 0x80 → is_ascii_alnum b = true ∨ (b = 0x2D ∧ keep = true)) ∧
        (0x80 ≤ b → b = 0xD0 ∨ b = 0xD1 ∨ b ≤ 0xBF) := by
  apply token_shape_induct keep (fun _ l => ∀ b ∈ l, b ≠ 0 ∧
    (b < 0x80 → is_ascii_alnum b = true ∨ (b = 0x2D ∧ keep = true)) ∧
    (0x80 ≤ b → b = 0xD0 ∨ b = 0xD1 ∨ b ≤ 0xBF))
  · intro b hb; simp at hb
  · intro rest hk _ ih b hb
    rcases List.mem_cons.mp hb with h | h
    · subst h; exact ⟨by decide, fun _ => Or.inr ⟨rfl, hk⟩, fun h => by omega⟩
    · exact ih b h
  · intro _ c rest hc _ ih b hb
    rcases List.mem_cons.mp hb with h | h
    · subst h
      have := is_ascii_alnum_lt b hc
      exact ⟨this.2.2, fun _ => Or.inl hc, fun h => by omega⟩
    · exact ih b h
  · intro _ c c2 rest hw _ ih b hb
    have hp := word_char_pair c c2 hw
    rcases List.mem_cons.mp hb with h | h
    · subst h; exact ⟨by omega, fun h => by omega, fun _ => by omega⟩
    · rcases List.mem_cons.mp h with h | h
      · subst h; exact ⟨by omega, fun h => by omega, fun _ => by omega⟩
      · exact ih b h

theorem c_str_of_no_nul (l : Bytes) (h : ∀ b ∈ l, b ≠ 0) : c_str l = l := by
  unfold c_str
  rw [List.takeWhile_eq_self_iff]
  intro b hb
  simpa using h b hb

/-- Every token handed to the callback has the shape accepted by `token_shape`. -/
theorem scan_shape (text : Bytes) (cfg : TokenizerConfig) :
    ∀ (fuel i : Nat) (out : List Bytes),
      (∀ t ∈ out, token_shape cfg.keep_hyphen_inside false t = true) →
      ∀ t ∈ scan text cfg fuel i out, token_shape cfg.keep_hyphen_inside false t = true := by
  intro fuel
  induction fuel with
  | zero => intro i out h; simpa [scan] using h
  | succ n ih =>
    intro i out h
    unfold scan
    by_cases hlt : i < text.length
    · rw [if_pos hlt]
      by_cases hw : is_word_char_utf8 text i = true
      · simp only [hw, Bool.not_true, Bool.false_eq_true, if_false]
        obtain ⟨r, hr, h1, h2, h3, h4⟩ := scan_run_shape text cfg i text.length i false
          (by omega) (by omega) le_rfl (fun h => by simp at h) (fun _ => hw)
        rw [hr]
        apply ih
        intro t ht
        unfold commit at ht
        have hir : ¬ r ≤ i := by have := h3 rfl; omega
        simp only [hir, if_false] at ht
        split_ifs at ht with hd
        · exact h t ht
        · rcases List.mem_append.mp ht with ht | ht
          · exact h t ht
          · rw [List.mem_singleton] at ht
            rw [commit_copy_shape text cfg r h2 (r - i) i false [] (by omega) (by omega) h4,
              List.nil_append] at ht
            have hs := token_shape_map_emit cfg _ false _ h4
            rw [c_str_of_no_nul _ (fun b hb => (token_shape_bytes _ false _ hs b hb).1)] at ht
            rw [ht]; exact hs
      · simp only [hw, Bool.not_false, if_true]
        exact ih _ out h
    · rw [if_neg hlt]; exact h

theorem tokenize_stream_shape (text : Bytes) (cfg : TokenizerConfig) (t : Bytes)
    (h : t ∈ tokenize_stream text cfg) : token_shape cfg.keep_hyphen_inside false t = true :=
  scan_shape text cfg text.length 0 [] (fun t ht => by simp at ht) t h

theorem tokenize_stream_ne_nil (text : Bytes) (cfg : TokenizerConfig) (t : Bytes)
    (h : t ∈ tokenize_stream text cfg) : t ≠ [] := by
  intro h0
  have := tokenize_stream_shape text cfg t h
  rw [h0, token_shape.eq_def] at this
  simp at this

/-- A well-shaped byte string splits into whole word characters and joined hyphens. -/
theorem token_shape_pieces (keep : Bool) :
    ∀ (aw : Bool) (l : Bytes), token_shape keep aw l = true →
      ∃ ws : List (Bool × Bytes),
        (∀ p ∈ ws, word_char p.2 = true ∧ (p.1 = true → keep = true)) ∧
        l = ws.flatMap joined ∧
        (aw = false → ∃ w ws1, ws = (false, w) :: ws1) := by
  apply token_shape_induct keep (fun aw l => ∃ ws : List (Bool × Bytes),
        (∀ p ∈ ws, word_char p.2 = true ∧ (p.1 = true → keep = true)) ∧
        l = ws.flatMap joined ∧
        (aw = false → ∃ w ws1, ws = (false, w) :: ws1))
  · exact ⟨[], fun p hp => by simp at hp, rfl, fun h => by simp at h⟩
  · rintro rest hk _ ⟨ws, hws, hl, hfirst⟩
    obtain ⟨w, ws1, hw⟩ := hfirst rfl
    subst hw
    refine ⟨(true, w) :: ws1, ?_, ?_, fun h => by simp at h⟩
    · intro p hp
      rcases List.mem_cons.mp hp with h | h
      · subst h; exact ⟨(hws _ (List.mem_cons_self _ _)).1, fun _ => hk⟩
      · exact hws p (List.mem_cons_of_mem _ h)
    · rw [hl]; simp [List.flatMap_cons, joined]
  · rintro aw c rest hc _ ⟨ws, hws, hl, -⟩
    refine ⟨(false, [c]) :: ws, ?_, ?_, fun _ => ⟨[c], ws, rfl⟩⟩
    · intro p hp
      rcases List.mem_cons.mp hp with h | h
      · subst h; exact ⟨by simpa [word_char] using hc, fun h => by simp at h⟩
      · exact hws p h
    · rw [hl]; simp [List.flatMap_cons, joined]
  · rintro aw c c2 rest hw _ ⟨ws, hws, hl, -⟩
    refine ⟨(false, [c, c2]) :: ws, ?_, ?_, fun _ => ⟨[c, c2], ws, rfl⟩⟩
    · intro p hp
      rcases List.mem_cons.mp hp with h | h
      · subst h; exact ⟨hw, fun h => by simp at h⟩
      · exact hws p h
    · rw [hl]; simp [List.flatMap_cons, joined]

/-- Where the hyphens of a well-shaped byte string can stand. -/
theorem token_shape_hyphens (keep : Bool) :
    ∀ (aw : Bool) (l : Bytes), token_shape keep aw l = true →
      (aw = false → l[0]? ≠ none ∧ l[0]? ≠ some 0x2D) ∧
      l.getLast? ≠ some 0x2D ∧
      (∀ i, l[i]? = some 0x2D → l[i + 1]? ≠ some 0x2D) ∧
      (keep = false → 0x2D ∉ l) := by
  apply token_shape_induct keep (fun aw l =>
      (aw = false → l[0]? ≠ none ∧ l[0]? ≠ some 0x2D) ∧
      l.getLast? ≠ some 0x2D ∧
      (∀ i, l[i]? = some 0x2D → l[i + 1]? ≠ some 0x2D) ∧
      (keep = false → 0x2D ∉ l))
  · exact ⟨fun h => by simp at h, by simp, fun i h => by simp at h, fun _ => by simp⟩
  · rintro rest hk _ ⟨h1, h2, h3, -⟩
    have h1 := h1 rfl
    refine ⟨fun h => by simp at h, ?_, ?_, fun h => by rw [hk] at h; simp at h⟩
    · cases rest with
      | nil => simp at h1
      | cons a r => rw [List.getLast?_cons_cons]; exact h2
    · intro i hi
      cases i with
      | zero => simpa using h1.2
      | succ j =>
        rw [List.getElem?_cons_succ] at hi ⊢
        exact h3 j hi
  · rintro aw c rest hc _ ⟨-, h2, h3, h4⟩
    have hne := (is_ascii_alnum_lt c hc).2.1
    refine ⟨fun _ => ⟨by simp, by simpa using hne⟩, ?_, ?_, ?_⟩
    · cases rest with
      | nil => simpa using hne
      | cons a r => rw [List.getLast?_cons_cons]; exact h2
    · intro i hi
      cases i with
      | zero => rw [List.getElem?_cons_zero] at hi; exact absurd (Option.some.inj hi) hne
      | succ j =>
        rw [List.getElem?_cons_succ] at hi ⊢
        exact h3 j hi
    · intro hk hmem
      rcases List.mem_cons.mp hmem with h | h
      · exact hne h.symm
      · exact h4 hk h
  · rintro aw c c2 rest hw _ ⟨-, h2, h3, h4⟩
    have hp := word_char_pair c c2 hw
    have hne : c ≠ 0x2D := by omega
    have hne2 : c2 ≠ 0x2D := by omega
    refine ⟨fun _ => ⟨by simp, by simpa using hne⟩, ?_, ?_, ?_⟩
    · rw [List.getLast?_cons_cons]
      cases rest with
      | nil => simpa using hne2
      | cons a r => rw [List.getLast?_cons_cons]; exact h2
    · intro i hi
      cases i with
      | zero => rw [List.getElem?_cons_zero] at hi; exact absurd (Option.some.inj hi) hne
      | succ j =>
        rw [List.getElem?_cons_succ] at hi ⊢
        cases j with
        | zero => rw [List.getElem?_cons_zero] at hi; exact absurd (Option.some.inj hi) hne2
        | succ k =>
          rw [List.getElem?_cons_succ] at hi ⊢
          exact h3 k hi
    · intro hk hmem
      rcases List.mem_cons.mp hmem with h | h
      · exact hne h.symm
      · rcases List.mem_cons.mp h with h | h
        · exact hne2 h.symm
        · exact h4 hk h

/-- C9. Every token that `tokenize_stream` emits, for any byte string and configuration,
is non-empty and is a concatenation of whole word characters (an ASCII letter or digit, or
a two-byte sequence `D0 81`, `D0 90..BF`, `D1 91`, `D1 80..8F`) and literal hyphens in
which every hyphen stands directly between two word characters: the token neither starts
nor ends with a hyphen, has no two adjacent hyphens, has no hyphen at all when
`keep_hyphen_inside` is false, and contains no separator byte (no NUL, no ASCII byte
other than letters, digits and the joined hyphen, and no byte from `0x80` up other than
the lead bytes `D0`, `D1` and second bytes up to `BF`). -/
theorem tokenize_stream_tokens_well_formed (text : Bytes) (cfg : TokenizerConfig) (tok : Bytes)
    (h : tok ∈ tokenize_stream text cfg) :
    HyphenatedWord cfg.keep_hyphen_inside tok ∧
    tok ≠ [] ∧
    tok.head? ≠ some 0x2D ∧
    tok.getLast? ≠ some 0x2D ∧
    (∀ i, tok[i]? = some 0x2D → tok[i + 1]? ≠ some 0x2D) ∧
    (cfg.keep_hyphen_inside = false → 0x2D ∉ tok) ∧
    (∀ b ∈ tok, b ≠ 0 ∧
      (b < 0x80 → is_ascii_alnum b = true ∨ (b = 0x2D ∧ cfg.keep_hyphen_inside = true)) ∧
      (0x80 ≤ b → b = 0xD0 ∨ b = 0xD1 ∨ b ≤ 0xBF)) := by
  have hs := tokenize_stream_shape text cfg tok h
  obtain ⟨ws, hws, hl, hfirst⟩ := token_shape_pieces _ false tok hs
  obtain ⟨w, ws1, hw⟩ := hfirst rfl
  obtain ⟨h1, h2, h3, h4⟩ := token_shape_hyphens _ false tok hs
  refine ⟨⟨w, ws1, ?_, ?_, ?_⟩, tokenize_stream_ne_nil text cfg tok h, ?_, h2, h3, h4, ?_⟩
  · exact (hws (false, w) (by rw [hw]; exact List.mem_cons_self _ _)).1
  · intro p hp; exact hws p (by rw [hw]; exact List.mem_cons_of_mem _ hp)
  · rw [hl, hw]; simp [List.flatMap_cons, joined]
  · have := (h1 rfl).2
    cases tok with
    | nil => simp
    | cons a r => simpa using this
  · intro b hb
    exact token_shape_bytes _ false tok hs b hb

theorem tokenize_stream_tokens_well_formed_witness :
    utf8 "ab-c" ∈ tokenize_stream (utf8 "x, ab-c -d") {} ∧
    HyphenatedWord true (utf8 "ab-c") ∧ utf8 "ab-c" ≠ [] :=
  have h := tokenize_stream_tokens_well_formed (utf8 "x, ab-c -d") {} (utf8 "ab-c") (by decide)
  ⟨by decide, h.1, h.2.1⟩

/-- C10 as stated fails on its second half: under the default configuration (which drops
tokens shorter than `min_token_bytes = 2`) tokenizing `a--b` yields no token at all, not
the list `a`, `b`. -/
theorem tokenize_a_hyphen_hyphen_b_default :
    ({} : TokenizerConfig).keep_hyphen_inside = true ∧
    tokenize_stream (utf8 "a--b") {} = [] ∧
    tokenize_stream (utf8 "a--b") {} ≠ [utf8 "a", utf8 "b"] := by decide

/-- C10 amended. With `keep_hyphen_inside = true`: under the default configuration `a-b`
yields exactly the token `a-b` and `a--b` yields no token (both one-byte runs are shorter
than `min_token_bytes = 2` and are dropped); with short-token dropping switched off (the
other options at their defaults) `a-b` yields `a-b` and `a--b` yields exactly `a`, `b`. -/
theorem tokenize_hyphen_examples :
    ({} : TokenizerConfig).keep_hyphen_inside = true ∧
    tokenize_stream (utf8 "a-b") {} = [utf8 "a-b"] ∧
    tokenize_stream (utf8 "a--b") {} = [] ∧
    tokenize_stream (utf8 "a-b") { drop_short_tokens := false } = [utf8 "a-b"] ∧
    tokenize_stream (utf8 "a--b") { drop_short_tokens := false } = [utf8 "a", utf8 "b"] := by
  decide

end MaiIr

/-! ## The fuel of the loops is never exhausted

Each loop function is called with a fuel that bounds its number of iterations.  The
theorems of this section show that the result does not change when more fuel is given,
so the result is that of the terminated loop. -/

namespace MaiIr

theorem scan_run_fuel (text : Bytes) (cfg : TokenizerConfig) (start : Nat) (fuel : Nat) :
    ∀ (k i end_ : Nat), text.length ≤ i + fuel →
      scan_run text cfg start (fuel + k) i end_ = scan_run text cfg start fuel i end_ := by
  induction fuel with
  | zero =>
    intro k i end_ h
    have hi : ¬ i < text.length := by omega
    cases k with
    | zero => rfl
    | succ j => simp [scan_run, hi]
  | succ n ih =>
    intro k i end_ h
    rw [show n + 1 + k = (n + k) + 1 by omega]
    simp only [scan_run]
    have hlen := utf8_char_len_pos (byteAt text i)
    split_ifs
    · exact ih k (i + 1) (i + 1) (by omega)
    · rfl
    · exact ih k _ _ (by omega)
    · rfl
    · rfl

theorem commit_copy_fuel (text : Bytes) (cfg : TokenizerConfig) (end_ : Nat) (fuel : Nat) :
    ∀ (j k : Nat) (token : Bytes), end_ ≤ k + fuel →
      commit_copy text cfg end_ (fuel + j) k token = commit_copy text cfg end_ fuel k token := by
  induction fuel with
  | zero =>
    intro j k token h
    have hk : ¬ k < end_ := by omega
    cases j with
    | zero => rfl
    | succ j => simp [commit_copy, hk]
  | succ n ih =>
    intro j k token h
    rw [show n + 1 + j = (n + j) + 1 by omega]
    simp only [commit_copy]
    have hlen := utf8_char_len_pos (byteAt text k)
    by_cases hk : k < end_
    · rw [if_pos hk, if_pos hk]
      by_cases hc : byteAt text k < 0x80
      · rw [if_pos hc, if_pos hc]
        exact ih j (k + 1) _ (by omega)
      · rw [if_neg hc, if_neg hc]
        exact ih j _ _ (by omega)
    · rw [if_neg hk, if_neg hk]

/-- A run that starts on a word character ends behind it. -/
theorem scan_run_advances (text : Bytes) (cfg : TokenizerConfig) (i : Nat)
    (hw : is_word_char_utf8 text i = true) :
    i < (scan_run text cfg i text.length i i).1 := by
  have hlt := is_word_char_lt text i hw
  obtain ⟨r, hr, -, -, h3, -⟩ := scan_run_shape text cfg i text.length i false
    (by omega) (by omega) le_rfl (fun h => by simp at h) (fun _ => hw)
  rw [hr]
  exact h3 rfl

theorem scan_fuel (text : Bytes) (cfg : TokenizerConfig) (fuel : Nat) :
    ∀ (k i : Nat) (out : List Bytes), text.length ≤ i + fuel →
      scan text cfg (fuel + k) i out = scan text cfg fuel i out := by
  induction fuel with
  | zero =>
    intro k i out h
    have hi : ¬ i < text.length := by omega
    cases k with
    | zero => rfl
    | succ j => simp [scan, hi]
  | succ n ih =>
    intro k i out h
    rw [show n + 1 + k = (n + k) + 1 by omega]
    simp only [scan]
    have hlen := utf8_char_len_pos (byteAt text i)
    by_cases hlt : i < text.length
    · rw [if_pos hlt, if_pos hlt]
      by_cases hw : is_word_char_utf8 text i = true
      · have hadv := scan_run_advances text cfg i hw
        simp only [hw, Bool.not_true, Bool.false_eq_true, if_false]
        exact ih k _ _ (by omega)
      · simp only [hw, Bool.not_false, if_true]
        exact ih k _ _ (by omega)
    · rw [if_neg hlt, if_neg hlt]

theorem repl_fuel (a b : Nat) (to_ : Bytes) (fuel : Nat) :
    ∀ (k : Nat) (s : Bytes), s.length ≤ fuel →
      repl [a, b] to_ (fuel + k) s = repl [a, b] to_ fuel s := by
  induction fuel with
  | zero =>
    intro k s h
    have h1 : s = [] := List.length_eq_zero.mp (by omega)
    subst h1
    cases k <;> rfl
  | succ n ih =>
    intro k s h
    rw [show n + 1 + k = (n + k) + 1 by omega]
    cases s with
    | nil => rfl
    | cons c cs =>
      simp only [List.length_cons] at h
      simp only [repl]
      split_ifs
      · rw [ih k _ (by simp; omega)]
      · rw [ih k cs (by omega)]

/-- More fuel does not change the token list: the outer loop of `tokenize_stream` has
terminated within `text.length` iterations. -/
theorem tokenize_stream_fuel (text : Bytes) (cfg : TokenizerConfig) (k : Nat) :
    scan text cfg (text.length + k) 0 [] = tokenize_stream text cfg :=
  scan_fuel text cfg text.length k 0 [] (by omega)

/-- More fuel does not change a run: the inner loop of `tokenize_stream` has terminated
within `text.length` iterations. -/
theorem scan_run_fuel_text (text : Bytes) (cfg : TokenizerConfig) (start i end_ k : Nat) :
    scan_run text cfg start (text.length + k) i end_ = scan_run text cfg start text.length i end_ :=
  scan_run_fuel text cfg start text.length k i end_ (by omega)

/-- More fuel does not change a committed token. -/
theorem commit_copy_fuel_len (text : Bytes) (cfg : TokenizerConfig) (start end_ j : Nat) :
    commit_copy text cfg end_ (end_ - start + j) start [] =
      commit_copy text cfg end_ (end_ - start) start [] :=
  commit_copy_fuel text cfg end_ (end_ - start) j start [] (by omega)

theorem repl_length (a b c d : Nat) :
    ∀ (fuel : Nat) (s : Bytes), (repl [a, b] [c, d] fuel s).length = s.length := by
  intro fuel
  induction fuel with
  | zero => intro s; rfl
  | succ n ih =>
    intro s
    cases s with
    | nil => rfl
    | cons x xs =>
      rw [repl]
      split_ifs with hp
      · have hle : 2 ≤ (x :: xs).length := by
          have := (List.isPrefixOf_iff_prefix.mp hp).length_le
          simpa using this
        rw [List.length_append, ih, List.length_drop]
        simp only [List.length_cons, List.length_nil] at hle ⊢
        omega
      · rw [List.length_cons, ih, List.length_cons]

/-- More fuel does not change `normalize_yo`. -/
theorem normalize_yo_fuel (s : Bytes) (k : Nat) :
    repl [0xD1, 0x91] [0xD0, 0xB5] (s.length + k)
      (repl [0xD0, 0x81] [0xD0, 0x95] (s.length + k) s) = normalize_yo s := by
  unfold normalize_yo
  simp only
  rw [repl_fuel 0xD0 0x81 _ s.length k s le_rfl]
  have hl : (repl [0xD0, 0x81] [0xD0, 0x95] s.length s).length = s.length :=
    repl_length _ _ _ _ _ _
  rw [hl, repl_fuel 0xD1 0x91 _ s.length k _ (by omega)]

end MaiIr

/-! ## Boolean index -/

namespace MaiIr

theorem get_postings_add_term (idx : BooleanIndex) (term : Bytes) (d : Nat) (t : Bytes) :
    get_postings (add_term idx term d) t =
      if t = term then some (push_unless_last ((get_postings idx term).getD []) d)
      else get_postings idx t := by
  induction idx with
  | nil =>
    by_cases h : t = term
    · subst h; simp [add_term, get_postings]
    · have h2 : ¬ term = t := fun e => h e.symm
      simp [add_term, get_postings, h, h2]
  | cons kv rest ih =>
    obtain ⟨k, v⟩ := kv
    by_cases hk : k = term
    · subst hk
      by_cases h : t = k
      · subst h; simp [add_term, get_postings]
      · have h2 : ¬ k = t := fun e => h e.symm
        simp [add_term, get_postings, h, h2]
    · by_cases h : t = term
      · subst h
        simp only [add_term, hk, if_false, get_postings, if_true]
        rw [ih]; simp
      · simp only [add_term, hk, if_false, get_postings, h]
        rw [ih]; simp [h]

theorem push_unless_last_eq (v : List Nat) (d : Nat) :
    push_unless_last v d = if v ≠ [] ∧ v.getLast? = some d then v else v ++ [d] := by
  unfold push_unless_last
  cases v with
  | nil => simp
  | cons a r =>
    by_cases h : (a :: r).getLast? = some d
    · simp [h]
    · simp [h]

theorem getLast_of_mem_of_le (v : List Nat) (d : Nat) (hv : StrictlyIncreasing v)
    (hd : d ∈ v) (hle : ∀ x ∈ v, x ≤ d) : v.getLast? = some d := by
  rcases List.eq_nil_or_concat v with h | ⟨init, last, h⟩
  · subst h; simp at hd
  · subst h
    rw [List.concat_eq_append] at hv hd hle ⊢
    rw [List.getLast?_concat]
    have hp := List.pairwise_append.mp hv
    have hlast := hle last (by simp)
    rcases List.mem_append.mp hd with h | h
    · have := hp.2.2 d h last (by simp); omega
    · simp at h; rw [h]

/-- Appending a doc id that is no smaller than every stored id keeps the list strictly
increasing. -/
theorem push_unless_last_increasing (v : List Nat) (d : Nat) (hv : StrictlyIncreasing v)
    (hle : ∀ x ∈ v, x ≤ d) :
    StrictlyIncreasing (push_unless_last v d) ∧ ∀ x ∈ push_unless_last v d, x ∈ v ∨ x = d := by
  rw [push_unless_last_eq]
  split_ifs with h
  · exact ⟨hv, fun x hx => Or.inl hx⟩
  · refine ⟨?_, fun x hx => by simpa using hx⟩
    refine List.pairwise_append.mpr ⟨hv, List.pairwise_singleton _ _, ?_⟩
    intro x hx y hy
    rw [List.mem_singleton] at hy
    subst hy
    have h1 := hle x hx
    by_contra hcon
    have hxy : x = y := by omega
    subst hxy
    exact h ⟨List.ne_nil_of_mem hx, getLast_of_mem_of_le v x hv hx hle⟩

/-- The invariant behind C6: after the calls, every posting list is strictly increasing
and holds only ids that were supplied for its term. -/
theorem run_add_terms_invariant (calls : List (Bytes × Nat))
    (hcalls : calls.Pairwise (fun c1 c2 => c1.1 = c2.1 → c1.2 ≤ c2.2)) :
    ∀ term l, get_postings (run_add_terms calls) term = some l →
      StrictlyIncreasing l ∧ ∀ x ∈ l, (term, x) ∈ calls := by
  induction calls using List.reverseRecOn with
  | nil => intro term l h; simp [run_add_terms, get_postings] at h
  | append_singleton calls c ih =>
    obtain ⟨ct, cd⟩ := c
    have hp := List.pairwise_append.mp hcalls
    have ih := ih hp.1
    intro term l h
    have hrun : run_add_terms (calls ++ [(ct, cd)]) = add_term (run_add_terms calls) ct cd := by
      simp [run_add_terms, List.foldl_append]
    rw [hrun, get_postings_add_term] at h
    split_ifs at h with ht
    · subst ht
      have hl := Option.some.inj h
      have hv : StrictlyIncreasing ((get_postings (run_add_terms calls) term).getD []) ∧
          ∀ x ∈ (get_postings (run_add_terms calls) term).getD [], (term, x) ∈ calls := by
        cases hg : get_postings (run_add_terms calls) term with
        | none => simp
        | some v => simpa using ih term v hg
      have hle : ∀ x ∈ (get_postings (run_add_terms calls) term).getD [], x ≤ cd :=
        fun x hx => hp.2.2 (term, x) (hv.2 x hx) (term, cd) (by simp) rfl
      have hpush := push_unless_last_increasing _ cd hv.1 hle
      rw [hl] at hpush
      refine ⟨hpush.1, fun x hx => ?_⟩
      rcases hpush.2 x hx with h1 | h1
      · exact List.mem_append_left _ (hv.2 x h1)
      · subst h1; simp
    · have := ih term l h
      exact ⟨this.1, fun x hx => List.mem_append_left _ (this.2 x hx)⟩

/-- C6. `add_term(term, doc_id)` leaves the posting list of `term` unchanged when that list
is non-empty and its last element equals `doc_id`, and otherwise appends `doc_id` (to an
empty list for an unknown term); the lists of all other terms are untouched.  Hence,
starting from an empty index, whenever the doc ids supplied for each term are
non-decreasing along the sequence of calls, every posting list is strictly increasing
after every call (after the first `k` calls, for every `k`). -/
theorem add_term_spec (idx : BooleanIndex) (term : Bytes) (doc_id : Nat)
    (calls : List (Bytes × Nat))
    (hcalls : calls.Pairwise (fun c1 c2 => c1.1 = c2.1 → c1.2 ≤ c2.2)) (k : Nat) :
    (get_postings (add_term idx term doc_id) term =
      some (if (get_postings idx term).getD [] ≠ [] ∧
              ((get_postings idx term).getD []).getLast? = some doc_id
            then (get_postings idx term).getD []
            else (get_postings idx term).getD [] ++ [doc_id])) ∧
    (∀ t, t ≠ term → get_postings (add_term idx term doc_id) t = get_postings idx t) ∧
    (∀ t l, get_postings (run_add_terms (calls.take k)) t = some l → StrictlyIncreasing l) := by
  refine ⟨?_, ?_, ?_⟩
  · rw [get_postings_add_term, if_pos rfl, push_unless_last_eq]
  · intro t ht; rw [get_postings_add_term, if_neg ht]
  · intro t l h
    exact (run_add_terms_invariant (calls.take k)
      (List.Pairwise.sublist (List.take_sublist k calls) hcalls) t l h).1

theorem add_term_spec_witness :
    get_postings (run_add_terms
      ([(utf8 "a", 0), (utf8 "b", 0), (utf8 "a", 0), (utf8 "a", 2), (utf8 "b", 1)].take 4))
      (utf8 "a") = some [0, 2] ∧
    StrictlyIncreasing [0, 2] :=
  ⟨by decide,
    (add_term_spec [] (utf8 "a") 0
      [(utf8 "a", 0), (utf8 "b", 0), (utf8 "a", 0), (utf8 "a", 2), (utf8 "b", 1)]
      (by decide) 4).2.2 (utf8 "a") [0, 2] (by decide)⟩

end MaiIr

/-! ## Building the index -/

namespace MaiIr

theorem build_step_eq (cfg : TokenizerConfig) (st : BuildState) (doc : Record) :
    build_step cfg st doc =
      match accept doc with
      | some d => index_doc cfg st d
      | none => st := by
  unfold build_step accept
  cases doc.clean_text with
  | str text =>
    cases extract_oid_hex doc.id with
    | none => rfl
    | some hex => rfl
  | missing => rfl
  | other => rfl

theorem foldl_build_step (cfg : TokenizerConfig) (rs : List Record) (st : BuildState) :
    rs.foldl (build_step cfg) st = (rs.filterMap accept).foldl (index_doc cfg) st := by
  induction rs generalizing st with
  | nil => rfl
  | cons r rest ih =>
    rw [List.foldl_cons, build_step_eq, List.filterMap_cons]
    cases accept r with
    | none => exact ih st
    | some d => simp only [List.foldl_cons]; exact ih _

theorem index_token_eq (d : Nat) (idx : BooleanIndex) (t : Bytes) :
    index_token d idx t = (doc_terms [t]).foldl (fun i term => add_term i term d) idx := by
  unfold index_token doc_terms
  by_cases h : t = []
  · simp [h]
  · by_cases h2 : stem_ru t ≠ [] ∧ stem_ru t ≠ t
    · simp [h, h2]
    · simp [h, h2]

theorem doc_terms_cons (t : Bytes) (toks : List Bytes) :
    doc_terms (t :: toks) = doc_terms [t] ++ doc_terms toks := by
  simp [doc_terms, List.flatMap_cons]

theorem foldl_index_token (d : Nat) (toks : List Bytes) (idx : BooleanIndex) :
    toks.foldl (index_token d) idx =
      (doc_terms toks).foldl (fun i term => add_term i term d) idx := by
  induction toks generalizing idx with
  | nil => rfl
  | cons t rest ih =>
    rw [List.foldl_cons, ih, index_token_eq, doc_terms_cons t rest, List.foldl_append]

theorem push_unless_last_idem (v : List Nat) (d : Nat) :
    push_unless_last (push_unless_last v d) d = push_unless_last v d := by
  rw [push_unless_last_eq v d]
  split_ifs with h
  · rw [push_unless_last_eq, if_pos h]
  · rw [push_unless_last_eq, if_pos ⟨by simp, by simp⟩]

/-- The posting list of a term after one document's terms were added under the id `d`. -/
theorem get_postings_foldl_add_term (d : Nat) (ts : List Bytes) (idx : BooleanIndex)
    (term : Bytes) :
    get_postings (ts.foldl (fun i t => add_term i t d) idx) term =
      if term ∈ ts then some (push_unless_last ((get_postings idx term).getD []) d)
      else get_postings idx term := by
  induction ts generalizing idx with
  | nil => simp
  | cons t rest ih =>
    rw [List.foldl_cons, ih, get_postings_add_term]
    by_cases h1 : term = t
    · subst h1
      simp only [if_true, Option.getD_some, push_unless_last_idem, List.mem_cons, true_or]
      split_ifs <;> rfl
    · simp only [h1, if_false, List.mem_cons, false_or]

theorem expected_postings_lt (cfg : TokenizerConfig) (acc : List (Bytes × DocMeta))
    (term : Bytes) : ∀ x ∈ expected_postings cfg acc term, x < acc.length := by
  intro x hx
  exact List.mem_range.mp (List.mem_filter.mp hx).1

theorem expected_postings_increasing (cfg : TokenizerConfig) (acc : List (Bytes × DocMeta))
    (term : Bytes) : StrictlyIncreasing (expected_postings cfg acc term) :=
  List.Pairwise.sublist (List.filter_sublist _) (List.pairwise_lt_range _)

theorem expected_postings_append (cfg : TokenizerConfig) (acc : List (Bytes × DocMeta))
    (doc : Bytes × DocMeta) (term : Bytes) :
    expected_postings cfg (acc ++ [doc]) term =
      expected_postings cfg acc term ++
        (if term ∈ doc_terms (tokenize_to_vector doc.1 cfg) then [acc.length] else []) := by
  unfold expected_postings
  rw [List.length_append, List.length_singleton, List.range_succ, List.filter_append]
  congr 1
  · apply List.filter_congr
    intro x hx
    have hx := List.mem_range.mp hx
    simp only [doc_has_term, List.getElem?_append_left hx]
  · have : doc_has_term cfg (acc ++ [doc]) term acc.length =
        decide (term ∈ doc_terms (tokenize_to_vector doc.1 cfg)) := by
      simp [doc_has_term]
    by_cases h : term ∈ doc_terms (tokenize_to_vector doc.1 cfg)
    · simp [List.filter_cons, this, h]
    · simp [List.filter_cons, this, h]

theorem push_unless_last_of_lt (v : List Nat) (d : Nat) (h : ∀ x ∈ v, x < d) :
    push_unless_last v d = v ++ [d] := by
  rw [push_unless_last_eq, if_neg]
  rintro ⟨-, h2⟩
  have := h d (List.mem_of_getLast?_eq_some h2)
  omega

theorem getD_ite_nil (E : List Nat) : (if E = [] then none else some E).getD [] = E := by
  split_ifs with h
  · simp [h]
  · rfl

/-- The state of the record loop of `build_index`, started on an empty index, after the
accepted records `acc`. -/
theorem foldl_index_doc_state (cfg : TokenizerConfig) (acc : List (Bytes × DocMeta)) :
    (acc.foldl (index_doc cfg) { index := [], meta := [], doc_id := 0 }).meta =
        acc.map (fun doc => doc.2) ∧
    (acc.foldl (index_doc cfg) { index := [], meta := [], doc_id := 0 }).doc_id =
        acc.length % 2 ^ 32 ∧
    (acc.length ≤ 2 ^ 32 → ∀ term,
      get_postings (acc.foldl (index_doc cfg) { index := [], meta := [], doc_id := 0 }).index
          term =
        if expected_postings cfg acc term = [] then none
        else some (expected_postings cfg acc term)) := by
  induction acc using List.reverseRecOn with
  | nil =>
    refine ⟨rfl, rfl, fun _ term => ?_⟩
    simp [expected_postings, get_postings]
  | append_singleton acc doc ih =>
    obtain ⟨ih1, ih2, ih3⟩ := ih
    rw [List.foldl_append, List.foldl_cons, List.foldl_nil]
    refine ⟨?_, ?_, ?_⟩
    · simp [index_doc, ih1]
    · simp only [index_doc, ih2, List.length_append, List.length_singleton]
      omega
    · intro hlen term
      rw [List.length_append, List.length_singleton] at hlen
      have hid : acc.length % 2 ^ 32 = acc.length := Nat.mod_eq_of_lt (by omega)
      simp only [index_doc]
      rw [foldl_index_token, get_postings_foldl_add_term, ih3 (by omega) term, ih2, hid,
        expected_postings_append]
      rw [getD_ite_nil, push_unless_last_of_lt _ _ (expected_postings_lt cfg acc term)]
      by_cases h : term ∈ doc_terms (tokenize_to_vector doc.1 cfg)
      · simp [h]
      · simp [h]

theorem build_index_new (cfg : TokenizerConfig) (coll : List Record) (limit : Int) :
    build_index (SearchEngine.new cfg) coll limit =
      { cfg := cfg
        index := ((accepted_records coll limit).foldl (index_doc cfg)
          { index := [], meta := [], doc_id := 0 }).index
        meta := ((accepted_records coll limit).foldl (index_doc cfg)
          { index := [], meta := [], doc_id := 0 }).meta } := by
  simp only [build_index, SearchEngine.new, foldl_build_step, accepted_records]

end MaiIr

/-! ## The built index -/

namespace MaiIr

theorem getElem?_expected (cfg : TokenizerConfig) (acc : List (Bytes × DocMeta)) (term : Bytes)
    (d : Nat) :
    d ∈ expected_postings cfg acc term ↔
      ∃ doc, acc[d]? = some doc ∧ term ∈ doc_terms (tokenize_to_vector doc.1 cfg) := by
  unfold expected_postings
  rw [List.mem_filter, List.mem_range]
  constructor
  · rintro ⟨hd, hm⟩
    refine ⟨acc[d], List.getElem?_eq_getElem hd, ?_⟩
    simpa [doc_has_term, List.getElem?_eq_getElem hd] using hm
  · rintro ⟨doc, hdoc, hm⟩
    have hd : d < acc.length := (List.getElem?_eq_some_iff.mp hdoc).1
    refine ⟨hd, ?_⟩
    simp [doc_has_term, hdoc, hm]

/-- The posting lists of a freshly built index, for at most `2^32` accepted records. -/
theorem build_index_postings (cfg : TokenizerConfig) (coll : List Record) (limit : Int)
    (hbound : (accepted_records coll limit).length ≤ 2 ^ 32) (term : Bytes) :
    get_postings (build_index (SearchEngine.new cfg) coll limit).index term =
      if expected_postings cfg (accepted_records coll limit) term = [] then none
      else some (expected_postings cfg (accepted_records coll limit) term) := by
  rw [build_index_new]
  exact (foldl_index_doc_state cfg (accepted_records coll limit)).2.2 hbound term

theorem build_index_postings_mem (cfg : TokenizerConfig) (coll : List Record) (limit : Int)
    (hbound : (accepted_records coll limit).length ≤ 2 ^ 32) (term : Bytes) (d : Nat) :
    (∃ l, get_postings (build_index (SearchEngine.new cfg) coll limit).index term = some l ∧
      d ∈ l) ↔
    ∃ doc, (accepted_records coll limit)[d]? = some doc ∧
      term ∈ doc_terms (tokenize_to_vector doc.1 cfg) := by
  rw [build_index_postings cfg coll limit hbound term, ← getElem?_expected]
  split_ifs with he
  · simp [he]
  · simp

theorem build_index_postings_increasing (cfg : TokenizerConfig) (coll : List Record)
    (limit : Int) (hbound : (accepted_records coll limit).length ≤ 2 ^ 32) (term : Bytes)
    (l : List Nat)
    (hl : get_postings (build_index (SearchEngine.new cfg) coll limit).index term = some l) :
    StrictlyIncreasing l ∧ ∀ d ∈ l, d < (accepted_records coll limit).length := by
  rw [build_index_postings cfg coll limit hbound term] at hl
  by_cases he : expected_postings cfg (accepted_records coll limit) term = []
  · rw [if_pos he] at hl
    exact absurd hl (by simp)
  · rw [if_neg he] at hl
    have := Option.some.inj hl
    subst this
    exact ⟨expected_postings_increasing cfg _ term, expected_postings_lt cfg _ term⟩

/-- C7 amended. After `build_index` on a fresh engine over a collection with at most `2^32`
accepted records: the metadata table lists the accepted records in iteration order (record
number `k` sits in slot `k`), `docs_indexed` is their number, an id `d` is in the posting
list of a term exactly when the accepted record number `d` registers that term (so the
records received the ids 0, 1, 2, ... in iteration order), and every posting list is
strictly increasing with all its ids below `docs_indexed`. -/
theorem build_index_spec (cfg : TokenizerConfig) (coll : List Record) (limit : Int)
    (hbound : (accepted_records coll limit).length ≤ 2 ^ 32) :
    (build_index (SearchEngine.new cfg) coll limit).meta =
      (accepted_records coll limit).map (fun doc => doc.2) ∧
    (build_index (SearchEngine.new cfg) coll limit).docs_indexed =
      (accepted_records coll limit).length ∧
    (∀ term d,
      (∃ l, get_postings (build_index (SearchEngine.new cfg) coll limit).index term = some l ∧
        d ∈ l) ↔
      ∃ doc, (accepted_records coll limit)[d]? = some doc ∧
        term ∈ doc_terms (tokenize_to_vector doc.1 cfg)) ∧
    (∀ term l,
      get_postings (build_index (SearchEngine.new cfg) coll limit).index term = some l →
      StrictlyIncreasing l ∧
      ∀ d ∈ l, d < (build_index (SearchEngine.new cfg) coll limit).docs_indexed) := by
  have hmeta : (build_index (SearchEngine.new cfg) coll limit).meta =
      (accepted_records coll limit).map (fun doc => doc.2) := by
    rw [build_index_new]
    exact (foldl_index_doc_state cfg (accepted_records coll limit)).1
  have hlen : (build_index (SearchEngine.new cfg) coll limit).docs_indexed =
      (accepted_records coll limit).length := by
    rw [SearchEngine.docs_indexed, hmeta, List.length_map]
  refine ⟨hmeta, hlen, build_index_postings_mem cfg coll limit hbound, ?_⟩
  intro term l hl
  rw [hlen]
  exact build_index_postings_increasing cfg coll limit hbound term l hl

theorem build_index_spec_witness :
    (accepted_records
      [numbered_record 7 (utf8 "книга"), numbered_record 8 [], numbered_record 9 (utf8 "книги")]
      0).length ≤ 2 ^ 32 ∧
    (build_index (SearchEngine.new {})
      [numbered_record 7 (utf8 "книга"), numbered_record 8 [], numbered_record 9 (utf8 "книги")]
      0).docs_indexed = 2 ∧
    get_postings (build_index (SearchEngine.new {})
      [numbered_record 7 (utf8 "книга"), numbered_record 8 [], numbered_record 9 (utf8 "книги")]
      0).index (utf8 "книг") = some [0, 1] :=
  have h := build_index_spec {}
    [numbered_record 7 (utf8 "книга"), numbered_record 8 [], numbered_record 9 (utf8 "книги")]
    0 (by decide)
  ⟨by decide, h.2.1.trans (by decide), by decide⟩

theorem accepted_numbered_collection (f : Nat → Bytes) (hf : ∀ i, f i ≠ []) (n : Nat) :
    accepted_records (numbered_collection f n) 0 =
      (List.range n).map (fun i => numbered_doc i (f i)) := by
  have hfind : find_records (numbered_collection f n) 0 = numbered_collection f n := by
    unfold find_records
    simp only [lt_self_iff_false, if_false]
    apply List.filter_eq_self.mpr
    intro r hr
    obtain ⟨i, -, rfl⟩ := List.mem_map.mp hr
    have := hf i
    simp [numbered_record, this]
  rw [accepted_records, hfind, numbered_collection, List.filterMap_map]
  rw [← List.filterMap_eq_map]
  rfl

/-- The posting list of a term after a build over `2^32 + 1` numbered records: the last
record is indexed under the wrapped id 0, on top of the lists of the first `2^32`. -/
theorem get_postings_after_wrap (f : Nat → Bytes) (hf : ∀ i, f i ≠ []) (term : Bytes) :
    get_postings
        (build_index (SearchEngine.new {}) (numbered_collection f (2 ^ 32 + 1)) 0).index term =
      if term ∈ doc_terms (tokenize_to_vector (f (2 ^ 32)) {}) then
        some (push_unless_last
          (expected_postings {} (accepted_records (numbered_collection f (2 ^ 32)) 0) term) 0)
      else if expected_postings {} (accepted_records (numbered_collection f (2 ^ 32)) 0) term =
          [] then none
      else some (expected_postings {} (accepted_records (numbered_collection f (2 ^ 32)) 0) term) := by
  rw [build_index_new, accepted_numbered_collection f hf, List.range_succ, List.map_append,
    List.foldl_append, ← accepted_numbered_collection f hf]
  obtain ⟨-, h2, h3⟩ := foldl_index_doc_state {}
    (accepted_records (numbered_collection f (2 ^ 32)) 0)
  have hlen : (accepted_records (numbered_collection f (2 ^ 32)) 0).length = 2 ^ 32 := by
    rw [accepted_numbered_collection f hf, List.length_map, List.length_range]
  rw [hlen] at h2 h3
  have h3 := h3 le_rfl term
  rw [Nat.mod_self] at h2
  simp only [List.map_cons, List.map_nil, List.foldl_cons, List.foldl_nil, index_doc]
  rw [foldl_index_token, get_postings_foldl_add_term, h3, h2]
  have hdoc : (numbered_doc (2 ^ 32) (f (2 ^ 32))).1 = f (2 ^ 32) := rfl
  rw [hdoc, getD_ite_nil]

theorem mem_expected_numbered (f : Nat → Bytes) (hf : ∀ i, f i ≠ []) (n : Nat) (term : Bytes)
    (d : Nat) :
    d ∈ expected_postings {} (accepted_records (numbered_collection f n) 0) term ↔
      d < n ∧ term ∈ doc_terms (tokenize_to_vector (f d) {}) := by
  rw [getElem?_expected, accepted_numbered_collection f hf]
  constructor
  · rintro ⟨doc, hdoc, hterm⟩
    have hd : d < n := by
      have := (List.getElem?_eq_some_iff.mp hdoc).1
      simpa using this
    rw [List.getElem?_map, List.getElem?_range hd] at hdoc
    have := Option.some.inj hdoc
    subst this
    exact ⟨hd, hterm⟩
  · rintro ⟨hd, hterm⟩
    refine ⟨numbered_doc d (f d), ?_, hterm⟩
    rw [List.getElem?_map, List.getElem?_range hd]
    rfl

/-- A strictly increasing list that holds 1 grows by the element 0 when 0 is pushed. -/
theorem push_zero_of_one_mem (E : List Nat) (hinc : StrictlyIncreasing E) (hone : 1 ∈ E) :
    push_unless_last E 0 = E ++ [0] := by
  rw [push_unless_last_eq, if_neg]
  rintro ⟨-, hl⟩
  obtain ⟨ys, hys⟩ := List.getLast?_eq_some_iff.mp hl
  rw [hys] at hinc hone
  have hp := List.pairwise_append.mp hinc
  rcases List.mem_append.mp hone with h | h
  · have := hp.2.2 1 h 0 (by simp); omega
  · simp at h

theorem ab_mem_doc_terms :
    utf8 "ab" ∈ doc_terms (tokenize_to_vector (utf8 "ab") {}) := by decide

/-- C7 as stated fails for a collection with more than `2^32` accepted records: the
`uint32_t` counter `doc_id` wraps to 0, so with `2^32 + 1` records that all contain `ab`
the posting list of `ab` ends in `..., 2^32 - 1, 0` and is not strictly increasing. -/
theorem build_index_doc_id_wraps :
    ∃ l, get_postings (build_index (SearchEngine.new {}) (ab_collection (2 ^ 32 + 1)) 0).index
        (utf8 "ab") = some l ∧
      ¬ StrictlyIncreasing l := by
  have hab : utf8 "ab" ≠ [] := by decide
  have hf : ∀ i : Nat, (fun _ : Nat => utf8 "ab") i ≠ [] := fun _ => hab
  have hone : 1 ∈ expected_postings {}
      (accepted_records (numbered_collection (fun _ => utf8 "ab") (2 ^ 32)) 0) (utf8 "ab") :=
    (mem_expected_numbered _ hf _ _ 1).mpr ⟨by norm_num, ab_mem_doc_terms⟩
  have hinc := expected_postings_increasing {}
    (accepted_records (numbered_collection (fun _ => utf8 "ab") (2 ^ 32)) 0) (utf8 "ab")
  rw [ab_collection, get_postings_after_wrap _ hf, if_pos ab_mem_doc_terms,
    push_zero_of_one_mem _ hinc hone]
  refine ⟨_, rfl, ?_⟩
  intro hs
  have hp := List.pairwise_append.mp hs
  have := hp.2.2 1 hone 0 (by simp)
  omega

/-- C8 at a failing input. Over the collection of two records that both contain `ab`, a
first `build_index` on a fresh engine gives `ab` the posting list `[0, 1]`; a second
`build_index` on the same engine clears the metadata table but keeps `index_`, so the
posting list becomes `[0, 1, 0, 1]`, while the metadata table is the same as after one
build. -/
theorem rebuild_keeps_old_postings :
    get_postings (build_index (SearchEngine.new {}) (ab_collection 2) 0).index (utf8 "ab") =
      some [0, 1] ∧
    get_postings (build_index (build_index (SearchEngine.new {}) (ab_collection 2) 0)
      (ab_collection 2) 0).index (utf8 "ab") = some [0, 1, 0, 1] ∧
    (build_index (build_index (SearchEngine.new {}) (ab_collection 2) 0)
      (ab_collection 2) 0).meta =
      (build_index (SearchEngine.new {}) (ab_collection 2) 0).meta := by
  decide

end MaiIr

/-! ## Searching -/

namespace MaiIr

theorem search_loop_cons (index : BooleanIndex) (qt : Bytes) (rest : List Bytes) (first : Bool)
    (running : List Nat) (hqt : qt ≠ []) :
    search_loop index (qt :: rest) first running =
      if (if first then term_docs index qt
          else postings_intersect running (term_docs index qt)) = [] then []
      else search_loop index rest false
        (if first then term_docs index qt else postings_intersect running (term_docs index qt)) := by
  rw [search_loop, if_neg hqt]
  simp only [term_docs]
  split_ifs with h <;> simp_all

theorem search_loop_no_break_cons (index : BooleanIndex) (qt : Bytes) (rest : List Bytes)
    (first : Bool) (running : List Nat) (hqt : qt ≠ []) :
    search_loop_no_break index (qt :: rest) first running =
      search_loop_no_break index rest false
        (if first then term_docs index qt else postings_intersect running (term_docs index qt)) := by
  rw [search_loop_no_break, if_neg hqt]
  simp only [term_docs]

theorem postings_intersect_nil_left (b : List Nat) : postings_intersect [] b = [] := by
  cases b <;> simp [postings_intersect, intersect_loop]

theorem search_loop_no_break_nil_running (index : BooleanIndex) (toks : List Bytes) :
    search_loop_no_break index toks false [] = [] := by
  induction toks with
  | nil => rfl
  | cons qt rest ih =>
    by_cases hqt : qt = []
    · rw [search_loop_no_break, if_pos hqt]; exact ih
    · rw [search_loop_no_break_cons index qt rest false [] hqt]
      simp only [Bool.false_eq_true, if_false, postings_intersect_nil_left]
      exact ih

/-- The early `break` of the token loop does not change its result. -/
theorem search_loop_eq_no_break (index : BooleanIndex) (toks : List Bytes) :
    ∀ (first : Bool) (running : List Nat),
      search_loop index toks first running = search_loop_no_break index toks first running := by
  induction toks with
  | nil => intro first running; rfl
  | cons qt rest ih =>
    intro first running
    by_cases hqt : qt = []
    · rw [search_loop, search_loop_no_break, if_pos hqt, if_pos hqt]; exact ih first running
    · rw [search_loop_cons index qt rest first running hqt,
        search_loop_no_break_cons index qt rest first running hqt]
      by_cases h1 : (if first then term_docs index qt
          else postings_intersect running (term_docs index qt)) = []
      · rw [if_pos h1, h1, search_loop_no_break_nil_running]
      · rw [if_neg h1]; exact ih false _

theorem get_postings_mem (idx : BooleanIndex) (term : Bytes) (l : List Nat)
    (h : get_postings idx term = some l) : (term, l) ∈ idx := by
  induction idx with
  | nil => simp [get_postings] at h
  | cons kv rest ih =>
    obtain ⟨k, v⟩ := kv
    rw [get_postings] at h
    split_ifs at h with hk
    · have := Option.some.inj h
      subst this hk
      exact List.mem_cons_self _ _
    · exact List.mem_cons_of_mem _ (ih h)

/-- An index all of whose stored lists are strictly increasing only returns such lists. -/
theorem postings_increasing_of_forall_mem (idx : BooleanIndex)
    (h : ∀ kv ∈ idx, StrictlyIncreasing kv.2) :
    ∀ term l, get_postings idx term = some l → StrictlyIncreasing l :=
  fun term l hl => h (term, l) (get_postings_mem idx term l hl)

/-- The documents matching one query token. -/
theorem term_docs_spec (idx : BooleanIndex)
    (hidx : ∀ term l, get_postings idx term = some l → StrictlyIncreasing l) (q : Bytes) :
    StrictlyIncreasing (term_docs idx q) ∧
    ∀ d, d ∈ term_docs idx q ↔
      (∃ l, get_postings idx q = some l ∧ d ∈ l) ∨
      (stem_ru q ≠ q ∧ ∃ l, get_postings idx (stem_ru q) = some l ∧ d ∈ l) := by
  unfold term_docs
  by_cases hst : stem_ru q ≠ q
  · rw [if_pos hst]
    cases h1 : get_postings idx q with
    | none =>
      cases h2 : get_postings idx (stem_ru q) with
      | none => simp [postings_union]
      | some B =>
        refine ⟨hidx _ B h2, fun d => ?_⟩
        simp [postings_union, hst]
    | some A =>
      cases h2 : get_postings idx (stem_ru q) with
      | none =>
        refine ⟨hidx _ A h1, fun d => ?_⟩
        simp [postings_union]
      | some B =>
        have hs := postings_union_core A B (hidx _ A h1) (hidx _ B h2)
        refine ⟨hs.1, fun d => ?_⟩
        rw [hs.2 d]
        simp [hst]
  · rw [if_neg hst]
    have hst1 : stem_ru q = q := not_not.mp hst
    cases h1 : get_postings idx q with
    | none => simp [postings_union, hst1]
    | some A =>
      refine ⟨hidx _ A h1, fun d => ?_⟩
      simp [postings_union, hst1]

/-- The token loop after its first token: an intersection of the running result with the
matches of every remaining token. -/
theorem search_loop_spec (idx : BooleanIndex)
    (hidx : ∀ term l, get_postings idx term = some l → StrictlyIncreasing l) :
    ∀ (toks : List Bytes) (running : List Nat), (∀ t ∈ toks, t ≠ []) →
      StrictlyIncreasing running →
      StrictlyIncreasing (search_loop idx toks false running) ∧
      ∀ d, d ∈ search_loop idx toks false running ↔
        d ∈ running ∧ ∀ q ∈ toks, d ∈ term_docs idx q := by
  intro toks
  induction toks with
  | nil => intro running _ hr; exact ⟨hr, fun d => by simp [search_loop]⟩
  | cons qt rest ih =>
    intro running hne hr
    have hqt : qt ≠ [] := hne qt (List.mem_cons_self _ _)
    have hrest : ∀ t ∈ rest, t ≠ [] := fun t ht => hne t (List.mem_cons_of_mem _ ht)
    have hi := postings_intersect_core running (term_docs idx qt) hr (term_docs_spec idx hidx qt).1
    rw [search_loop_cons idx qt rest false running hqt]
    simp only [Bool.false_eq_true, if_false]
    split_ifs with h1
    · refine ⟨List.Pairwise.nil, fun d => ?_⟩
      constructor
      · intro h; simp at h
      · rintro ⟨hd, hall⟩
        have : d ∈ postings_intersect running (term_docs idx qt) :=
          (hi.2 d).mpr ⟨hd, hall qt (List.mem_cons_self _ _)⟩
        rw [h1] at this
        exact this
    · obtain ⟨hs, hm⟩ := ih _ hrest hi.1
      refine ⟨hs, fun d => ?_⟩
      rw [hm d, hi.2 d]
      simp only [List.mem_cons, forall_eq_or_imp]
      tauto

/-- The result of `search_and` in terms of the per-token matches `term_docs`. -/
theorem search_and_core (e : SearchEngine) (query : Bytes)
    (hidx : ∀ term l, get_postings e.index term = some l → StrictlyIncreasing l) :
    StrictlyIncreasing (search_and e query) ∧
    (tokenize_to_vector query e.cfg ≠ [] →
      ∀ d, d ∈ search_and e query ↔
        ∀ q ∈ tokenize_to_vector query e.cfg, d ∈ term_docs e.index q) := by
  have hne : ∀ t ∈ tokenize_to_vector query e.cfg, t ≠ [] :=
    fun t ht => tokenize_stream_ne_nil query e.cfg t ht
  unfold search_and
  simp only
  cases htoks : tokenize_to_vector query e.cfg with
  | nil => simp
  | cons qt rest =>
    rw [htoks] at hne
    have hqt : qt ≠ [] := hne qt (List.mem_cons_self _ _)
    have hrest : ∀ t ∈ rest, t ≠ [] := fun t ht => hne t (List.mem_cons_of_mem _ ht)
    have ht := term_docs_spec e.index hidx
    simp only [reduceCtorEq, if_false, ne_eq, not_false_eq_true, true_implies]
    rw [search_loop_cons e.index qt rest true [] hqt]
    simp only [if_true]
    constructor
    · split_ifs with h1
      · exact List.Pairwise.nil
      · exact (search_loop_spec e.index hidx rest _ hrest (ht qt).1).1
    · intro d
      simp only [List.mem_cons, forall_eq_or_imp]
      split_ifs with h1
      · rw [h1]; simp
      · exact (search_loop_spec e.index hidx rest _ hrest (ht qt).1).2 d

/-- C3. For an engine whose index returns only strictly increasing posting lists and for
every query: `search_and` returns a strictly ascending list; a query that tokenizes to no
token gives the empty list; otherwise an id `d` is in the result exactly when, for every
token `q` of the tokenized query, `d` is in the posting list of `q` or, when `stem_ru q`
differs from `q`, in the posting list of `stem_ru q`; and the result equals that of the
same loop without the early `break` on an empty running result. -/
theorem search_and_spec (e : SearchEngine) (query : Bytes)
    (hidx : ∀ term l, get_postings e.index term = some l → StrictlyIncreasing l) :
    StrictlyIncreasing (search_and e query) ∧
    (tokenize_to_vector query e.cfg = [] → search_and e query = []) ∧
    (tokenize_to_vector query e.cfg ≠ [] →
      ∀ d, d ∈ search_and e query ↔
        ∀ q ∈ tokenize_to_vector query e.cfg,
          (∃ l, get_postings e.index q = some l ∧ d ∈ l) ∨
          (stem_ru q ≠ q ∧ ∃ l, get_postings e.index (stem_ru q) = some l ∧ d ∈ l)) ∧
    search_and e query = search_and_no_break e query := by
  obtain ⟨hs, hmem⟩ := search_and_core e query hidx
  refine ⟨hs, ?_, ?_, ?_⟩
  · intro h
    unfold search_and
    simp only [h, if_true]
  · intro h d
    rw [hmem h d]
    exact forall_congr' (fun q => imp_congr_right (fun _ => (term_docs_spec e.index hidx q).2 d))
  · unfold search_and search_and_no_break
    simp only [search_loop_eq_no_break]

theorem search_and_spec_witness :
    search_and { cfg := {}, index := [(utf8 "ab", [0, 2]), (utf8 "cd", [1, 2])], meta := [] }
      (utf8 "ab, cd") = [2] ∧
    StrictlyIncreasing (search_and
      { cfg := {}, index := [(utf8 "ab", [0, 2]), (utf8 "cd", [1, 2])], meta := [] }
      (utf8 "ab, cd")) :=
  ⟨by decide,
    (search_and_spec
      { cfg := {}, index := [(utf8 "ab", [0, 2]), (utf8 "cd", [1, 2])], meta := [] }
      (utf8 "ab, cd")
      (postings_increasing_of_forall_mem _ (by decide))).1⟩

end MaiIr

/-! ## End to end -/

namespace MaiIr

theorem normalize_yo_length (s : Bytes) : (normalize_yo s).length = s.length := by
  simp only [normalize_yo, repl_length]

theorem strip_first_suffix_length (table : List Bytes) (t : Bytes) (h : 4 < t.length) :
    4 < (strip_first_suffix table t).length := by
  induction table with
  | nil => exact h
  | cons s rest ih =>
    rw [strip_first_suffix]
    split_ifs with hc
    · simp only [Bool.and_eq_true, decide_eq_true_eq] at hc
      rw [List.length_take]
      omega
    · exact ih

theorem strip_soft_sign_length (s : Bytes) : s.length - 2 ≤ (strip_soft_sign s).length := by
  unfold strip_soft_sign
  simp only
  split_ifs
  · rw [List.length_take]; simp
  · omega

/-- The stem of a non-empty token is non-empty. -/
theorem stem_ru_ne_nil (t : Bytes) (h : t ≠ []) : stem_ru t ≠ [] := by
  have hlen : 0 < (normalize_yo t).length := by
    rw [normalize_yo_length]; exact List.length_pos.mpr h
  unfold stem_ru stem_ru_with
  simp only
  split_ifs with hshort
  · exact List.length_pos.mp hlen
  · have h8 : 8 ≤ (normalize_yo t).length := by
      simpa [too_short_for_stem] using hshort
    have h1 := strip_first_suffix_length suf (normalize_yo t) (by omega)
    have h2 := strip_soft_sign_length (strip_first_suffix suf (normalize_yo t))
    apply List.length_pos.mp
    omega

theorem mem_doc_terms (toks : List Bytes) (w : Bytes) (hw : w ∈ toks) (hne : w ≠ []) :
    w ∈ doc_terms toks ∧ stem_ru w ∈ doc_terms toks := by
  unfold doc_terms
  constructor
  · exact List.mem_flatMap.mpr ⟨w, hw, by simp [hne]⟩
  · refine List.mem_flatMap.mpr ⟨w, hw, ?_⟩
    by_cases hs : stem_ru w = w
    · simp [hne, hs]
    · simp [hne, hs, stem_ru_ne_nil w hne]

theorem strictly_increasing_ext (l1 l2 : List Nat) (h1 : StrictlyIncreasing l1)
    (h2 : StrictlyIncreasing l2) (h : ∀ z, z ∈ l1 ↔ z ∈ l2) : l1 = l2 := by
  have n1 : l1.Nodup := List.Pairwise.imp (fun hab => Nat.ne_of_lt hab) h1
  have n2 : l2.Nodup := List.Pairwise.imp (fun hab => Nat.ne_of_lt hab) h2
  exact List.eq_of_perm_of_sorted ((List.perm_ext_iff_of_nodup n1 n2).mpr h) h1 h2

/-- The result of `search_and` on a freshly built index, for a query with at least one
token: the ids of the accepted records that, for every query token, register the token or
its differing stem. -/
theorem search_and_build_mem (cfg : TokenizerConfig) (coll : List Record) (limit : Int)
    (query : Bytes) (hbound : (accepted_records coll limit).length ≤ 2 ^ 32)
    (hq : tokenize_to_vector query cfg ≠ []) :
    StrictlyIncreasing (search_and (build_index (SearchEngine.new cfg) coll limit) query) ∧
    ∀ d, d ∈ search_and (build_index (SearchEngine.new cfg) coll limit) query ↔
      ∃ doc, (accepted_records coll limit)[d]? = some doc ∧
        ∀ q ∈ tokenize_to_vector query cfg,
          q ∈ doc_terms (tokenize_to_vector doc.1 cfg) ∨
          (stem_ru q ≠ q ∧ stem_ru q ∈ doc_terms (tokenize_to_vector doc.1 cfg)) := by
  have hpost := build_index_postings_mem cfg coll limit hbound
  have hidx : ∀ term l,
      get_postings (build_index (SearchEngine.new cfg) coll limit).index term = some l →
      StrictlyIncreasing l :=
    fun term l hl => (build_index_postings_increasing cfg coll limit hbound term l hl).1
  have hcfg : (build_index (SearchEngine.new cfg) coll limit).cfg = cfg := rfl
  obtain ⟨hs, hmem0⟩ := search_and_core (build_index (SearchEngine.new cfg) coll limit)
    query hidx
  rw [hcfg] at hmem0
  have hmem : ∀ d, d ∈ search_and (build_index (SearchEngine.new cfg) coll limit) query ↔
      ∀ q ∈ tokenize_to_vector query cfg,
        (∃ l, get_postings (build_index (SearchEngine.new cfg) coll limit).index q = some l ∧
          d ∈ l) ∨
        (stem_ru q ≠ q ∧ ∃ l, get_postings (build_index (SearchEngine.new cfg) coll limit).index
          (stem_ru q) = some l ∧ d ∈ l) := by
    intro d
    rw [hmem0 hq d]
    exact forall_congr' (fun q => imp_congr_right (fun _ => (term_docs_spec _ hidx q).2 d))
  refine ⟨hs, fun d => ?_⟩
  rw [hmem d]
  obtain ⟨q0, hq0⟩ := List.exists_mem_of_ne_nil _ hq
  constructor
  · intro h
    have hdoc : ∃ doc, (accepted_records coll limit)[d]? = some doc := by
      rcases h q0 hq0 with h1 | ⟨-, h1⟩
      · obtain ⟨doc, hdoc, -⟩ := (hpost q0 d).mp h1
        exact ⟨doc, hdoc⟩
      · obtain ⟨doc, hdoc, -⟩ := (hpost (stem_ru q0) d).mp h1
        exact ⟨doc, hdoc⟩
    obtain ⟨doc, hdoc⟩ := hdoc
    refine ⟨doc, hdoc, fun q hqm => ?_⟩
    rcases h q hqm with h1 | ⟨hst, h1⟩
    · obtain ⟨doc1, hdoc1, ht⟩ := (hpost q d).mp h1
      rw [hdoc] at hdoc1
      cases hdoc1
      exact Or.inl ht
    · obtain ⟨doc1, hdoc1, ht⟩ := (hpost (stem_ru q) d).mp h1
      rw [hdoc] at hdoc1
      cases hdoc1
      exact Or.inr ⟨hst, ht⟩
  · rintro ⟨doc, hdoc, h⟩ q hqm
    rcases h q hqm with h1 | ⟨hst, h1⟩
    · exact Or.inl ((hpost q d).mpr ⟨doc, hdoc, h1⟩)
    · exact Or.inr ⟨hst, (hpost (stem_ru q) d).mpr ⟨doc, hdoc, h1⟩⟩

/-- C4 amended. After `build_index` on a fresh engine over a collection with at most `2^32`
accepted records, and for every query that tokenizes to at least one token (same
tokenizer configuration for indexing and querying): every accepted document whose text
contains, for each query token `q`, some token `w` with `w = q` or
`stem_ru w = stem_ru q` has its internal id in the result of `search_and`. -/
theorem search_and_complete (cfg : TokenizerConfig) (coll : List Record) (limit : Int)
    (query : Bytes) (hbound : (accepted_records coll limit).length ≤ 2 ^ 32)
    (hq : tokenize_to_vector query cfg ≠ [])
    (d : Nat) (doc : Bytes × DocMeta) (hd : (accepted_records coll limit)[d]? = some doc)
    (hmatch : ∀ q ∈ tokenize_to_vector query cfg,
      ∃ w ∈ tokenize_to_vector doc.1 cfg, w = q ∨ stem_ru w = stem_ru q) :
    d ∈ search_and (build_index (SearchEngine.new cfg) coll limit) query := by
  rw [(search_and_build_mem cfg coll limit query hbound hq).2 d]
  refine ⟨doc, hd, fun q hqm => ?_⟩
  obtain ⟨w, hw, hwq⟩ := hmatch q hqm
  have hwne : w ≠ [] := tokenize_stream_ne_nil doc.1 cfg w hw
  have hterms := mem_doc_terms _ w hw hwne
  rcases hwq with h | h
  · rw [← h]; exact Or.inl hterms.1
  · by_cases hst : stem_ru q = q
    · rw [← hst, ← h]; exact Or.inl hterms.2
    · rw [← h]; exact Or.inr ⟨by rw [h]; exact hst, hterms.2⟩

theorem search_and_complete_witness :
    (accepted_records (ab_collection 2) 0).length ≤ 2 ^ 32 ∧
    tokenize_to_vector (utf8 "ab?") {} ≠ [] ∧
    1 ∈ search_and (build_index (SearchEngine.new {}) (ab_collection 2) 0) (utf8 "ab?") :=
  ⟨by decide, by decide,
    search_and_complete {} (ab_collection 2) 0 (utf8 "ab?") (by decide) (by decide)
      1 (numbered_doc 1 (utf8 "ab")) (by decide) (by decide)⟩

theorem wrap_text_ne_nil (i : Nat) : wrap_text i ≠ [] := by
  unfold wrap_text
  split_ifs <;> decide

theorem intersect_loop_singleton_zero (fuel : Nat) (x : Nat) (xs : List Nat) (hx : x ≠ 0) :
    intersect_loop fuel (x :: xs) [0] [] = [] := by
  cases fuel with
  | zero => simp [intersect_loop]
  | succ n =>
    have h1 : ¬ x < 0 := by omega
    simp only [intersect_loop, hx, h1, if_false]

/-- The index built over the collection of `wrap_text`: the posting list of `ab` starts
with a positive id and ends in the wrapped id 0, the posting list of `cd` is `[0]`. -/
theorem wrap_collection_postings :
    (∃ e0 rest, e0 ≠ 0 ∧
      get_postings (build_index (SearchEngine.new {})
        (numbered_collection wrap_text (2 ^ 32 + 1)) 0).index (utf8 "ab") =
        some (e0 :: rest ++ [0])) ∧
    get_postings (build_index (SearchEngine.new {})
      (numbered_collection wrap_text (2 ^ 32 + 1)) 0).index (utf8 "cd") = some [0] := by
  have hw : wrap_text (2 ^ 32) = utf8 "ab cd" := by decide
  have hab : utf8 "ab" ∈ doc_terms (tokenize_to_vector (utf8 "ab cd") {}) := by decide
  have hcd : utf8 "cd" ∈ doc_terms (tokenize_to_vector (utf8 "ab cd") {}) := by decide
  constructor
  · have hinc := expected_postings_increasing {}
      (accepted_records (numbered_collection wrap_text (2 ^ 32)) 0) (utf8 "ab")
    have hone : 1 ∈ expected_postings {}
        (accepted_records (numbered_collection wrap_text (2 ^ 32)) 0) (utf8 "ab") :=
      (mem_expected_numbered _ wrap_text_ne_nil _ _ 1).mpr ⟨by norm_num, by decide⟩
    have hzero : 0 ∉ expected_postings {}
        (accepted_records (numbered_collection wrap_text (2 ^ 32)) 0) (utf8 "ab") := by
      intro h
      have := ((mem_expected_numbered _ wrap_text_ne_nil _ _ 0).mp h).2
      revert this
      decide
    rw [get_postings_after_wrap _ wrap_text_ne_nil, hw, if_pos hab,
      push_zero_of_one_mem _ hinc hone]
    cases hE : expected_postings {}
        (accepted_records (numbered_collection wrap_text (2 ^ 32)) 0) (utf8 "ab") with
    | nil => rw [hE] at hone; simp at hone
    | cons e0 rest =>
      refine ⟨e0, rest, ?_, rfl⟩
      intro h0
      apply hzero
      rw [hE, h0]
      exact List.mem_cons_self _ _
  · have hnil : expected_postings {}
        (accepted_records (numbered_collection wrap_text (2 ^ 32)) 0) (utf8 "cd") = [] := by
      apply List.eq_nil_iff_forall_not_mem.mpr
      intro d hd
      obtain ⟨hlt, hterm⟩ := (mem_expected_numbered _ wrap_text_ne_nil _ _ d).mp hd
      unfold wrap_text at hterm
      have hne : ¬ d = 2 ^ 32 := by omega
      rw [if_neg hne] at hterm
      split_ifs at hterm
      · revert hterm; decide
      · revert hterm; decide
    rw [get_postings_after_wrap _ wrap_text_ne_nil, hw, if_pos hcd, hnil]
    rfl

/-- C4 as stated fails in two ways.  A query without tokens: over the one-record collection
with text `ab`, the query `?!` has no token, so the record satisfies the condition for
every query token, yet `search_and` returns the empty list.  More than `2^32` accepted
records: in the collection of `wrap_text` the record number `2^32` reads `ab cd` and so
contains both tokens of the query `ab cd`, but it is indexed under the wrapped id 0 behind
larger ids, and `search_and` returns the empty list. -/
theorem search_and_misses_document :
    ((accepted_records (ab_collection 1) 0)[0]? = some (numbered_doc 0 (utf8 "ab")) ∧
      (∀ q ∈ tokenize_to_vector (utf8 "?!") {},
        ∃ w ∈ tokenize_to_vector (numbered_doc 0 (utf8 "ab")).1 {},
          w = q ∨ stem_ru w = stem_ru q) ∧
      0 ∉ search_and (build_index (SearchEngine.new {}) (ab_collection 1) 0) (utf8 "?!")) ∧
    ((accepted_records (numbered_collection wrap_text (2 ^ 32 + 1)) 0)[2 ^ 32]? =
        some (numbered_doc (2 ^ 32) (utf8 "ab cd")) ∧
      tokenize_to_vector (utf8 "ab cd") {} ≠ [] ∧
      (∀ q ∈ tokenize_to_vector (utf8 "ab cd") {},
        ∃ w ∈ tokenize_to_vector (numbered_doc (2 ^ 32) (utf8 "ab cd")).1 {},
          w = q ∨ stem_ru w = stem_ru q) ∧
      search_and (build_index (SearchEngine.new {})
        (numbered_collection wrap_text (2 ^ 32 + 1)) 0) (utf8 "ab cd") = []) := by
  refine ⟨by decide, ?_, by decide, by decide, ?_⟩
  · rw [accepted_numbered_collection _ wrap_text_ne_nil, List.getElem?_map,
      List.getElem?_range (by norm_num)]
    have hw : wrap_text (2 ^ 32) = utf8 "ab cd" := by decide
    simp only [Option.map_some', hw]
  · obtain ⟨⟨e0, rest, he0, hab⟩, hcd⟩ := wrap_collection_postings
    have htoks : tokenize_to_vector (utf8 "ab cd")
        (build_index (SearchEngine.new {}) (numbered_collection wrap_text (2 ^ 32 + 1)) 0).cfg =
        [utf8 "ab", utf8 "cd"] := by decide
    have hsab : ¬ stem_ru (utf8 "ab") ≠ utf8 "ab" := by decide
    have hscd : ¬ stem_ru (utf8 "cd") ≠ utf8 "cd" := by decide
    unfold search_and
    simp only [htoks]
    rw [if_neg (by simp), search_loop_cons _ _ _ _ _ (by decide)]
    simp only [if_true]
    have htab : term_docs (build_index (SearchEngine.new {})
        (numbered_collection wrap_text (2 ^ 32 + 1)) 0).index (utf8 "ab") =
        e0 :: rest ++ [0] := by
      rw [term_docs, hab, if_neg hsab]; rfl
    have htcd : term_docs (build_index (SearchEngine.new {})
        (numbered_collection wrap_text (2 ^ 32 + 1)) 0).index (utf8 "cd") = [0] := by
      rw [term_docs, hcd, if_neg hscd]; rfl
    rw [htab, if_neg (by simp), search_loop_cons _ _ _ _ _ (by decide)]
    simp only [Bool.false_eq_true, if_false, htcd]
    have hint : postings_intersect (e0 :: rest ++ [0]) [0] = [] := by
      unfold postings_intersect
      exact intersect_loop_singleton_zero _ e0 (rest ++ [0]) he0
    rw [hint, if_pos rfl]

theorem getElem?_pair (doc0 doc1 doc : Bytes × DocMeta) (d : Nat) :
    [doc0, doc1][d]? = some doc ↔ (d = 0 ∧ doc = doc0) ∨ (d = 1 ∧ doc = doc1) := by
  cases d with
  | zero => simp [eq_comm]
  | succ n =>
    cases n with
    | zero => simp [eq_comm]
    | succ m => simp

/-- C5 amended. For every collection whose accepted records are two documents, and every
query that tokenizes to the single token `q`, where `q` occurs among the tokens of one of
the two documents: if neither `q` nor `stem_ru q` is among the terms registered for the
other document (its tokens and their stems), `search_and` returns exactly the one-element
list holding the first document's internal id; if `q`, or `stem_ru q` when it differs
from `q`, is among the terms registered for the other document, `search_and` returns both
ids `[0, 1]`. -/
theorem search_and_single_token (cfg : TokenizerConfig) (coll : List Record) (limit : Int)
    (query q : Bytes) (doc0 doc1 : Bytes × DocMeta)
    (hacc : accepted_records coll limit = [doc0, doc1])
    (hq : tokenize_to_vector query cfg = [q]) :
    (q ∈ tokenize_to_vector doc0.1 cfg →
      q ∉ doc_terms (tokenize_to_vector doc1.1 cfg) →
      stem_ru q ∉ doc_terms (tokenize_to_vector doc1.1 cfg) →
      search_and (build_index (SearchEngine.new cfg) coll limit) query = [0]) ∧
    (q ∈ tokenize_to_vector doc1.1 cfg →
      q ∉ doc_terms (tokenize_to_vector doc0.1 cfg) →
      stem_ru q ∉ doc_terms (tokenize_to_vector doc0.1 cfg) →
      search_and (build_index (SearchEngine.new cfg) coll limit) query = [1]) ∧
    (q ∈ tokenize_to_vector doc0.1 cfg →
      (q ∈ doc_terms (tokenize_to_vector doc1.1 cfg) ∨
        (stem_ru q ≠ q ∧ stem_ru q ∈ doc_terms (tokenize_to_vector doc1.1 cfg))) →
      search_and (build_index (SearchEngine.new cfg) coll limit) query = [0, 1]) ∧
    (q ∈ tokenize_to_vector doc1.1 cfg →
      (q ∈ doc_terms (tokenize_to_vector doc0.1 cfg) ∨
        (stem_ru q ≠ q ∧ stem_ru q ∈ doc_terms (tokenize_to_vector doc0.1 cfg))) →
      search_and (build_index (SearchEngine.new cfg) coll limit) query = [0, 1]) := by
  have hbound : (accepted_records coll limit).length ≤ 2 ^ 32 := by
    rw [hacc]; simp
  obtain ⟨hs, hmem⟩ := search_and_build_mem cfg coll limit query hbound (by rw [hq]; simp)
  have hmem2 : ∀ d, d ∈ search_and (build_index (SearchEngine.new cfg) coll limit) query ↔
      (d = 0 ∧ (q ∈ doc_terms (tokenize_to_vector doc0.1 cfg) ∨
        (stem_ru q ≠ q ∧ stem_ru q ∈ doc_terms (tokenize_to_vector doc0.1 cfg)))) ∨
      (d = 1 ∧ (q ∈ doc_terms (tokenize_to_vector doc1.1 cfg) ∨
        (stem_ru q ≠ q ∧ stem_ru q ∈ doc_terms (tokenize_to_vector doc1.1 cfg)))) := by
    intro d
    rw [hmem d, hacc, hq]
    simp only [getElem?_pair, List.mem_singleton, forall_eq]
    constructor
    · rintro ⟨doc, ⟨hd, rfl⟩ | ⟨hd, rfl⟩, h⟩
      · exact Or.inl ⟨hd, h⟩
      · exact Or.inr ⟨hd, h⟩
    · rintro (⟨hd, h⟩ | ⟨hd, h⟩)
      · exact ⟨doc0, Or.inl ⟨hd, rfl⟩, h⟩
      · exact ⟨doc1, Or.inr ⟨hd, rfl⟩, h⟩
  have hown0 : q ∈ tokenize_to_vector doc0.1 cfg → q ∈ doc_terms (tokenize_to_vector doc0.1 cfg) :=
    fun h => (mem_doc_terms _ q h (tokenize_stream_ne_nil doc0.1 cfg q h)).1
  have hown1 : q ∈ tokenize_to_vector doc1.1 cfg → q ∈ doc_terms (tokenize_to_vector doc1.1 cfg) :=
    fun h => (mem_doc_terms _ q h (tokenize_stream_ne_nil doc1.1 cfg q h)).1
  refine ⟨?_, ?_, ?_, ?_⟩
  · intro h0 h1 h2
    apply strictly_increasing_ext _ _ hs (by decide)
    intro z
    rw [hmem2 z]
    simp only [List.mem_singleton]
    constructor
    · rintro (⟨h, -⟩ | ⟨-, h | ⟨-, h⟩⟩)
      · exact h
      · exact absurd h h1
      · exact absurd h h2
    · intro h; exact Or.inl ⟨h, Or.inl (hown0 h0)⟩
  · intro h0 h1 h2
    apply strictly_increasing_ext _ _ hs (by decide)
    intro z
    rw [hmem2 z]
    simp only [List.mem_singleton]
    constructor
    · rintro (⟨-, h | ⟨-, h⟩⟩ | ⟨h, -⟩)
      · exact absurd h h1
      · exact absurd h h2
      · exact h
    · intro h; exact Or.inr ⟨h, Or.inl (hown1 h0)⟩
  · intro h0 h1
    apply strictly_increasing_ext _ _ hs (by decide)
    intro z
    rw [hmem2 z]
    simp only [List.mem_cons, List.mem_singleton, List.not_mem_nil, or_false]
    constructor
    · rintro (⟨h, -⟩ | ⟨h, -⟩)
      · exact Or.inl h
      · exact Or.inr h
    · rintro (h | h)
      · exact Or.inl ⟨h, Or.inl (hown0 h0)⟩
      · exact Or.inr ⟨h, h1⟩
  · intro h0 h1
    apply strictly_increasing_ext _ _ hs (by decide)
    intro z
    rw [hmem2 z]
    simp only [List.mem_cons, List.mem_singleton, List.not_mem_nil, or_false]
    constructor
    · rintro (⟨h, -⟩ | ⟨h, -⟩)
      · exact Or.inl h
      · exact Or.inr h
    · rintro (h | h)
      · exact Or.inl ⟨h, h1⟩
      · exact Or.inr ⟨h, Or.inl (hown1 h0)⟩

theorem search_and_single_token_witness :
    accepted_records [numbered_record 0 (utf8 "книга"), numbered_record 1 (utf8 "газета")] 0 =
      [(utf8 "книга", { mongo_id := utf8 "0", title := [], source := [], url := [] }),
       (utf8 "газета", { mongo_id := utf8 "1", title := [], source := [], url := [] })] ∧
    tokenize_to_vector (utf8 "книга") {} = [utf8 "книга"] ∧
    search_and (build_index (SearchEngine.new {})
      [numbered_record 0 (utf8 "книга"), numbered_record 1 (utf8 "газета")] 0) (utf8 "книга") =
      [0] :=
  ⟨by decide, by decide,
    (search_and_single_token {}
      [numbered_record 0 (utf8 "книга"), numbered_record 1 (utf8 "газета")] 0 (utf8 "книга")
      (utf8 "книга")
      (utf8 "книга", { mongo_id := utf8 "0", title := [], source := [], url := [] })
      (utf8 "газета", { mongo_id := utf8 "1", title := [], source := [], url := [] })
      (by decide) (by decide)).1 (by decide) (by decide) (by decide)⟩

/-- C5 as stated fails: the query `книга` has the single token `книга`, which occurs among
the tokens of the first document only, yet `search_and` also returns the second document,
whose token `книги` has the same stem `книг`. -/
theorem search_and_single_token_stem_expands :
    tokenize_to_vector (utf8 "книга") {} = [utf8 "книга"] ∧
    utf8 "книга" ∈ tokenize_to_vector (utf8 "книга") {} ∧
    utf8 "книга" ∉ tokenize_to_vector (utf8 "книги") {} ∧
    search_and (build_index (SearchEngine.new {})
      [numbered_record 0 (utf8 "книга"), numbered_record 1 (utf8 "книги")] 0) (utf8 "книга") =
      [0, 1] := by
  decide

end MaiIr

/-! ## Algebra and sizes of the merges -/

namespace MaiIr

theorem union_loop_self (fuel : Nat) :
    ∀ (A out : List Nat), A.length ≤ fuel → union_loop fuel A A out = out ++ A := by
  induction fuel with
  | zero =>
    intro A out h
    have h1 : A = [] := List.length_eq_zero.mp (by omega)
    subst h1; simp [union_loop]
  | succ n ih =>
    intro A out h
    cases A with
    | nil => simp [union_loop]
    | cons x xs =>
      simp only [List.length_cons] at h
      simp only [union_loop, if_true]
      rw [ih xs _ (by omega)]
      simp

theorem intersect_loop_self (fuel : Nat) :
    ∀ (A out : List Nat), A.length ≤ fuel → intersect_loop fuel A A out = out ++ A := by
  induction fuel with
  | zero =>
    intro A out h
    have h1 : A = [] := List.length_eq_zero.mp (by omega)
    subst h1; simp [intersect_loop]
  | succ n ih =>
    intro A out h
    cases A with
    | nil => simp [intersect_loop]
    | cons x xs =>
      simp only [List.length_cons] at h
      simp only [intersect_loop, if_true]
      rw [ih xs _ (by omega)]
      simp

theorem union_loop_comm (fuel : Nat) :
    ∀ (A B out : List Nat), A.length + B.length ≤ fuel →
      union_loop fuel A B out = union_loop fuel B A out := by
  induction fuel with
  | zero =>
    intro A B out h
    have h1 : A = [] := List.length_eq_zero.mp (by omega)
    have h2 : B = [] := List.length_eq_zero.mp (by omega)
    subst h1 h2; rfl
  | succ n ih =>
    intro A B out h
    cases A with
    | nil => cases B <;> simp [union_loop]
    | cons x xs =>
      cases B with
      | nil => simp [union_loop]
      | cons y ys =>
        simp only [List.length_cons] at h
        simp only [union_loop]
        by_cases h1 : x = y
        · subst h1
          simp only [if_true]
          exact ih xs ys _ (by omega)
        · have h1s : ¬ y = x := fun e => h1 e.symm
          rw [if_neg h1, if_neg h1s]
          by_cases h2 : x < y
          · have h3 : ¬ y < x := by omega
            rw [if_pos h2, if_neg h3]
            exact ih xs (y :: ys) _ (by simp; omega)
          · have h3 : y < x := by omega
            rw [if_neg h2, if_pos h3]
            exact ih (x :: xs) ys _ (by simp; omega)

theorem intersect_loop_comm (fuel : Nat) :
    ∀ (A B out : List Nat), A.length + B.length ≤ fuel →
      intersect_loop fuel A B out = intersect_loop fuel B A out := by
  induction fuel with
  | zero => intro A B out _; simp [intersect_loop]
  | succ n ih =>
    intro A B out h
    cases A with
    | nil => cases B <;> simp [intersect_loop]
    | cons x xs =>
      cases B with
      | nil => simp [intersect_loop]
      | cons y ys =>
        simp only [List.length_cons] at h
        simp only [intersect_loop]
        by_cases h1 : x = y
        · subst h1
          simp only [if_true]
          exact ih xs ys _ (by omega)
        · have h1s : ¬ y = x := fun e => h1 e.symm
          rw [if_neg h1, if_neg h1s]
          by_cases h2 : x < y
          · have h3 : ¬ y < x := by omega
            rw [if_pos h2, if_neg h3]
            exact ih xs (y :: ys) _ (by simp; omega)
          · have h3 : y < x := by omega
            rw [if_neg h2, if_pos h3]
            exact ih (x :: xs) ys _ (by simp; omega)

/-- C16. For all lists `A` and `B` of ids, sorted or not: `postings_union(A, A) = A`,
`postings_intersect(A, A) = A`, and both merges are commutative, as equalities of lists;
the union is also commutative when one operand is absent. -/
theorem postings_merge_algebra (A B : List Nat) :
    postings_union (some A) (some A) = A ∧
    postings_intersect A A = A ∧
    postings_union (some A) (some B) = postings_union (some B) (some A) ∧
    postings_intersect A B = postings_intersect B A ∧
    postings_union (some A) none = postings_union none (some A) := by
  refine ⟨?_, ?_, ?_, ?_, rfl⟩
  · simp only [postings_union]
    rw [union_loop_self _ A [] (by omega), List.nil_append]
  · simp only [postings_intersect]
    rw [intersect_loop_self _ A [] (by omega), List.nil_append]
  · simp only [postings_union]
    rw [union_loop_comm _ A B [] le_rfl, Nat.add_comm]
  · simp only [postings_intersect]
    rw [intersect_loop_comm _ A B [] le_rfl, Nat.add_comm]

theorem length_union_loop_le (fuel : Nat) :
    ∀ (A B out : List Nat),
      (union_loop fuel A B out).length ≤ out.length + A.length + B.length := by
  induction fuel with
  | zero => intro A B out; simp [union_loop]; omega
  | succ n ih =>
    intro A B out
    cases A with
    | nil => simp [union_loop]
    | cons x xs =>
      cases B with
      | nil => simp [union_loop]
      | cons y ys =>
        simp only [union_loop]
        split_ifs
        · have := ih xs ys (out ++ [x]); simp at this ⊢; omega
        · have := ih xs (y :: ys) (out ++ [x]); simp at this ⊢; omega
        · have := ih (x :: xs) ys (out ++ [y]); simp at this ⊢; omega

theorem length_union_loop_ge (fuel : Nat) :
    ∀ (A B out : List Nat), A.length + B.length ≤ fuel →
      out.length + max A.length B.length ≤ (union_loop fuel A B out).length := by
  induction fuel with
  | zero =>
    intro A B out h
    have h1 : A = [] := List.length_eq_zero.mp (by omega)
    have h2 : B = [] := List.length_eq_zero.mp (by omega)
    subst h1 h2; simp [union_loop]
  | succ n ih =>
    intro A B out h
    cases A with
    | nil => simp [union_loop]
    | cons x xs =>
      cases B with
      | nil => simp [union_loop]
      | cons y ys =>
        simp only [List.length_cons] at h
        simp only [union_loop]
        split_ifs
        · have := ih xs ys (out ++ [x]) (by omega)
          simp only [List.length_append, List.length_singleton, List.length_cons] at this ⊢
          omega
        · have := ih xs (y :: ys) (out ++ [x]) (by simp; omega)
          simp only [List.length_append, List.length_singleton, List.length_cons] at this ⊢
          omega
        · have := ih (x :: xs) ys (out ++ [y]) (by simp; omega)
          simp only [List.length_append, List.length_singleton, List.length_cons] at this ⊢
          omega

theorem length_intersect_loop_le (fuel : Nat) :
    ∀ (A B out : List Nat),
      (intersect_loop fuel A B out).length ≤ out.length + min A.length B.length := by
  induction fuel with
  | zero => intro A B out; simp [intersect_loop]
  | succ n ih =>
    intro A B out
    cases A with
    | nil => simp [intersect_loop]
    | cons x xs =>
      cases B with
      | nil => simp [intersect_loop]
      | cons y ys =>
        simp only [intersect_loop]
        split_ifs
        · have := ih xs ys (out ++ [x])
          rw [List.length_append, List.length_singleton] at this
          simp only [List.length_cons]
          omega
        · have := ih xs (y :: ys) out
          simp only [List.length_cons] at this ⊢
          omega
        · have := ih (x :: xs) ys out
          simp only [List.length_cons] at this ⊢
          omega

/-- C17. For all id lists `A` and `B` (sorted-unique or not):
`len(postings_intersect(A,B)) <= min(len A, len B) <= max(len A, len B) <=
len(postings_union(A,B)) <= len A + len B`. -/
theorem postings_merge_lengths (A B : List Nat) :
    (postings_intersect A B).length ≤ min A.length B.length ∧
    min A.length B.length ≤ max A.length B.length ∧
    max A.length B.length ≤ (postings_union (some A) (some B)).length ∧
    (postings_union (some A) (some B)).length ≤ A.length + B.length := by
  refine ⟨?_, by omega, ?_, ?_⟩
  · have := length_intersect_loop_le (A.length + B.length) A B []
    simpa [postings_intersect] using this
  · have := length_union_loop_ge (A.length + B.length) A B [] le_rfl
    simpa [postings_union] using this
  · have := length_union_loop_le (A.length + B.length) A B []
    simpa [postings_union] using this

end MaiIr

/-! ## Stemmer -/

namespace MaiIr

theorem strip_first_suffix_cons (s : Bytes) (rest : List Bytes) (token : Bytes) :
    strip_first_suffix (s :: rest) token =
      if suffix_applies token s = true then token.take (token.length - s.length)
      else strip_first_suffix rest token := rfl

/-- When no suffix of the table applies, the suffix loop leaves the token unchanged. -/
theorem strip_first_suffix_none (table : List Bytes) (token : Bytes)
    (h : ∀ s ∈ table, suffix_applies token s = false) :
    strip_first_suffix table token = token := by
  induction table with
  | nil => rfl
  | cons a rest ih =>
    rw [strip_first_suffix_cons, h a (List.mem_cons_self _ _)]
    simp only [Bool.false_eq_true, if_false]
    exact ih (fun s hs => h s (List.mem_cons_of_mem _ hs))

/-- On a table ordered by decreasing size the suffix loop removes as many bytes as the
longest applicable suffix has. -/
theorem strip_first_suffix_longest (table : List Bytes) (token s : Bytes)
    (hsorted : SizeDescending table) (hs : s ∈ table) (happ : suffix_applies token s = true)
    (hmax : ∀ s1 ∈ table, suffix_applies token s1 = true → s1.length ≤ s.length) :
    strip_first_suffix table token = token.take (token.length - s.length) := by
  induction table with
  | nil => simp at hs
  | cons a rest ih =>
    have hp := List.pairwise_cons.mp hsorted
    rw [strip_first_suffix_cons]
    by_cases ha : suffix_applies token a = true
    · rw [if_pos ha]
      have h1 : a.length ≤ s.length := hmax a (List.mem_cons_self _ _) ha
      have h2 : s.length ≤ a.length := by
        rcases List.mem_cons.mp hs with h | h
        · rw [h]
        · exact hp.1 s h
      rw [Nat.le_antisymm h1 h2]
    · rw [if_neg ha]
      have hsr : s ∈ rest := by
        rcases List.mem_cons.mp hs with h | h
        · rw [h] at happ; exact absurd happ ha
        · exact h
      exact ih hp.2 hsr (fun s1 h1 => hmax s1 (List.mem_cons_of_mem _ h1))

theorem exists_longest_applicable (table : List Bytes) (token : Bytes)
    (h : ∃ s ∈ table, suffix_applies token s = true) :
    ∃ s ∈ table, suffix_applies token s = true ∧
      ∀ s1 ∈ table, suffix_applies token s1 = true → s1.length ≤ s.length := by
  induction table with
  | nil => obtain ⟨s, hs, -⟩ := h; simp at hs
  | cons a rest ih =>
    by_cases hr : ∃ s ∈ rest, suffix_applies token s = true
    · obtain ⟨s, hs, happ, hmax⟩ := ih hr
      by_cases ha : suffix_applies token a = true ∧ s.length < a.length
      · refine ⟨a, List.mem_cons_self _ _, ha.1, fun s1 h1 happ1 => ?_⟩
        rcases List.mem_cons.mp h1 with h2 | h2
        · rw [h2]
        · have := hmax s1 h2 happ1; omega
      · refine ⟨s, List.mem_cons_of_mem _ hs, happ, fun s1 h1 happ1 => ?_⟩
        rcases List.mem_cons.mp h1 with h2 | h2
        · rw [h2] at happ1
          by_contra hcon
          exact ha ⟨happ1, by rw [h2] at hcon; omega⟩
        · exact hmax s1 h2 happ1
    · obtain ⟨s, hs, happ⟩ := h
      have hsa : s = a := by
        rcases List.mem_cons.mp hs with h2 | h2
        · exact h2
        · exact absurd ⟨s, h2, happ⟩ hr
      subst hsa
      refine ⟨s, List.mem_cons_self _ _, happ, fun s1 h1 happ1 => ?_⟩
      rcases List.mem_cons.mp h1 with h2 | h2
      · rw [h2]
      · exact absurd ⟨s1, h2, happ1⟩ hr

/-- Two tables with the same entries, both ordered by decreasing size, strip alike. -/
theorem strip_first_suffix_order (table1 table2 : List Bytes) (token : Bytes)
    (h1 : SizeDescending table1) (h2 : SizeDescending table2)
    (hmem : ∀ s, s ∈ table1 ↔ s ∈ table2) :
    strip_first_suffix table1 token = strip_first_suffix table2 token := by
  by_cases h : ∃ s ∈ table1, suffix_applies token s = true
  · obtain ⟨s, hs, happ, hmax⟩ := exists_longest_applicable table1 token h
    rw [strip_first_suffix_longest table1 token s h1 hs happ hmax,
      strip_first_suffix_longest table2 token s h2 ((hmem s).mp hs) happ
        (fun s1 hs1 => hmax s1 ((hmem s1).mpr hs1))]
  · have hn1 : ∀ s ∈ table1, suffix_applies token s = false := by
      intro s hs
      by_contra hcon
      exact h ⟨s, hs, by simpa using hcon⟩
    rw [strip_first_suffix_none table1 token hn1,
      strip_first_suffix_none table2 token (fun s hs => hn1 s ((hmem s).mpr hs))]

theorem mem_insert_by_size (a x : Bytes) (l : List Bytes) :
    x ∈ insert_by_size a l ↔ x = a ∨ x ∈ l := by
  induction l with
  | nil => simp [insert_by_size]
  | cons b rest ih =>
    rw [insert_by_size]
    split_ifs
    · rw [List.mem_cons, ih, List.mem_cons]; tauto
    · rw [List.mem_cons]

theorem mem_sort_by_size_desc (x : Bytes) (v : List Bytes) :
    x ∈ sort_by_size_desc v ↔ x ∈ v := by
  induction v with
  | nil => simp [sort_by_size_desc]
  | cons a rest ih =>
    have : sort_by_size_desc (a :: rest) = insert_by_size a (sort_by_size_desc rest) := rfl
    rw [this, mem_insert_by_size, ih, List.mem_cons]

theorem mem_unique_adjacent (x : Bytes) : ∀ (n : Nat) (l : List Bytes), l.length ≤ n →
    (x ∈ unique_adjacent l ↔ x ∈ l) := by
  intro n
  induction n with
  | zero =>
    intro l h
    have h1 : l = [] := List.length_eq_zero.mp (by omega)
    subst h1; simp [unique_adjacent]
  | succ n ih =>
    intro l h
    cases l with
    | nil => simp [unique_adjacent]
    | cons a r =>
      cases r with
      | nil => simp [unique_adjacent]
      | cons b rest =>
        simp only [List.length_cons] at h
        rw [unique_adjacent]
        split_ifs with hab
        · rw [ih (b :: rest) (by simp; omega), hab]
          simp
        · rw [List.mem_cons, ih (b :: rest) (by simp; omega), List.mem_cons (a := x) (b := a)]

/-- The table `suf` holds exactly the suffixes of the initializer list. -/
theorem mem_suf (s : Bytes) : s ∈ suf ↔ s ∈ suf_init := by
  unfold suf
  rw [mem_unique_adjacent s _ _ le_rfl, mem_sort_by_size_desc]

theorem suf_size_descending : SizeDescending suf := by
  unfold SizeDescending
  decide

theorem stem_ru_with_long (table : List Bytes) (t : Bytes) (h : 8 ≤ (normalize_yo t).length) :
    stem_ru_with table t = strip_soft_sign (strip_first_suffix table (normalize_yo t)) := by
  unfold stem_ru_with
  simp only
  rw [if_neg]
  simp [too_short_for_stem]
  omega

/-- C14. For every token whose byte length after the Ё/ё replacement of `normalize_yo` is
below 8, `stem_ru` returns exactly that normalized token: no suffix and no soft sign is
stripped.  The replacement keeps the byte length, so these are the tokens shorter than 8
bytes.  In particular `stem_ru("дом") = "дом"`; the normalization still applies
(`ёж` gives `еж`) and a trailing soft sign stays (`конь`). -/
theorem stem_ru_short (t : Bytes) (h : (normalize_yo t).length < 8) :
    stem_ru t = normalize_yo t ∧
    (normalize_yo t).length = t.length ∧
    stem_ru (utf8 "дом") = utf8 "дом" ∧
    stem_ru (utf8 "ёж") = utf8 "еж" ∧
    stem_ru (utf8 "ЁЖ") = utf8 "ЕЖ" ∧
    stem_ru (utf8 "ель") = utf8 "ель" := by
  refine ⟨?_, normalize_yo_length t, by decide, by decide, by decide, by decide⟩
  unfold stem_ru stem_ru_with
  simp only
  rw [if_pos]
  simp [too_short_for_stem, h]

theorem stem_ru_short_witness :
    (normalize_yo (utf8 "ёж")).length < 8 ∧ stem_ru (utf8 "ёж") = normalize_yo (utf8 "ёж") :=
  ⟨by decide, (stem_ru_short (utf8 "ёж") (by decide)).1⟩

/-- C15 as stated fails: `юностями` (16 bytes) ends with the table suffixes `ностями`
(14 bytes) and `ями` (6 bytes), but `ностями` would leave a stem of only 2 bytes and is
skipped by the guard `token.size() > s.size() + 4`; `stem_ru` removes the shorter `ями`. -/
theorem stem_ru_removes_shorter_suffix :
    8 ≤ (normalize_yo (utf8 "юностями")).length ∧
    utf8 "ностями" ∈ suf ∧ utf8 "ями" ∈ suf ∧
    ends_with (normalize_yo (utf8 "юностями")) (utf8 "ностями") = true ∧
    ends_with (normalize_yo (utf8 "юностями")) (utf8 "ями") = true ∧
    stem_ru (utf8 "юностями") = utf8 "юност" ∧
    stem_ru (utf8 "юностями") ≠ utf8 "ю" := by
  decide

end MaiIr

/-! ## Stemmer: the normalization, the suffix that is removed, the soft sign -/

namespace MaiIr

theorem repl_single (a b c d x : Nat) : repl [a, b] [c, d] 1 [x] = [x] := by
  simp [repl, List.isPrefixOf]

theorem repl_pair (a b c d x y : Nat) (rest : Bytes) :
    repl [a, b] [c, d] (x :: y :: rest).length (x :: y :: rest) =
      if x = a ∧ y = b then c :: d :: repl [a, b] [c, d] rest.length rest
      else x :: repl [a, b] [c, d] (y :: rest).length (y :: rest) := by
  have hfuel := repl_fuel a b [c, d] rest.length 1 rest le_rfl
  by_cases h : x = a ∧ y = b
  · obtain ⟨rfl, rfl⟩ := h
    simp only [List.length_cons, repl, List.isPrefixOf, beq_self_eq_true, Bool.and_self,
      if_true, List.drop_succ_cons, List.drop_zero, and_self, List.cons_append,
      List.nil_append, Bool.true_and, List.length_nil]
    rw [hfuel]
  · have hp : List.isPrefixOf [a, b] (x :: y :: rest) = false := by
      simp only [List.isPrefixOf, Bool.and_true, Bool.and_eq_false_imp, beq_iff_eq]
      intro hx
      simp only [beq_eq_false_iff_ne, ne_eq]
      intro hy
      exact h ⟨hx.symm, hy.symm⟩
    simp only [List.length_cons, repl, hp, Bool.false_eq_true, if_false, h]

theorem repl_cons_of_ne (a b c d x : Nat) (rest : Bytes) (h : x ≠ a) :
    repl [a, b] [c, d] (x :: rest).length (x :: rest) =
      x :: repl [a, b] [c, d] rest.length rest := by
  cases rest with
  | nil => simp [repl, List.isPrefixOf]
  | cons y tail =>
    rw [repl_pair, if_neg (fun hc => h hc.1)]

/-- A replacement that keeps the first byte of the pair keeps the first byte of the
string. -/
theorem repl_head (a b d x : Nat) (rest : Bytes) :
    ∃ tail, repl [a, b] [a, d] (x :: rest).length (x :: rest) = x :: tail := by
  cases rest with
  | nil => exact ⟨[], by simp [repl, List.isPrefixOf]⟩
  | cons y tail =>
    rw [repl_pair]
    by_cases h : x = a ∧ y = b
    · rw [if_pos h, h.1]
      exact ⟨_, rfl⟩
    · rw [if_neg h]
      exact ⟨_, rfl⟩

theorem normalize_yo_eq_two_passes (s : Bytes) :
    normalize_yo s = repl [0xD1, 0x91] [0xD0, 0xB5]
      (repl [0xD0, 0x81] [0xD0, 0x95] s.length s).length
      (repl [0xD0, 0x81] [0xD0, 0x95] s.length s) := rfl

/-- Function `normalize_yo` computes the normalized form of the specification. -/
theorem normalize_yo_eq_spec : ∀ (n : Nat) (s : Bytes), s.length ≤ n →
    normalize_yo s = replace_yo_spec s := by
  intro n
  induction n with
  | zero =>
    intro s h
    have : s = [] := List.length_eq_zero.mp (by omega)
    subst this
    rfl
  | succ n ih =>
    intro s h
    match s, h with
    | [], _ => rfl
    | [x], _ =>
      rw [normalize_yo_eq_two_passes]
      simp only [List.length_singleton, repl_single, replace_yo_spec]
    | x :: y :: rest, h =>
      simp only [List.length_cons] at h
      have ih1 := ih rest (by omega)
      have ih2 := ih (y :: rest) (by simp only [List.length_cons]; omega)
      rw [normalize_yo_eq_two_passes] at ih1 ih2 ⊢
      rw [replace_yo_spec, repl_pair]
      by_cases h1 : x = 0xD0 ∧ y = 0x81
      · rw [if_pos h1, if_pos h1]
        rw [repl_cons_of_ne _ _ _ _ 0xD0 _ (by decide), repl_cons_of_ne _ _ _ _ 0x95 _ (by decide),
          ih1]
      · rw [if_neg h1, if_neg h1]
        by_cases h2 : x = 0xD1 ∧ y = 0x91
        · rw [if_pos h2, h2.2, repl_cons_of_ne _ _ _ _ 0x91 _ (by decide), h2.1, repl_pair,
            if_pos ⟨rfl, rfl⟩, ih1]
        · rw [if_neg h2]
          obtain ⟨tail, ht⟩ := repl_head 0xD0 0x81 0x95 y rest
          rw [ht] at ih2 ⊢
          rw [repl_pair, if_neg h2, ih2]

theorem ends_with_iff (s suffix : Bytes) : ends_with s suffix = true ↔ suffix <:+ s := by
  unfold ends_with
  simp only [Bool.and_eq_true, decide_eq_true_eq]
  constructor
  · rintro ⟨-, h⟩
    rw [← h]
    exact List.drop_suffix _ _
  · rintro ⟨p, rfl⟩
    refine ⟨by simp, ?_⟩
    simp

theorem suffix_applies_iff (token s : Bytes) :
    suffix_applies token s = true ↔ s <:+ token ∧ s.length + 4 < token.length := by
  unfold suffix_applies
  simp only [Bool.and_eq_true, decide_eq_true_eq, ends_with_iff, gt_iff_lt]

theorem take_append_suffix (token s : Bytes) (h : s <:+ token) :
    token.take (token.length - s.length) ++ s = token := by
  obtain ⟨p, rfl⟩ := h
  simp

/-- Function `strip_soft_sign` removes the two bytes of one trailing `ь` and nothing
else. -/
theorem strip_soft_sign_spec (r : Bytes) :
    (∀ r1, r = r1 ++ [0xD1, 0x8C] → strip_soft_sign r = r1) ∧
    (¬ [0xD1, 0x8C] <:+ r → strip_soft_sign r = r) := by
  unfold strip_soft_sign
  simp only
  constructor
  · rintro r1 rfl
    have : ends_with (r1 ++ [0xD1, 0x8C]) [0xD1, 0x8C] = true :=
      (ends_with_iff _ _).mpr ⟨r1, rfl⟩
    rw [if_pos this]
    simp
  · intro h
    rw [if_neg]
    rw [ends_with_iff]
    exact h

/-- The outcome of the suffix loop of `stem_ru` on a normalized token, without the
helpers of the model. -/
theorem strip_first_suffix_spec (token : Bytes) :
    ((∀ s ∈ suf, s <:+ token → token.length ≤ s.length + 4) →
      strip_first_suffix suf token = token) ∧
    (∀ s ∈ suf, s <:+ token → s.length + 4 < token.length →
      (∀ s1 ∈ suf, s1 <:+ token → s1.length + 4 < token.length → s1.length ≤ s.length) →
      strip_first_suffix suf token ++ s = token) ∧
    ((∃ s ∈ suf, s <:+ token ∧ s.length + 4 < token.length) →
      ∃ s ∈ suf, s <:+ token ∧ s.length + 4 < token.length ∧
        (∀ s1 ∈ suf, s1 <:+ token → s1.length + 4 < token.length → s1.length ≤ s.length) ∧
        strip_first_suffix suf token ++ s = token) := by
  have hlong : ∀ s ∈ suf, s <:+ token → s.length + 4 < token.length →
      (∀ s1 ∈ suf, s1 <:+ token → s1.length + 4 < token.length → s1.length ≤ s.length) →
      strip_first_suffix suf token ++ s = token := by
    intro s hs hsuf hlen hmax
    rw [strip_first_suffix_longest suf token s suf_size_descending hs
      ((suffix_applies_iff _ _).mpr ⟨hsuf, hlen⟩)
      (fun s1 h1 happ => hmax s1 h1 ((suffix_applies_iff _ _).mp happ).1
        ((suffix_applies_iff _ _).mp happ).2)]
    exact take_append_suffix token s hsuf
  refine ⟨?_, hlong, ?_⟩
  · intro hnone
    apply strip_first_suffix_none
    intro s hs
    by_contra hcon
    have happ := (suffix_applies_iff token s).mp (by simpa using hcon)
    have := hnone s hs happ.1
    omega
  · rintro ⟨s, hs, hsuf, hlen⟩
    obtain ⟨s0, hs0, happ0, hmax0⟩ := exists_longest_applicable suf token
      ⟨s, hs, (suffix_applies_iff _ _).mpr ⟨hsuf, hlen⟩⟩
    have h0 := (suffix_applies_iff _ _).mp happ0
    have hmax : ∀ s1 ∈ suf, s1 <:+ token → s1.length + 4 < token.length →
        s1.length ≤ s0.length :=
      fun s1 h1 hsuf1 hlen1 => hmax0 s1 h1 ((suffix_applies_iff _ _).mpr ⟨hsuf1, hlen1⟩)
    exact ⟨s0, hs0, h0.1, h0.2, hmax, hlong s0 hs0 h0.1 h0.2 hmax⟩

end MaiIr

/-! ## Stemmer: the claims on tokens of at least 8 bytes -/

namespace MaiIr

theorem stem_ru_long (t : Bytes) (h : 8 ≤ (replace_yo_spec t).length) :
    stem_ru t = strip_soft_sign (strip_first_suffix suf (replace_yo_spec t)) := by
  rw [← normalize_yo_eq_spec t.length t le_rfl] at h ⊢
  exact stem_ru_with_long suf t h

/-- C15 amended. For every token whose normalized form `n` (Ё, ё replaced by Е, е) has at
least 8 bytes and ends with two table suffixes `s1`, `s2`, `s1` the longer, `stem_ru`
returns some `r` with one trailing soft sign `ь` removed if present, where
* if removing `s1` leaves more than 4 bytes, `r` is `n` without a table suffix that is at
  least as long as `s1` (the longest one that leaves more than 4 bytes), so never the
  shorter `s2`, and without exactly `s1` when no longer table suffix qualifies
  (`радостью` gives `рад`);
* if removing `s1` leaves 4 bytes or fewer but removing `s2` leaves more than 4, `r` is `n`
  without a table suffix at least as long as `s2` and shorter than `s1`, and without
  exactly `s2` when no longer table suffix qualifies (`юностями` gives `юност`);
* if removing `s2` leaves 4 bytes or fewer, neither of the two is removed: `r` is `n`
  itself (`ниям` stays) or `n` without a table suffix shorter than `s2` (`хиями` gives
  `хиям`). -/
theorem stem_ru_prefers_longer (t s1 s2 : Bytes) (h : 8 ≤ (replace_yo_spec t).length)
    (h1 : s1 ∈ suf) (h2 : s2 ∈ suf)
    (he1 : s1 <:+ replace_yo_spec t) (he2 : s2 <:+ replace_yo_spec t)
    (hlen : s2.length < s1.length) :
    (∃ r : Bytes,
      ((∀ r1, r = r1 ++ [0xD1, 0x8C] → stem_ru t = r1) ∧
        (¬ [0xD1, 0x8C] <:+ r → stem_ru t = r)) ∧
      (s1.length + 4 < (replace_yo_spec t).length →
        (∃ s ∈ suf, s <:+ replace_yo_spec t ∧ s.length + 4 < (replace_yo_spec t).length ∧
          s1.length ≤ s.length ∧ s2.length < s.length ∧ r ++ s = replace_yo_spec t) ∧
        ((∀ s ∈ suf, s <:+ replace_yo_spec t → s.length + 4 < (replace_yo_spec t).length →
            s.length ≤ s1.length) → r ++ s1 = replace_yo_spec t)) ∧
      ((replace_yo_spec t).length ≤ s1.length + 4 →
        s2.length + 4 < (replace_yo_spec t).length →
        (∃ s ∈ suf, s <:+ replace_yo_spec t ∧ s.length + 4 < (replace_yo_spec t).length ∧
          s2.length ≤ s.length ∧ s.length < s1.length ∧ r ++ s = replace_yo_spec t) ∧
        ((∀ s ∈ suf, s <:+ replace_yo_spec t → s.length + 4 < (replace_yo_spec t).length →
            s.length ≤ s2.length) → r ++ s2 = replace_yo_spec t)) ∧
      ((replace_yo_spec t).length ≤ s2.length + 4 →
        r = replace_yo_spec t ∨
        ∃ s ∈ suf, s <:+ replace_yo_spec t ∧ s.length + 4 < (replace_yo_spec t).length ∧
          s.length < s2.length ∧ r ++ s = replace_yo_spec t)) ∧
    stem_ru (utf8 "радостью") = utf8 "рад" ∧
    stem_ru (utf8 "юностями") = utf8 "юност" ∧
    stem_ru (utf8 "ниям") = utf8 "ниям" ∧
    stem_ru (utf8 "хиями") = utf8 "хиям" := by
  refine ⟨?_, by decide, by decide, by decide, by decide⟩
  obtain ⟨hnone, hlong, hex⟩ := strip_first_suffix_spec (replace_yo_spec t)
  refine ⟨strip_first_suffix suf (replace_yo_spec t), ?_, ?_, ?_, ?_⟩
  · rw [stem_ru_long t h]
    exact strip_soft_sign_spec _
  · intro hstem
    refine ⟨?_, fun hmax => hlong s1 h1 he1 hstem hmax⟩
    obtain ⟨s, hs, hsuf, hl, hmax, hr⟩ := hex ⟨s1, h1, he1, hstem⟩
    have hle := hmax s1 h1 he1 hstem
    exact ⟨s, hs, hsuf, hl, hle, by omega, hr⟩
  · intro hshort hstem
    refine ⟨?_, fun hmax => hlong s2 h2 he2 hstem hmax⟩
    obtain ⟨s, hs, hsuf, hl, hmax, hr⟩ := hex ⟨s2, h2, he2, hstem⟩
    exact ⟨s, hs, hsuf, hl, hmax s2 h2 he2 hstem, by omega, hr⟩
  · intro hshort
    by_cases hany : ∃ s ∈ suf, s <:+ replace_yo_spec t ∧
        s.length + 4 < (replace_yo_spec t).length
    · obtain ⟨s, hs, hsuf, hl, -, hr⟩ := hex hany
      exact Or.inr ⟨s, hs, hsuf, hl, by omega, hr⟩
    · refine Or.inl (hnone fun s hs hsuf => ?_)
      by_contra hcon
      exact hany ⟨s, hs, hsuf, by omega⟩

theorem stem_ru_prefers_longer_witness :
    8 ≤ (replace_yo_spec (utf8 "бостью")).length ∧
    utf8 "остью" ∈ suf ∧ utf8 "ью" ∈ suf ∧
    utf8 "остью" <:+ replace_yo_spec (utf8 "бостью") ∧
    utf8 "ью" <:+ replace_yo_spec (utf8 "бостью") ∧
    (utf8 "ью").length < (utf8 "остью").length ∧
    stem_ru (utf8 "бостью") = utf8 "бост" ∧
    ∃ r : Bytes,
      ((∀ r1, r = r1 ++ [0xD1, 0x8C] → stem_ru (utf8 "бостью") = r1) ∧
        (¬ [0xD1, 0x8C] <:+ r → stem_ru (utf8 "бостью") = r)) ∧
      ((replace_yo_spec (utf8 "бостью")).length ≤ (utf8 "остью").length + 4 →
        (utf8 "ью").length + 4 < (replace_yo_spec (utf8 "бостью")).length →
        ∃ s ∈ suf, s <:+ replace_yo_spec (utf8 "бостью") ∧
          s.length + 4 < (replace_yo_spec (utf8 "бостью")).length ∧
          (utf8 "ью").length ≤ s.length ∧ s.length < (utf8 "остью").length ∧
          r ++ s = replace_yo_spec (utf8 "бостью")) :=
  ⟨by decide, by decide, by decide, ⟨utf8 "б", by decide⟩, ⟨utf8 "бост", by decide⟩,
    by decide, by decide,
    (stem_ru_prefers_longer (utf8 "бостью") (utf8 "остью") (utf8 "ью") (by decide)
      (by decide) (by decide) ⟨utf8 "б", by decide⟩ ⟨utf8 "бост", by decide⟩
      (by decide)).1.imp fun _ hr => ⟨hr.1, fun ha hb => (hr.2.2.1 ha hb).1⟩⟩

/-- C18. For every token `t` whose normalized form `n` has at least 8 bytes, where `n` is
`t` with every Ё replaced by Е and every ё by е (which is what `normalize_yo` computes):
`stem_ru t` is some `r` with its last two bytes removed when they are the soft sign `ь`
(`D1 8C`) and `r` itself otherwise, where `r` is `n` when no table suffix `s` exists such
that `n` ends with `s` and `len n > len s + 4`, and otherwise `r` followed by `s` is `n`
for the longest such `s` (one exists).  The table holds exactly the suffixes of the
initializer list.  Only one table suffix is removed (`делаете` gives `дела`, which still
ends with the table suffix `а` and is long enough for it), and the result is the same for
every table with the entries of the initializer list that is ordered by decreasing size,
whatever the order among suffixes of equal size and whether or not the duplicate entry
was erased.  Examples: `семь` gives `сем`, `семьями` gives `сем`, `морковь` gives
`морков`, `зелёными` gives `зелен`, `компакт` stays. -/
theorem stem_ru_spec (t : Bytes) (h : 8 ≤ (replace_yo_spec t).length) :
    normalize_yo t = replace_yo_spec t ∧
    (∀ s, s ∈ suf ↔ s ∈ suf_init) ∧
    (∃ r : Bytes,
      ((∀ s ∈ suf, s <:+ replace_yo_spec t → (replace_yo_spec t).length ≤ s.length + 4) →
        r = replace_yo_spec t) ∧
      ((∃ s ∈ suf, s <:+ replace_yo_spec t ∧ s.length + 4 < (replace_yo_spec t).length) →
        ∃ s ∈ suf, s <:+ replace_yo_spec t ∧ s.length + 4 < (replace_yo_spec t).length ∧
          (∀ s1 ∈ suf, s1 <:+ replace_yo_spec t →
            s1.length + 4 < (replace_yo_spec t).length → s1.length ≤ s.length) ∧
          r ++ s = replace_yo_spec t) ∧
      (∀ s ∈ suf, s <:+ replace_yo_spec t → s.length + 4 < (replace_yo_spec t).length →
        (∀ s1 ∈ suf, s1 <:+ replace_yo_spec t →
          s1.length + 4 < (replace_yo_spec t).length → s1.length ≤ s.length) →
        r ++ s = replace_yo_spec t) ∧
      (∀ r1, r = r1 ++ [0xD1, 0x8C] → stem_ru t = r1) ∧
      (¬ [0xD1, 0x8C] <:+ r → stem_ru t = r)) ∧
    (∀ table : List Bytes, table.Pairwise (fun a b => b.length ≤ a.length) →
      (∀ s, s ∈ table ↔ s ∈ suf_init) → stem_ru_with table t = stem_ru t) ∧
    (stem_ru (utf8 "делаете") = utf8 "дела" ∧ utf8 "а" ∈ suf ∧
      utf8 "дела" = utf8 "дел" ++ utf8 "а" ∧ (utf8 "а").length + 4 < (utf8 "дела").length) ∧
    stem_ru (utf8 "семь") = utf8 "сем" ∧
    stem_ru (utf8 "семьями") = utf8 "сем" ∧
    stem_ru (utf8 "морковь") = utf8 "морков" ∧
    stem_ru (utf8 "зелёными") = utf8 "зелен" ∧
    stem_ru (utf8 "компакт") = utf8 "компакт" := by
  refine ⟨normalize_yo_eq_spec t.length t le_rfl, mem_suf, ?_, ?_,
    by decide, by decide, by decide, by decide, by decide, by decide⟩
  · obtain ⟨hnone, hlong, hex⟩ := strip_first_suffix_spec (replace_yo_spec t)
    refine ⟨strip_first_suffix suf (replace_yo_spec t), hnone, hex, hlong, ?_⟩
    rw [stem_ru_long t h]
    exact strip_soft_sign_spec _
  · intro table hsorted hmem
    have hn : 8 ≤ (normalize_yo t).length := by
      rw [normalize_yo_eq_spec t.length t le_rfl]
      exact h
    rw [stem_ru, stem_ru_with_long suf t hn, stem_ru_with_long table t hn,
      strip_first_suffix_order table suf _ hsorted suf_size_descending
        (fun s => (hmem s).trans (mem_suf s).symm)]

theorem stem_ru_spec_witness :
    8 ≤ (replace_yo_spec (utf8 "красивыми")).length ∧
    normalize_yo (utf8 "красивыми") = replace_yo_spec (utf8 "красивыми") ∧
    stem_ru (utf8 "красивыми") = utf8 "красив" ∧
    stem_ru_with (sort_by_size_desc suf_init.reverse) (utf8 "красивыми") =
      stem_ru (utf8 "красивыми") :=
  ⟨by decide, (stem_ru_spec (utf8 "красивыми") (by decide)).1, by decide,
    (stem_ru_spec (utf8 "красивыми") (by decide)).2.2.2.1 (sort_by_size_desc suf_init.reverse)
      (by decide)
      (fun s => (mem_sort_by_size_desc s _).trans List.mem_reverse)⟩

end MaiIr

/-! ## The tokenizer, one step at a time -/

namespace MaiIr

theorem byteAt_append_right (pre s : Bytes) (j : Nat) :
    byteAt (pre ++ s) (pre.length + j) = byteAt s j := by
  simp [byteAt, List.getElem?_append_right]

theorem is_word_char_utf8_shift (pre s : Bytes) (j : Nat) :
    is_word_char_utf8 (pre ++ s) (pre.length + j) = is_word_char_utf8 s j := by
  unfold is_word_char_utf8
  simp only [byteAt_append_right, Nat.add_assoc, List.length_append, Nat.add_lt_add_iff_left]

theorem scan_run_shift (pre s : Bytes) (cfg : TokenizerConfig) (start : Nat) :
    ∀ (fuel i e : Nat),
      scan_run (pre ++ s) cfg (pre.length + start) fuel (pre.length + i) (pre.length + e) =
        (pre.length + (scan_run s cfg start fuel i e).1,
          pre.length + (scan_run s cfg start fuel i e).2) := by
  intro fuel
  induction fuel with
  | zero => intro i e; rfl
  | succ n ih =>
    intro i e
    simp only [scan_run, byteAt_append_right, List.length_append, Nat.add_assoc,
      Nat.add_lt_add_iff_left, is_word_char_utf8_shift]
    by_cases hlt : i < s.length
    · simp only [hlt, if_true]
      by_cases hh : (cfg.keep_hyphen_inside && decide (byteAt s i = 0x2D)) = true
      · simp only [hh, if_true]
        by_cases hj : (decide (start < i) && (decide (i + 1 < s.length) &&
            is_word_char_utf8 s (i + 1))) = true
        · simp only [hj, if_true]
          exact ih (i + 1) (i + 1)
        · simp only [hj, Bool.false_eq_true, if_false]
      · simp only [hh, Bool.false_eq_true, if_false]
        by_cases hw : is_word_char_utf8 s i = true
        · simp only [hw, if_true]
          exact ih _ _
        · simp only [hw, Bool.false_eq_true, if_false]
    · simp only [hlt, if_false]

theorem commit_copy_shift (pre s : Bytes) (cfg : TokenizerConfig) (e : Nat) :
    ∀ (fuel k : Nat) (token : Bytes),
      commit_copy (pre ++ s) cfg (pre.length + e) fuel (pre.length + k) token =
        commit_copy s cfg e fuel k token := by
  intro fuel
  induction fuel with
  | zero => intro k token; rfl
  | succ n ih =>
    intro k token
    simp only [commit_copy, byteAt_append_right, Nat.add_assoc, Nat.add_lt_add_iff_left]
    by_cases hk : k < e
    · simp only [hk, if_true]
      by_cases hc : byteAt s k < 0x80
      · simp only [hc, if_true]
        exact ih _ _
      · simp only [hc, if_false]
        exact ih _ _
    · simp only [hk, if_false]

theorem commit_shift (pre s : Bytes) (cfg : TokenizerConfig) (start e : Nat)
    (out : List Bytes) :
    commit (pre ++ s) cfg (pre.length + start) (pre.length + e) out =
      commit s cfg start e out := by
  unfold commit
  have h2 : pre.length + e - (pre.length + start) = e - start := by omega
  simp only [Nat.add_le_add_iff_left, h2, commit_copy_shift]

theorem scan_out_of_range (text : Bytes) (cfg : TokenizerConfig) (fuel i : Nat)
    (out : List Bytes) (h : text.length ≤ i) : scan text cfg fuel i out = out := by
  cases fuel with
  | zero => rfl
  | succ n =>
    have : ¬ i < text.length := by omega
    simp [scan, this]

/-- The outer loop does not look at the text before its position. -/
theorem scan_shift (pre s : Bytes) (cfg : TokenizerConfig) :
    ∀ (fuel i : Nat) (out : List Bytes),
      scan (pre ++ s) cfg fuel (pre.length + i) out = scan s cfg fuel i out := by
  intro fuel
  induction fuel with
  | zero => intro i out; rfl
  | succ n ih =>
    intro i out
    simp only [scan, byteAt_append_right, is_word_char_utf8_shift]
    have h1 : (pre.length + i < (pre ++ s).length) ↔ (i < s.length) := by
      rw [List.length_append]; omega
    simp only [h1]
    by_cases hlt : i < s.length
    · simp only [hlt, if_true]
      by_cases hw : is_word_char_utf8 s i = true
      · simp only [hw, Bool.not_true, Bool.false_eq_true, if_false]
        have hfuel : scan_run (pre ++ s) cfg (pre.length + i) (pre ++ s).length
            (pre.length + i) (pre.length + i) =
            scan_run (pre ++ s) cfg (pre.length + i) s.length
            (pre.length + i) (pre.length + i) := by
          rw [List.length_append, Nat.add_comm pre.length s.length]
          exact scan_run_fuel (pre ++ s) cfg _ s.length pre.length _ _
            (by rw [List.length_append]; omega)
        rw [hfuel, scan_run_shift]
        simp only
        rw [commit_shift]
        exact ih _ _
      · simp only [hw, Bool.not_false, if_true]
        rw [Nat.add_assoc]
        exact ih _ _
    · simp only [hlt, if_false]

/-- Scanning from position `i` is tokenizing the rest of the text. -/
theorem scan_eq_tokenize_drop (text : Bytes) (cfg : TokenizerConfig) (fuel i : Nat)
    (hf : text.length ≤ i + fuel) :
    scan text cfg fuel i [] = tokenize_stream (text.drop i) cfg := by
  by_cases hi : i ≤ text.length
  · have hsplit : text = text.take i ++ text.drop i := (List.take_append_drop i text).symm
    have hlen : (text.take i).length = i := by rw [List.length_take]; omega
    have h1 : scan text cfg fuel i [] = scan (text.drop i) cfg fuel 0 [] := by
      conv_lhs => rw [hsplit]
      have := scan_shift (text.take i) (text.drop i) cfg fuel 0 []
      rw [hlen] at this
      exact this
    rw [h1, tokenize_stream]
    have hdl : (text.drop i).length = text.length - i := List.length_drop i text
    have hge : (text.drop i).length ≤ fuel := by omega
    obtain ⟨k, hk⟩ := Nat.exists_eq_add_of_le hge
    rw [hk]
    exact scan_fuel (text.drop i) cfg _ k 0 [] (by omega)
  · rw [scan_out_of_range text cfg fuel i [] (by omega)]
    have : text.drop i = [] := List.drop_eq_nil_of_le (by omega)
    rw [this]
    rfl

theorem commit_acc (text : Bytes) (cfg : TokenizerConfig) (start e : Nat) (out : List Bytes) :
    commit text cfg start e out = out ++ commit text cfg start e [] := by
  unfold commit
  by_cases h1 : e ≤ start
  · simp [h1]
  · by_cases h2 : (cfg.drop_short_tokens && decide (e - start < cfg.min_token_bytes)) = true
    · simp only [h1, h2, if_true, if_false, List.append_nil]
    · simp only [h1, h2, if_false, Bool.false_eq_true, List.nil_append]

theorem scan_acc (text : Bytes) (cfg : TokenizerConfig) :
    ∀ (fuel i : Nat) (out : List Bytes),
      scan text cfg fuel i out = out ++ scan text cfg fuel i [] := by
  intro fuel
  induction fuel with
  | zero => intro i out; simp [scan]
  | succ n ih =>
    intro i out
    simp only [scan]
    by_cases hlt : i < text.length
    · simp only [hlt, if_true]
      by_cases hw : is_word_char_utf8 text i = true
      · simp only [hw, Bool.not_true, Bool.false_eq_true, if_false]
        rw [ih _ (commit _ _ _ _ out), ih _ (commit _ _ _ _ []), commit_acc, List.append_assoc]
      · simp only [hw, Bool.not_false, if_true]
        exact ih _ out
    · simp [hlt]

/-- A text that does not start with a word character: its first character is skipped. -/
theorem tokenize_stream_skip (text : Bytes) (cfg : TokenizerConfig) (hne : text ≠ [])
    (hw : is_word_char_utf8 text 0 = false) :
    tokenize_stream text cfg =
      tokenize_stream (text.drop (utf8_char_len (byteAt text 0))) cfg := by
  have hpos : 0 < text.length := List.length_pos.mpr hne
  obtain ⟨m, hm⟩ := Nat.exists_eq_succ_of_ne_zero (Nat.pos_iff_ne_zero.mp hpos)
  have hlen := utf8_char_len_pos (byteAt text 0)
  rw [tokenize_stream, hm]
  simp only [scan, ← hm, hpos, if_true, hw, Bool.not_false, Nat.zero_add]
  exact scan_eq_tokenize_drop text cfg m _ (by omega)

/-- A text that starts with a word character: the run is committed and tokenizing goes on
behind it. -/
theorem tokenize_stream_run (text : Bytes) (cfg : TokenizerConfig)
    (hw : is_word_char_utf8 text 0 = true) :
    tokenize_stream text cfg =
      commit text cfg 0 (scan_run text cfg 0 text.length 0 0).2 [] ++
        tokenize_stream (text.drop (scan_run text cfg 0 text.length 0 0).1) cfg := by
  have hpos : 0 < text.length := is_word_char_lt text 0 hw
  obtain ⟨m, hm⟩ := Nat.exists_eq_succ_of_ne_zero (Nat.pos_iff_ne_zero.mp hpos)
  have hadv := scan_run_advances text cfg 0 hw
  rw [tokenize_stream]
  conv_lhs => rw [hm]
  simp only [scan, hpos, if_true, hw, Bool.not_true, Bool.false_eq_true, if_false]
  rw [scan_acc, scan_eq_tokenize_drop text cfg m _ (by omega)]

theorem slice_zero (text : Bytes) (r : Nat) : slice text 0 r = text.take r := by
  simp [slice]

/-- The run at the start of a text and the token committed for it. -/
theorem run_at_start (text : Bytes) (cfg : TokenizerConfig)
    (hw : is_word_char_utf8 text 0 = true) :
    ∃ r, scan_run text cfg 0 text.length 0 0 = (r, r) ∧ 0 < r ∧ r ≤ text.length ∧
      token_shape cfg.keep_hyphen_inside false (text.take r) = true ∧
      commit text cfg 0 r [] =
        if (cfg.drop_short_tokens && decide (r < cfg.min_token_bytes)) = true then []
        else [(text.take r).map (emit_byte cfg)] := by
  obtain ⟨r, hr, -, h2, h3, h4⟩ := scan_run_shape text cfg 0 text.length 0 false
    (by omega) (by omega) le_rfl (fun h => by simp at h) (fun _ => hw)
  have hpos := h3 rfl
  rw [slice_zero] at h4
  refine ⟨r, hr, hpos, h2, h4, ?_⟩
  unfold commit
  have hr0 : ¬ r ≤ 0 := by omega
  rw [if_neg hr0]
  simp only [Nat.sub_zero]
  have hcopy := commit_copy_shape text cfg r h2 r 0 false [] (by omega) (by omega)
    (by rw [slice_zero]; exact h4)
  rw [hcopy, slice_zero]
  simp only [List.nil_append]
  have hs := token_shape_map_emit cfg _ false _ h4
  rw [c_str_of_no_nul _ (fun b hb => (token_shape_bytes _ false _ hs b hb).1)]

theorem scan_run_congr (text : Bytes) (cfg1 cfg2 : TokenizerConfig) (start : Nat)
    (h : cfg1.keep_hyphen_inside = cfg2.keep_hyphen_inside) :
    ∀ (fuel i e : Nat), scan_run text cfg1 start fuel i e = scan_run text cfg2 start fuel i e := by
  intro fuel
  induction fuel with
  | zero => intro i e; rfl
  | succ n ih =>
    intro i e
    simp only [scan_run, h, ih]

/-- Strong induction on the length of the text, along the steps of the tokenizer. -/
theorem tokenize_induction (cfg : TokenizerConfig) (P : Bytes → Prop)
    (hnil : P [])
    (hskip : ∀ text, text ≠ [] → is_word_char_utf8 text 0 = false →
      P (text.drop (utf8_char_len (byteAt text 0))) → P text)
    (hrun : ∀ text r, is_word_char_utf8 text 0 = true →
      scan_run text cfg 0 text.length 0 0 = (r, r) → 0 < r → r ≤ text.length →
      P (text.drop r) → P text) :
    ∀ text, P text := by
  have key : ∀ (n : Nat) (text : Bytes), text.length ≤ n → P text := by
    intro n
    induction n with
    | zero =>
      intro text h
      have : text = [] := List.length_eq_zero.mp (by omega)
      rw [this]; exact hnil
    | succ n ih =>
      intro text h
      by_cases hne : text = []
      · rw [hne]; exact hnil
      · have hpos : 0 < text.length := List.length_pos.mpr hne
        by_cases hw : is_word_char_utf8 text 0 = true
        · obtain ⟨r, hr, hr0, hrn, -, -⟩ := run_at_start text cfg hw
          exact hrun text r hw hr hr0 hrn
            (ih _ (by rw [List.length_drop]; omega))
        · have hlen := utf8_char_len_pos (byteAt text 0)
          exact hskip text hne (by simpa using hw)
            (ih _ (by rw [List.length_drop]; omega))
  intro text
  exact key text.length text le_rfl

/-- Short-token dropping removes from the completed runs exactly the short ones. -/
theorem tokenize_stream_drop_filter (text : Bytes) (cfg : TokenizerConfig)
    (hdrop : cfg.drop_short_tokens = true) :
    tokenize_stream text cfg =
      (tokenize_stream text { cfg with drop_short_tokens := false }).filter
        (fun t => decide (cfg.min_token_bytes ≤ t.length)) := by
  revert text
  apply tokenize_induction cfg
  · rfl
  · intro text hne hw ih
    rw [tokenize_stream_skip text cfg hne hw, tokenize_stream_skip text _ hne hw, ih]
  · intro text r hw hr hr0 hrn ih
    obtain ⟨r1, hr1, -, -, -, hc1⟩ := run_at_start text cfg hw
    obtain ⟨r2, hr2, -, -, -, hc2⟩ :=
      run_at_start text { cfg with drop_short_tokens := false } hw
    have e1 : r1 = r := by
      have := hr1.symm.trans hr
      exact (Prod.mk.inj this).1
    have e2 : r2 = r := by
      have := hr2.symm.trans ((scan_run_congr text { cfg with drop_short_tokens := false }
        cfg 0 rfl text.length 0 0).trans hr)
      exact (Prod.mk.inj this).1
    rw [e1] at hc1
    rw [e2] at hc2 hr2
    rw [tokenize_stream_run text cfg hw, tokenize_stream_run text _ hw, hr, hr2]
    simp only
    rw [hc1, hc2, ih, List.filter_append, hdrop]
    have hlen : ((text.take r).map (emit_byte cfg)).length = r := by
      rw [List.length_map, List.length_take]; omega
    have hemit : emit_byte { cfg with drop_short_tokens := false } = emit_byte cfg := rfl
    simp only [Bool.true_and, Bool.false_and, Bool.false_eq_true, if_false, hemit]
    by_cases hshort : r < cfg.min_token_bytes
    · have hd : decide (cfg.min_token_bytes ≤ r) = false := by
        simp only [decide_eq_false_iff_not]; omega
      have hf : List.filter (fun t => decide (cfg.min_token_bytes ≤ List.length t))
          [(text.take r).map (emit_byte cfg)] = [] := by
        simp only [List.filter, hlen, hd]
      rw [hf]
      simp only [hshort, decide_True, if_true]
    · have hd : decide (cfg.min_token_bytes ≤ r) = true := by
        simp only [decide_eq_true_eq]; omega
      have hf : List.filter (fun t => decide (cfg.min_token_bytes ≤ List.length t))
          [(text.take r).map (emit_byte cfg)] = [(text.take r).map (emit_byte cfg)] := by
        simp only [List.filter, hlen, hd]
      rw [hf]
      simp only [hshort, decide_False, Bool.false_eq_true, if_false]

/-- C12. For every byte string and every configuration with `drop_short_tokens = true`:
every emitted token has at least `min_token_bytes` bytes, and the emitted tokens are the
completed runs (the tokens emitted when dropping is off) without exactly those shorter
than `min_token_bytes`, in the same order; with `min_token_bytes = 2` the text `a` yields
no token and the text `ab` yields exactly `ab`. -/
theorem tokenize_stream_drop_short (text : Bytes) (cfg : TokenizerConfig)
    (hdrop : cfg.drop_short_tokens = true) :
    (∀ t ∈ tokenize_stream text cfg, cfg.min_token_bytes ≤ t.length) ∧
    tokenize_stream text cfg =
      (tokenize_stream text { cfg with drop_short_tokens := false }).filter
        (fun t => decide (cfg.min_token_bytes ≤ t.length)) ∧
    tokenize_stream (utf8 "a") { drop_short_tokens := true, min_token_bytes := 2 } = [] ∧
    tokenize_stream (utf8 "ab") { drop_short_tokens := true, min_token_bytes := 2 } =
      [utf8 "ab"] := by
  refine ⟨?_, tokenize_stream_drop_filter text cfg hdrop, by decide, by decide⟩
  intro t ht
  rw [tokenize_stream_drop_filter text cfg hdrop] at ht
  have := (List.mem_filter.mp ht).2
  simpa using this

theorem tokenize_stream_drop_short_witness :
    ({ min_token_bytes := 3 } : TokenizerConfig).drop_short_tokens = true ∧
    tokenize_stream (utf8 "to be or not") { min_token_bytes := 3 } = [utf8 "not"] ∧
    tokenize_stream (utf8 "to be or not") { min_token_bytes := 3, drop_short_tokens := false } =
      [utf8 "to", utf8 "be", utf8 "or", utf8 "not"] ∧
    ∀ t ∈ tokenize_stream (utf8 "to be or not") { min_token_bytes := 3 }, 3 ≤ t.length :=
  ⟨rfl, by decide, by decide,
    (tokenize_stream_drop_short (utf8 "to be or not") { min_token_bytes := 3 } rfl).1⟩

/-- C11 as stated fails: the Cyrillic run keeps its upper case, the emitted token is
`ПРИВЕТ`, not `привет`. -/
theorem tokenize_keeps_cyrillic_case :
    ({} : TokenizerConfig).ascii_to_lower = true ∧
    tokenize_stream (utf8 "ПРИВЕТ world") {} = [utf8 "ПРИВЕТ", utf8 "world"] ∧
    tokenize_stream (utf8 "ПРИВЕТ world") {} ≠ [utf8 "привет", utf8 "world"] := by
  decide

/-- C11 amended. With `ascii_to_lower = true` (other options at their defaults),
tokenizing `ПРИВЕТ world` yields exactly the tokens `ПРИВЕТ`, `world`: the Cyrillic bytes
pass through unchanged; only ASCII letters fold, so `ПРИВЕТ World` yields the same list. -/
theorem tokenize_privet_world :
    ({} : TokenizerConfig).ascii_to_lower = true ∧
    tokenize_stream (utf8 "ПРИВЕТ world") {} = [utf8 "ПРИВЕТ", utf8 "world"] ∧
    tokenize_stream (utf8 "ПРИВЕТ World") {} = [utf8 "ПРИВЕТ", utf8 "world"] ∧
    tokenize_stream (utf8 "привет world") {} = [utf8 "привет", utf8 "world"] := by
  decide

end MaiIr

/-! ## The tokenizer on texts made of whole characters -/

namespace MaiIr

theorem cyrillic_eq_word_char (b1 b2 : Nat) :
    is_utf8_cyrillic_2bytes b1 b2 = word_char [b1, b2] := by
  unfold is_utf8_cyrillic_2bytes word_char
  by_cases h1 : b1 = 0xD0
  · subst h1; simp
  · by_cases h2 : b1 = 0xD1
    · subst h2; simp
    · simp [h1, h2]

theorem word_char_false_of_not_lead (u : Bytes) (b : Nat) (tail : Bytes) (hu : u = b :: tail)
    (h80 : 0x80 ≤ b) (hD0 : b ≠ 0xD0) (hD1 : b ≠ 0xD1) : word_char u = false := by
  subst hu
  cases tail with
  | nil =>
    simp only [word_char, is_ascii_alnum, Bool.or_eq_false_iff, Bool.and_eq_false_iff,
      decide_eq_false_iff_not]
    omega
  | cons c t =>
    cases t with
    | nil => simp [word_char, hD0, hD1]
    | cons c2 t2 => simp [word_char]

theorem byteAt_zero_cons (b : Nat) (l : Bytes) : byteAt (b :: l) 0 = b := rfl

theorem byteAt_one_cons (b c : Nat) (l : Bytes) : byteAt (b :: c :: l) 1 = c := rfl

/-- What the tokenizer sees at the start of a text that begins with a whole character. -/
theorem unit_head (u rest : Bytes) (hu : text_unit u = true) :
    u ≠ [] ∧
    is_word_char_utf8 (u ++ rest) 0 = word_char u ∧
    utf8_char_len (byteAt (u ++ rest) 0) = u.length ∧
    (byteAt (u ++ rest) 0 = 0x2D → u = [0x2D]) ∧
    (word_char u = false → ∀ b ∈ u, is_ascii_alnum b = false) := by
  cases u with
  | nil => simp [text_unit] at hu
  | cons b tail =>
    simp only [text_unit, Bool.and_eq_true, decide_eq_true_eq, List.all_eq_true] at hu
    obtain ⟨hlen, htail⟩ := hu
    have hhigh : ∀ c ∈ tail, is_ascii_alnum c = false := by
      intro c hc
      have := htail c hc
      by_contra hcon
      have := is_ascii_alnum_lt c (by simpa using hcon)
      omega
    refine ⟨by simp, ?_, ?_, ?_, ?_⟩
    · by_cases h80 : b < 0x80
      · have h1 : tail = [] := by
          rw [utf8_char_len_ascii b h80] at hlen
          exact List.length_eq_zero.mp (by omega)
        subst h1
        simp [is_word_char_utf8, byteAt_zero_cons, h80, word_char]
      · by_cases hlead : b = 0xD0 ∨ b = 0xD1
        · have h2 : utf8_char_len b = 2 := by
            rcases hlead with h | h <;> rw [h] <;> decide
          rw [h2] at hlen
          obtain ⟨c, hc⟩ := List.length_eq_one.mp (by omega : tail.length = 1)
          subst hc
          simp only [is_word_char_utf8, List.cons_append, List.nil_append, byteAt_zero_cons,
            h80, if_false, byteAt_one_cons, List.length_cons]
          rw [if_pos (by omega), cyrillic_eq_word_char]
          rfl
        · have hD0 : b ≠ 0xD0 := fun h => hlead (Or.inl h)
          have hD1 : b ≠ 0xD1 := fun h => hlead (Or.inr h)
          rw [word_char_false_of_not_lead _ b tail rfl (by omega) hD0 hD1]
          simp only [is_word_char_utf8, List.cons_append, byteAt_zero_cons, h80, if_false]
          split_ifs
          · simp [is_utf8_cyrillic_2bytes, hD0, hD1]
          · rfl
    · simp only [List.cons_append, byteAt_zero_cons, List.length_cons]
      omega
    · intro h
      simp only [List.cons_append, byteAt_zero_cons] at h
      subst h
      have h1 : tail = [] := by
        have : utf8_char_len 0x2D = 1 := by decide
        rw [this] at hlen
        exact List.length_eq_zero.mp (by omega)
      rw [h1]
    · intro hw c hc
      rcases List.mem_cons.mp hc with h | h
      · subst h
        by_cases h80 : c < 0x80
        · have h1 : tail = [] := by
            rw [utf8_char_len_ascii c h80] at hlen
            exact List.length_eq_zero.mp (by omega)
          subst h1
          simpa [word_char] using hw
        · by_contra hcon
          have := is_ascii_alnum_lt c (by simpa using hcon)
          omega
      · exact hhigh c h

theorem byteAt_drop (text : Bytes) (i : Nat) (h : i ≤ text.length) :
    byteAt text i = byteAt (text.drop i) 0 := by
  have hlen : (text.take i).length = i := by rw [List.length_take]; omega
  have := byteAt_append_right (text.take i) (text.drop i) 0
  rw [List.take_append_drop, hlen] at this
  exact this

theorem is_word_char_utf8_drop (text : Bytes) (i : Nat) (h : i ≤ text.length) :
    is_word_char_utf8 text i = is_word_char_utf8 (text.drop i) 0 := by
  have hlen : (text.take i).length = i := by rw [List.length_take]; omega
  have := is_word_char_utf8_shift (text.take i) (text.drop i) 0
  rw [List.take_append_drop, hlen] at this
  exact this

theorem units_flatten_eq_nil (us : List Bytes) (hus : ∀ u ∈ us, text_unit u = true)
    (h : us.flatten = []) : us = [] := by
  cases us with
  | nil => rfl
  | cons u rest =>
    exfalso
    have hu := hus u (List.mem_cons_self _ _)
    cases u with
    | nil => simp [text_unit] at hu
    | cons b t => simp at h

/-- The inner loop on a text made of whole characters stops at a character boundary; when
hyphens are not joined it reads exactly the leading word characters. -/
theorem scan_run_units (text : Bytes) (cfg : TokenizerConfig) (start : Nat) :
    ∀ (fuel i : Nat) (us : List Bytes), text.drop i = us.flatten →
      (∀ u ∈ us, text_unit u = true) → i ≤ text.length → text.length ≤ i + fuel →
      ∃ pre post, us = pre ++ post ∧
        (scan_run text cfg start fuel i i).1 = i + pre.flatten.length ∧
        (cfg.keep_hyphen_inside = false →
          (∀ u ∈ pre, word_char u = true) ∧ ∀ u rest, post = u :: rest → word_char u = false) := by
  intro fuel
  induction fuel with
  | zero =>
    intro i us hdrop hus hi hf
    have hnil : text.drop i = [] := List.drop_eq_nil_of_le (by omega)
    have : us = [] := units_flatten_eq_nil us hus (by rw [← hdrop, hnil])
    subst this
    exact ⟨[], [], rfl, rfl, fun _ => ⟨fun u hu => by simp at hu, fun u rest h => by simp at h⟩⟩
  | succ n ih =>
    intro i us hdrop hus hi hf
    cases us with
    | nil =>
      have hge : ¬ i < text.length := by
        intro hlt
        have : (text.drop i).length = 0 := by rw [hdrop]; rfl
        rw [List.length_drop] at this
        omega
      refine ⟨[], [], rfl, ?_, fun _ => ⟨fun u hu => by simp at hu, fun u rest h => by simp at h⟩⟩
      simp [scan_run, hge]
    | cons u us1 =>
      have hu := hus u (List.mem_cons_self _ _)
      have hus1 : ∀ v ∈ us1, text_unit v = true := fun v hv => hus v (List.mem_cons_of_mem _ hv)
      rw [List.flatten_cons] at hdrop
      obtain ⟨hne, hword, hlen, hhyp, -⟩ := unit_head u us1.flatten hu
      rw [← hdrop, ← is_word_char_utf8_drop text i hi] at hword
      rw [← hdrop, ← byteAt_drop text i hi] at hlen hhyp
      have hulen : 0 < u.length := List.length_pos.mpr hne
      have hrest : text.length - i = u.length + us1.flatten.length := by
        have := congrArg List.length hdrop
        rw [List.length_drop, List.length_append] at this
        exact this
      have hlt : i < text.length := by omega
      have hdrop1 : text.drop (i + u.length) = us1.flatten := by
        rw [← List.drop_drop, hdrop, List.drop_left]
      simp only [scan_run, hlt, if_true]
      by_cases hh : (cfg.keep_hyphen_inside && decide (byteAt text i = 0x2D)) = true
      · simp only [hh, if_true]
        simp only [Bool.and_eq_true, decide_eq_true_eq] at hh
        have hk : ¬ cfg.keep_hyphen_inside = false := by rw [hh.1]; simp
        have hu1 : u = [0x2D] := hhyp hh.2
        by_cases hj : (decide (start < i) && (decide (i + 1 < text.length) &&
            is_word_char_utf8 text (i + 1))) = true
        · simp only [hj, if_true]
          have hl1 : u.length = 1 := by rw [hu1]; rfl
          rw [hl1] at hdrop1
          obtain ⟨pre, post, hsplit, hr, -⟩ := ih (i + 1) us1 hdrop1 hus1 (by omega) (by omega)
          refine ⟨u :: pre, post, by rw [hsplit]; rfl, ?_, fun h => absurd h hk⟩
          rw [hr, List.flatten_cons, List.length_append, hl1]
          omega
        · simp only [hj, Bool.false_eq_true, if_false]
          exact ⟨[], u :: us1, rfl, rfl, fun h => absurd h hk⟩
      · simp only [hh, Bool.false_eq_true, if_false]
        by_cases hw : is_word_char_utf8 text i = true
        · simp only [hw, if_true, hlen]
          obtain ⟨pre, post, hsplit, hr, hkeep⟩ := ih (i + u.length) us1 hdrop1 hus1
            (by omega) (by omega)
          refine ⟨u :: pre, post, by rw [hsplit]; rfl, ?_, fun h => ⟨?_, (hkeep h).2⟩⟩
          · rw [hr, List.flatten_cons, List.length_append]
            omega
          · intro v hv
            rcases List.mem_cons.mp hv with h1 | h1
            · rw [h1, ← hword]; exact hw
            · exact (hkeep h).1 v h1
        · simp only [hw, Bool.false_eq_true, if_false]
          refine ⟨[], u :: us1, rfl, rfl, fun _ => ⟨fun v hv => by simp at hv, ?_⟩⟩
          intro v rest hv
          have := (List.cons.inj hv).1
          rw [← this, ← hword]
          simpa using hw

theorem emit_byte_alnum_eq (cfg : TokenizerConfig) (c : Nat) :
    is_ascii_alnum (emit_byte cfg c) = is_ascii_alnum c := by
  by_cases h : is_ascii_alnum c = true
  · rw [emit_byte_alnum cfg c h, h]
  · have hf : is_ascii_alnum c = false := by simpa using h
    rw [hf]
    unfold emit_byte ascii_lower
    split_ifs with h1 h2 h3
    · exfalso
      simp only [Bool.and_eq_true, decide_eq_true_eq] at h3
      simp only [is_ascii_alnum, Bool.or_eq_false_iff, Bool.and_eq_false_iff,
        decide_eq_false_iff_not] at hf
      omega
    · exact hf
    · exact hf
    · exact hf

theorem emit_byte_eq (cfg : TokenizerConfig) (c : Nat) :
    emit_byte cfg c =
      if cfg.ascii_to_lower = true ∧ 0x41 ≤ c ∧ c ≤ 0x5A then c + 0x20 else c := by
  unfold emit_byte ascii_lower
  by_cases h1 : c < 0x80
  · by_cases h2 : cfg.ascii_to_lower = true
    · by_cases h3 : 0x41 ≤ c ∧ c ≤ 0x5A
      · have h4 : (decide (0x41 ≤ c) && decide (c ≤ 0x5A)) = true := by simp [h3]
        rw [if_pos h1, if_pos h2, if_pos h4, if_pos ⟨h2, h3⟩]
        omega
      · have h4 : ¬ (decide (0x41 ≤ c) && decide (c ≤ 0x5A)) = true := by simpa using h3
        rw [if_pos h1, if_pos h2, if_neg h4, if_neg (fun h => h3 h.2)]
    · rw [if_pos h1, if_neg h2, if_neg (fun h => h2 h.1)]
  · rw [if_neg h1, if_neg (fun h => h1 (by omega))]

theorem drop_flatten_prefix (pre post : List Bytes) :
    (pre ++ post).flatten.drop pre.flatten.length = post.flatten := by
  rw [List.flatten_append, List.drop_left]

theorem take_flatten_prefix (pre post : List Bytes) :
    (pre ++ post).flatten.take pre.flatten.length = pre.flatten := by
  rw [List.flatten_append, List.take_left]

/-- The tokens of a text made of whole characters, with short-token dropping off, hold
every ASCII letter and digit of the text, in order. -/
theorem tokenize_units_alnum (cfg : TokenizerConfig) (hdrop : cfg.drop_short_tokens = false) :
    ∀ (text : Bytes) (us : List Bytes), text = us.flatten → (∀ u ∈ us, text_unit u = true) →
      ((tokenize_stream text cfg).flatten).filter is_ascii_alnum =
        (text.map (emit_byte cfg)).filter is_ascii_alnum := by
  apply tokenize_induction cfg (fun text => ∀ (us : List Bytes), text = us.flatten →
      (∀ u ∈ us, text_unit u = true) →
      ((tokenize_stream text cfg).flatten).filter is_ascii_alnum =
        (text.map (emit_byte cfg)).filter is_ascii_alnum)
  · intro us _ _; rfl
  · intro text hne hw ih us htext hus
    cases us with
    | nil => exact absurd htext hne
    | cons u us1 =>
      have hu := hus u (List.mem_cons_self _ _)
      have hus1 : ∀ v ∈ us1, text_unit v = true := fun v hv => hus v (List.mem_cons_of_mem _ hv)
      rw [List.flatten_cons] at htext
      obtain ⟨-, hword, hlen, -, hsep⟩ := unit_head u us1.flatten hu
      rw [← htext] at hword hlen
      rw [hw] at hword
      have hdropu : text.drop (utf8_char_len (byteAt text 0)) = us1.flatten := by
        rw [hlen, htext, List.drop_left]
      rw [tokenize_stream_skip text cfg hne hw, ih us1 hdropu hus1, hdropu]
      conv_rhs => rw [htext, List.map_append, List.filter_append]
      have hnone : (u.map (emit_byte cfg)).filter is_ascii_alnum = [] := by
        apply List.filter_eq_nil_iff.mpr
        intro b hb
        obtain ⟨c, hc, rfl⟩ := List.mem_map.mp hb
        rw [emit_byte_alnum_eq, hsep hword.symm c hc]
        simp
      rw [hnone, List.nil_append]
  · intro text r hw hr hr0 hrn ih us htext hus
    obtain ⟨pre, post, hsplit, hrpre, -⟩ := scan_run_units text cfg 0 text.length 0 us
      (by rw [List.drop_zero]; exact htext) hus (by omega) (by omega)
    rw [hr] at hrpre
    simp only [Nat.zero_add] at hrpre
    have hpost : text.drop r = post.flatten := by
      rw [hrpre, htext, hsplit, drop_flatten_prefix]
    obtain ⟨r1, hr1, -, -, -, hc⟩ := run_at_start text cfg hw
    have e1 : r1 = r := (Prod.mk.inj (hr1.symm.trans hr)).1
    rw [e1] at hc
    rw [tokenize_stream_run text cfg hw, hr]
    simp only
    rw [hc, hdrop]
    simp only [Bool.false_and, Bool.false_eq_true, if_false, List.singleton_append,
      List.flatten_cons, List.filter_append]
    rw [ih post hpost (fun u hu => hus u (by rw [hsplit]; exact List.mem_append_right _ hu))]
    rw [← List.filter_append, ← List.map_append, List.take_append_drop]

/-- C20 as stated fails on malformed UTF-8: for the two bytes `C3 61` the separator skip
advances by `utf8_char_len(0xC3) = 2` and swallows the ASCII letter `a`; no token is
emitted although dropping is off and `a` is not the second byte of a Cyrillic word
character.  The same happens behind a Cyrillic lead byte: `D0 61 62` yields only `b`. -/
theorem tokenize_swallows_ascii_letter :
    is_ascii_alnum 0x61 = true ∧ word_char [0xC3, 0x61] = false ∧
    tokenize_stream [0xC3, 0x61] { drop_short_tokens := false } = [] ∧
    word_char [0xD0, 0x61] = false ∧
    tokenize_stream [0xD0, 0x61, 0x62] { drop_short_tokens := false } = [[0x62]] := by
  decide

/-- C20 amended. For every text made of whole characters (a first byte followed by exactly
the bytes that `utf8_char_len` announces for it, none of them ASCII; all well-formed UTF-8
is of this kind) and every configuration with `drop_short_tokens = false`: the ASCII
letters and digits of the emitted tokens are, in order and number, the ASCII letters and
digits of the text (case-folded as configured), so every ASCII letter or digit of the
text is contained in an emitted token and none is swallowed as part of a separator. -/
theorem tokenize_stream_keeps_ascii_alnum (cfg : TokenizerConfig) (us : List Bytes)
    (hus : ∀ u ∈ us, text_unit u = true) (hdrop : cfg.drop_short_tokens = false) :
    ((tokenize_stream us.flatten cfg).flatten).filter is_ascii_alnum =
      (us.flatten.map (emit_byte cfg)).filter is_ascii_alnum :=
  tokenize_units_alnum cfg hdrop us.flatten us rfl hus

theorem tokenize_stream_keeps_ascii_alnum_witness :
    (∀ u ∈ [utf8 "é", utf8 "a", utf8 "-", utf8 "—", utf8 "B", utf8 "ж", utf8 "7"],
      text_unit u = true) ∧
    tokenize_stream
      [utf8 "é", utf8 "a", utf8 "-", utf8 "—", utf8 "B", utf8 "ж", utf8 "7"].flatten
      { drop_short_tokens := false } = [utf8 "a", utf8 "bж7"] ∧
    ((tokenize_stream
      [utf8 "é", utf8 "a", utf8 "-", utf8 "—", utf8 "B", utf8 "ж", utf8 "7"].flatten
      { drop_short_tokens := false }).flatten).filter is_ascii_alnum =
      (([utf8 "é", utf8 "a", utf8 "-", utf8 "—", utf8 "B", utf8 "ж", utf8 "7"].flatten).map
        (emit_byte { drop_short_tokens := false })).filter is_ascii_alnum :=
  ⟨by decide, by decide,
    tokenize_stream_keeps_ascii_alnum { drop_short_tokens := false }
      [utf8 "é", utf8 "a", utf8 "-", utf8 "—", utf8 "B", utf8 "ж", utf8 "7"]
      (by decide) rfl⟩

theorem text_unit_of_ascii_or_two_byte (ch : Bytes) (h : ascii_or_two_byte ch = true) :
    text_unit ch = true := by
  cases ch with
  | nil => simp [ascii_or_two_byte] at h
  | cons b t =>
    cases t with
    | nil =>
      simp only [ascii_or_two_byte, decide_eq_true_eq] at h
      simp [text_unit, utf8_char_len_ascii b h]
    | cons c t2 =>
      cases t2 with
      | nil =>
        simp only [ascii_or_two_byte, Bool.and_eq_true, decide_eq_true_eq] at h
        have hlen : utf8_char_len b = 2 := by
          unfold utf8_char_len
          have h1 : ¬ b < 0x80 := by omega
          have h2 : b >>> 5 = 0b110 := by
            rw [Nat.shiftRight_eq_div_pow]; omega
          rw [if_neg h1, if_pos h2]
        simp [text_unit, hlen, h.1.2]
      | cons d t3 => simp [ascii_or_two_byte] at h

theorem word_runs_nil : word_runs [] = [] := by
  simp [word_runs, List.splitOnP_nil]

theorem word_runs_cons_sep (u : Bytes) (us : List Bytes) (hu : word_char u = false) :
    word_runs (u :: us) = word_runs us := by
  unfold word_runs
  rw [List.splitOnP_cons]
  simp [hu]

theorem word_runs_run (pre post : List Bytes) (hpre : ∀ u ∈ pre, word_char u = true)
    (hne : pre ≠ []) (hpost : ∀ u rest, post = u :: rest → word_char u = false) :
    word_runs (pre ++ post) = pre :: word_runs post := by
  have hnp : ∀ x ∈ pre, ¬ ((fun ch => !word_char ch) x = true) := by
    intro x hx
    simp [hpre x hx]
  have hpne : (!pre.isEmpty) = true := by
    cases pre with
    | nil => exact absurd rfl hne
    | cons a l => rfl
  cases post with
  | nil =>
    unfold word_runs
    rw [List.append_nil, List.splitOnP_eq_single _ pre hnp, List.splitOnP_nil]
    simp [hpne]
  | cons s rest =>
    have hs : (fun ch => !word_char ch) s = true := by
      simp [hpost s rest rfl]
    unfold word_runs
    rw [List.splitOnP_first _ pre hnp s hs rest, List.splitOnP_cons]
    simp only [hs, if_true]
    simp only [List.filter, hpne, List.isEmpty_nil, Bool.not_true]

/-- On a text of ASCII bytes and two-byte characters, without hyphen joining and without
dropping, the tokens are the maximal runs of word characters. -/
theorem tokenize_chars_runs (cfg : TokenizerConfig) (hk : cfg.keep_hyphen_inside = false)
    (hdrop : cfg.drop_short_tokens = false) :
    ∀ (text : Bytes) (chars : List Bytes), text = chars.flatten →
      (∀ ch ∈ chars, text_unit ch = true) →
      tokenize_stream text cfg = run_tokens cfg chars := by
  apply tokenize_induction cfg (fun text => ∀ (chars : List Bytes), text = chars.flatten →
      (∀ ch ∈ chars, text_unit ch = true) →
      tokenize_stream text cfg = run_tokens cfg chars)
  · intro chars h hus
    have : chars = [] := units_flatten_eq_nil chars hus h.symm
    rw [this, run_tokens, word_runs_nil]
    rfl
  · intro text hne hw ih us htext hus
    cases us with
    | nil => exact absurd htext hne
    | cons u us1 =>
      have hu := hus u (List.mem_cons_self _ _)
      have hus1 : ∀ v ∈ us1, text_unit v = true := fun v hv => hus v (List.mem_cons_of_mem _ hv)
      rw [List.flatten_cons] at htext
      obtain ⟨-, hword, hlen, -, -⟩ := unit_head u us1.flatten hu
      rw [← htext] at hword hlen
      rw [hw] at hword
      have hdropu : text.drop (utf8_char_len (byteAt text 0)) = us1.flatten := by
        rw [hlen, htext, List.drop_left]
      rw [tokenize_stream_skip text cfg hne hw, ih us1 hdropu hus1, run_tokens, run_tokens,
        word_runs_cons_sep u us1 hword.symm]
  · intro text r hw hr hr0 hrn ih us htext hus
    obtain ⟨pre, post, hsplit, hrpre, hmax⟩ := scan_run_units text cfg 0 text.length 0 us
      (by rw [List.drop_zero]; exact htext) hus (by omega) (by omega)
    obtain ⟨hpre, hpost⟩ := hmax hk
    rw [hr] at hrpre
    simp only [Nat.zero_add] at hrpre
    have hdropr : text.drop r = post.flatten := by
      rw [hrpre, htext, hsplit, drop_flatten_prefix]
    have htaker : text.take r = pre.flatten := by
      rw [hrpre, htext, hsplit, take_flatten_prefix]
    have hprene : pre ≠ [] := by
      intro h
      rw [h] at hrpre
      simp at hrpre
      omega
    obtain ⟨r1, hr1, -, -, -, hc⟩ := run_at_start text cfg hw
    have e1 : r1 = r := (Prod.mk.inj (hr1.symm.trans hr)).1
    rw [e1] at hc
    rw [tokenize_stream_run text cfg hw, hr]
    simp only
    rw [hc, hdrop, ih post hdropr
      (fun u hu => hus u (by rw [hsplit]; exact List.mem_append_right _ hu))]
    simp only [Bool.false_and, Bool.false_eq_true, if_false, List.singleton_append]
    rw [hsplit, run_tokens, run_tokens, word_runs_run pre post hpre hprene hpost, List.map_cons,
      htaker]

/-- C19. For every text made only of ASCII bytes and two-byte characters (lead byte
`C0..DF`, continuation byte `80..BF`; these include all two-byte Cyrillic letter
encodings), with `keep_hyphen_inside = false` and `drop_short_tokens = false`: the emitted
token list is exactly the list of the maximal non-empty runs of word characters of the
text, from left to right, each run copied byte for byte except that the ASCII letters
`A-Z` are lowercased when `ascii_to_lower` is true (all other bytes, the Cyrillic ones
among them, are copied unchanged). -/
theorem tokenize_stream_maximal_runs (cfg : TokenizerConfig) (chars : List Bytes)
    (hchars : ∀ ch ∈ chars, ascii_or_two_byte ch = true)
    (hk : cfg.keep_hyphen_inside = false) (hdrop : cfg.drop_short_tokens = false) :
    tokenize_stream chars.flatten cfg =
      (word_runs chars).map (fun run => run.flatten.map (emit_byte cfg)) ∧
    (∀ c, emit_byte cfg c =
      if cfg.ascii_to_lower = true ∧ 0x41 ≤ c ∧ c ≤ 0x5A then c + 0x20 else c) :=
  ⟨tokenize_chars_runs cfg hk hdrop chars.flatten chars rfl
      (fun ch hch => text_unit_of_ascii_or_two_byte ch (hchars ch hch)),
    emit_byte_eq cfg⟩

theorem tokenize_stream_maximal_runs_witness :
    (∀ ch ∈ [utf8 "Я", utf8 "ж", utf8 "-", utf8 "X", utf8 "9", utf8 " ", utf8 "і", utf8 "q"],
      ascii_or_two_byte ch = true) ∧
    word_runs [utf8 "Я", utf8 "ж", utf8 "-", utf8 "X", utf8 "9", utf8 " ", utf8 "і", utf8 "q"] =
      [[utf8 "Я", utf8 "ж"], [utf8 "X", utf8 "9"], [utf8 "q"]] ∧
    tokenize_stream
      [utf8 "Я", utf8 "ж", utf8 "-", utf8 "X", utf8 "9", utf8 " ", utf8 "і", utf8 "q"].flatten
      { keep_hyphen_inside := false, drop_short_tokens := false } =
      (word_runs
        [utf8 "Я", utf8 "ж", utf8 "-", utf8 "X", utf8 "9", utf8 " ", utf8 "і", utf8 "q"]).map
        (fun run => run.flatten.map
          (emit_byte { keep_hyphen_inside := false, drop_short_tokens := false })) :=
  ⟨by decide, by decide,
    (tokenize_stream_maximal_runs { keep_hyphen_inside := false, drop_short_tokens := false }
      [utf8 "Я", utf8 "ж", utf8 "-", utf8 "X", utf8 "9", utf8 " ", utf8 "і", utf8 "q"]
      (by decide) rfl rfl).1⟩

end MaiIr

/-! ## The tokenizer reads in range and terminates -/

namespace MaiIr

theorem read_eq (s : Bytes) (i : Nat) (h : i < s.length) : read s i = some (byteAt s i) := by
  simp [read, byteAt, List.getElem?_eq_getElem h]

theorem read_out_of_range (s : Bytes) (i : Nat) (h : s.length ≤ i) : read s i = none := by
  simp [read, List.getElem?_eq_none h]

theorem is_word_char_utf8_chk_eq (s : Bytes) (i : Nat) (h : i < s.length) :
    is_word_char_utf8_chk s i = some (is_word_char_utf8 s i) := by
  unfold is_word_char_utf8_chk is_word_char_utf8
  rw [read_eq s i h]
  simp only [Option.some_bind]
  by_cases h1 : byteAt s i < 0x80
  · simp only [h1, if_true]
  · simp only [h1, if_false]
    by_cases h2 : i + 1 < s.length
    · simp only [h2, if_true, read_eq s (i + 1) h2, Option.some_bind]
    · simp only [h2, if_false]

theorem read_all_eq (text : Bytes) (js : List Nat) (h : ∀ j ∈ js, j < text.length) :
    read_all text js = some (js.map (byteAt text)) := by
  induction js with
  | nil => rfl
  | cons j rest ih =>
    rw [read_all, read_eq text j (h j (List.mem_cons_self _ _)),
      ih (fun x hx => h x (List.mem_cons_of_mem _ hx))]
    rfl

theorem commit_copy_chk_eq (text : Bytes) (cfg : TokenizerConfig) (end_ : Nat)
    (hend : end_ ≤ text.length) :
    ∀ (fuel k : Nat) (token : Bytes), end_ ≤ k + fuel →
      commit_copy_chk text cfg end_ fuel k token = some (commit_copy text cfg end_ fuel k token) := by
  intro fuel
  induction fuel with
  | zero =>
    intro k token h
    have : ¬ k < end_ := by omega
    simp [commit_copy_chk, commit_copy, this]
  | succ n ih =>
    intro k token h
    simp only [commit_copy_chk, commit_copy]
    by_cases hk : k < end_
    · simp only [hk, if_true]
      rw [read_eq text k (by omega)]
      simp only [Option.some_bind]
      have hlen := utf8_char_len_pos (byteAt text k)
      by_cases hc : byteAt text k < 0x80
      · simp only [hc, if_true]
        exact ih _ _ (by omega)
      · simp only [hc, if_false]
        rw [read_all_eq]
        · simp only [Option.some_bind, List.map_map]
          exact ih _ _ (by omega)
        · intro j hj
          obtain ⟨t, ht, rfl⟩ := List.mem_map.mp hj
          have := List.mem_takeWhile_imp ht
          simp only [decide_eq_true_eq] at this
          omega
    · simp only [hk, if_false]

theorem commit_chk_eq (text : Bytes) (cfg : TokenizerConfig) (start end_ : Nat)
    (out : List Bytes) (hend : end_ ≤ text.length) :
    commit_chk text cfg start end_ out = some (commit text cfg start end_ out) := by
  unfold commit_chk commit
  by_cases h1 : end_ ≤ start
  · simp only [h1, if_true]
  · simp only [h1, if_false]
    by_cases h2 : (cfg.drop_short_tokens && decide (end_ - start < cfg.min_token_bytes)) = true
    · simp only [h2, if_true]
    · simp only [h2, if_false, Bool.false_eq_true]
      rw [commit_copy_chk_eq text cfg end_ hend _ _ _ (by omega)]
      rfl

theorem scan_run_chk_eq (text : Bytes) (cfg : TokenizerConfig) (start : Nat) :
    ∀ (fuel i e : Nat), text.length ≤ i + fuel →
      scan_run_chk text cfg start fuel i e = some (scan_run text cfg start fuel i e) := by
  intro fuel
  induction fuel with
  | zero =>
    intro i e h
    have : ¬ i < text.length := by omega
    simp [scan_run_chk, scan_run, this]
  | succ n ih =>
    intro i e h
    simp only [scan_run_chk, scan_run]
    by_cases hlt : i < text.length
    · simp only [hlt, if_true]
      rw [read_eq text i hlt, is_word_char_utf8_chk_eq text i hlt]
      have hlen := utf8_char_len_pos (byteAt text i)
      by_cases hk : cfg.keep_hyphen_inside = true
      · simp only [hk, if_true, Option.some_bind, Bool.true_and]
        by_cases hh : byteAt text i = 0x2D
        · simp only [hh, decide_True, if_true]
          by_cases h1 : i + 1 < text.length
          · simp only [h1, if_true, is_word_char_utf8_chk_eq text (i + 1) h1, Option.some_bind,
              decide_True, Bool.true_and]
            by_cases hj : (decide (start < i) && is_word_char_utf8 text (i + 1)) = true
            · simp only [hj, if_true]
              exact ih _ _ (by omega)
            · simp only [hj, Bool.false_eq_true, if_false]
          · simp only [h1, if_false, Option.some_bind, decide_False, Bool.false_and,
              Bool.and_false, Bool.false_eq_true]
        · simp only [hh, decide_False, Bool.false_eq_true, if_false]
          by_cases hw : is_word_char_utf8 text i = true
          · simp only [hw, if_true]
            exact ih _ _ (by omega)
          · simp only [hw, Bool.false_eq_true, if_false]
      · have hk2 : cfg.keep_hyphen_inside = false := by simpa using hk
        simp only [hk2, Bool.false_eq_true, if_false, Option.some_bind, Bool.false_and]
        by_cases hw : is_word_char_utf8 text i = true
        · simp only [hw, if_true]
          exact ih _ _ (by omega)
        · simp only [hw, Bool.false_eq_true, if_false]
    · simp only [hlt, if_false]

theorem scan_chk_eq (text : Bytes) (cfg : TokenizerConfig) :
    ∀ (fuel i : Nat) (out : List Bytes), text.length ≤ i + fuel →
      scan_chk text cfg fuel i out = some (scan text cfg fuel i out) := by
  intro fuel
  induction fuel with
  | zero =>
    intro i out h
    have : ¬ i < text.length := by omega
    simp [scan_chk, scan, this]
  | succ n ih =>
    intro i out h
    simp only [scan_chk, scan]
    by_cases hlt : i < text.length
    · simp only [hlt, if_true]
      rw [read_eq text i hlt, is_word_char_utf8_chk_eq text i hlt]
      simp only [Option.some_bind]
      have hlen := utf8_char_len_pos (byteAt text i)
      by_cases hw : is_word_char_utf8 text i = true
      · simp only [hw, Bool.not_true, Bool.false_eq_true, if_false]
        obtain ⟨r, hr, -, h2, h3, -⟩ := scan_run_shape text cfg i text.length i false
          (by omega) (by omega) le_rfl (fun h => by simp at h) (fun _ => hw)
        have hadv := h3 rfl
        rw [scan_run_chk_eq text cfg i text.length i i (by omega), hr]
        simp only [Option.some_bind]
        rw [commit_chk_eq text cfg i r out h2]
        simp only [Option.some_bind]
        exact ih _ _ (by omega)
      · simp only [hw, Bool.not_false, if_true]
        exact ih _ _ (by omega)
    · simp only [hlt, if_false]

/-- C13. For every byte string, malformed or truncated UTF-8 included, and every
configuration, `tokenize_stream` terminates without failing: run with checked reads and
checked termination it returns the token list, so every byte it reads is at an index
smaller than the text length and every loop ends within `text.length` iterations.  A
lead byte cut off by the end of the buffer is classified as non-word without a read past
the end (a read at or past the end would fail).  Every scan step advances the position
by at least one byte: a skipped separator by `utf8_char_len`, which is at least 1, and a
run that starts on a word character ends behind its start. -/
theorem tokenize_stream_safe (text : Bytes) (cfg : TokenizerConfig) :
    tokenize_stream_chk text cfg = some (tokenize_stream text cfg) ∧
    (∀ i, text.length ≤ i → read text i = none) ∧
    (∀ i, i + 1 = text.length → 0x80 ≤ byteAt text i →
      is_word_char_utf8_chk text i = some false) ∧
    (∀ c, 1 ≤ utf8_char_len c) ∧
    (∀ i, is_word_char_utf8 text i = true → i < (scan_run text cfg i text.length i i).1) ∧
    (∀ i, (scan_run text cfg i text.length i i).1 ≤ max i text.length) := by
  refine ⟨scan_chk_eq text cfg text.length 0 [] (by omega), read_out_of_range text, ?_,
    utf8_char_len_pos, fun i hw => scan_run_advances text cfg i hw, ?_⟩
  · intro i hi h80
    unfold is_word_char_utf8_chk
    rw [read_eq text i (by omega)]
    have h1 : ¬ byteAt text i < 0x80 := by omega
    have h2 : ¬ i + 1 < text.length := by omega
    simp only [Option.some_bind, h1, h2, if_false]
  · intro i
    by_cases hi : i < text.length
    · by_cases hw : is_word_char_utf8 text i = true
      · obtain ⟨r, hr, -, h2, -, -⟩ := scan_run_shape text cfg i text.length i false
          (by omega) (by omega) le_rfl (fun h => by simp at h) (fun _ => hw)
        rw [hr]
        simp only
        omega
      · obtain ⟨m, hm⟩ := Nat.exists_eq_succ_of_ne_zero (by omega : text.length ≠ 0)
        have hstop : scan_run text cfg i text.length i i = (i, i) := by
          rw [hm]
          simp only [scan_run, ← hm, hi, if_true, lt_self_iff_false, decide_False,
            Bool.false_and, Bool.false_eq_true, if_false, hw]
          split_ifs <;> rfl
        rw [hstop]
        simp only
        omega
    · have hstop : scan_run text cfg i text.length i i = (i, i) := by
        cases text.length with
        | zero => rfl
        | succ m => simp only [scan_run, hi, if_false]
      rw [hstop]
      simp only
      omega

end MaiIr
